import Mathlib

/-!
# Key phrase buffer (src/audio/kpb.c): history ring, drain start, draining task

Shallow embedding of the history-buffer part of the KPB component.

* A pointer to a `struct hb` is an index into the arena `kpb_comp_data.hbs`
  (index 0 is the embedded `kpb->history_buffer`); `none` is `NULL`.
  Dereferencing `NULL` or a dangling index makes the embedded function
  return `none`.
* Loops carry a fuel argument; running out of fuel is `none` as well.
* Addresses and `size_t` values are natural numbers; the explicit
  `(uint32_t)` casts of the source are kept as reductions modulo `2 ^ 32`.
* Calls into the rest of the firmware (`memcpy`, `comp_update_buffer_produce`,
  `schedule_task`, ...) and writes to objects outside the component are
  recorded, in order, in a list of `call`s.
-/

set_option autoImplicit false

namespace Kpb

/-! ## Data model -/

/-- Modelled from the spec: the segment labels declared in the absent header
`sof/audio/kpb.h` (state ∈ FREE, FULL, OFF). -/
inductive kpb_buffer_state where
  | KPB_BUFFER_FREE
  | KPB_BUFFER_FULL
  | KPB_BUFFER_OFF
deriving DecidableEq, Repr

/-- Modelled from the spec: the component level state declared in the absent
header `sof/audio/kpb.h`. -/
inductive kpb_state where
  | KPB_BUFFERING
  | KPB_DRAINING_ON_DEMAND
deriving DecidableEq, Repr

/-- Modelled from the spec: the client states declared in the absent header
`sof/audio/kpb.h`. -/
inductive kpb_client_state where
  | KPB_CLIENT_UNREGISTERED
  | KPB_CLIENT_BUFFERING
  | KPB_CLIENT_DRAINING
deriving DecidableEq, Repr

/-- Modelled from the spec: one history segment, `struct hb` of the absent
header `sof/audio/kpb.h`, with the fields that kpb.c reads and writes. -/
structure hb where
  state : kpb_buffer_state
  start_addr : Nat
  end_addr : Nat
  w_ptr : Nat
  r_ptr : Nat
  next : Option Nat
  prev : Option Nat
deriving DecidableEq, Repr

/-- Modelled from the spec: a client record, `struct kpb_client` of the absent
header `sof/audio/kpb.h`. `sink` is the address of the client's `comp_buffer`. -/
structure kpb_client where
  id : Nat
  history_depth : Nat
  sink : Nat
  r_ptr : Nat
  state : kpb_client_state
deriving DecidableEq, Repr

/-- Modelled from the spec: the draining task context, `struct dd` of the
absent header `sof/audio/kpb.h`. `sink` is the address of a `comp_buffer`;
`state` is true when the field holds `&kpb->state` and false when it is `NULL`. -/
structure dd where
  sink : Nat
  history_buffer : Option Nat
  history_depth : Nat
  state : Bool
deriving DecidableEq, Repr

/-- Modelled from the spec: the fields of a `struct comp_buffer` (absent header
`sof/audio/buffer.h`) that the component reads: the cursors, the byte
counters and the state of the component the buffer feeds
(`buffer->sink->state`). -/
structure comp_buffer where
  w_ptr : Nat
  r_ptr : Nat
  free : Nat
  avail : Nat
  sink_state : Nat
deriving DecidableEq, Repr

/-- Modelled from the spec: component private data, `struct kpb_comp_data` of
the absent header `sof/audio/kpb.h`, with the fields that kpb.c uses.
`cli_sink` and `rt_sink` are addresses of `comp_buffer`s. -/
structure kpb_comp_data where
  hbs : List hb
  is_internal_buffer_full : Bool
  state : kpb_state
  no_of_clients : Nat
  clients : List kpb_client
  draining_task_data : dd
  cli_sink : Nat
  rt_sink : Nat
deriving DecidableEq, Repr

/-- Calls that leave the component, in the order they are made.
`comp_overrun` and `comp_underrun` are recorded with the buffer they report;
`set_sink_state buffer state` is the assignment `buffer->sink->state = state`. -/
inductive call where
  | memcpy (dst src n : Nat)
  | comp_update_buffer_produce (sink bytes : Nat)
  | schedule_task
  | comp_update_buffer_consume (source bytes : Nat)
  | comp_overrun (sink : Nat)
  | comp_underrun (source : Nat)
  | set_sink_state (buffer state : Nat)
  | notifier_register
  | schedule_task_init
deriving DecidableEq, Repr

/-- The value of `(uint32_t)a - (uint32_t)b`. -/
def sub32 (a b : Nat) : Nat :=
  (a % 2 ^ 32 + 2 ^ 32 - b % 2 ^ 32) % 2 ^ 32

/-! ## kpb_buffer_data -/

/-- The "find free buffer" loop (kpb.c 432-437, and again 604-609):
starting at `buff`, follow `next` until a FREE segment is found or until
the next segment is `first_buff` (or `NULL`). -/
def find_free_buffer (hbs : List hb) (first_buff : Nat) : Nat → Nat → Option Nat
  | 0, _ => none
  | fuel + 1, buff =>
    match hbs[buff]? with
    | none => none
    | some b =>
      match b.next with
      | none => some buff
      | some nx =>
        if nx = first_buff then some buff
        else if b.state = kpb_buffer_state.KPB_BUFFER_FREE then some buff
        else find_free_buffer hbs first_buff fuel nx

/-- The segment hand-over of kpb.c 447-453 and 461-467, entered after
`buff->w_ptr = buff->start_addr`: when there is another segment, label the
current one FULL, step to `next` and label that one FREE; otherwise label
the current one FREE. Returns the ring and the new `buff`. -/
def switch_buffer (hbs : List hb) (buff : Nat) : Option (List hb × Nat) :=
  match hbs[buff]? with
  | none => none
  | some b =>
    match b.next with
    | none =>
      some (hbs.set buff { b with state := kpb_buffer_state.KPB_BUFFER_FREE }, buff)
    | some nx =>
      if nx = buff then
        some (hbs.set buff { b with state := kpb_buffer_state.KPB_BUFFER_FREE }, buff)
      else
        let hbs1 := hbs.set buff { b with state := kpb_buffer_state.KPB_BUFFER_FULL }
        match hbs1[nx]? with
        | none => none
        | some c =>
          some (hbs1.set nx { c with state := kpb_buffer_state.KPB_BUFFER_FREE }, nx)

/-- The copy loop of `kpb_buffer_data` (kpb.c 439-471). `src` is
`source->r_ptr`, which the loop never advances. -/
def kpb_buffer_loop (src : Nat) :
    Nat → List hb → Nat → Nat → List call → Option (List hb × List call)
  | 0, hbs, _, size_to_copy, tr => if size_to_copy = 0 then some (hbs, tr) else none
  | fuel + 1, hbs, buff, size_to_copy, tr =>
    if size_to_copy = 0 then some (hbs, tr)
    else
      match hbs[buff]? with
      | none => none
      | some b =>
        let space_avail := sub32 b.end_addr b.w_ptr
        if size_to_copy > space_avail then
          let tr1 := tr ++ [call.memcpy b.w_ptr src space_avail]
          match switch_buffer (hbs.set buff { b with w_ptr := b.start_addr }) buff with
          | none => none
          | some (hbs1, buff1) =>
            kpb_buffer_loop src fuel hbs1 buff1 (size_to_copy - space_avail) tr1
        else
          let tr1 := tr ++ [call.memcpy b.w_ptr src size_to_copy]
          let w := b.w_ptr + size_to_copy
          if w = b.end_addr then
            match switch_buffer (hbs.set buff { b with w_ptr := b.start_addr }) buff with
            | none => none
            | some (hbs1, buff1) => kpb_buffer_loop src fuel hbs1 buff1 0 tr1
          else
            kpb_buffer_loop src fuel (hbs.set buff { b with w_ptr := w }) buff 0 tr1

/-- The function `kpb_buffer_data(kpb, source, size)` (kpb.c 421-472);
`source` is given by the fields of the source buffer. -/
def kpb_buffer_data (fuel : Nat) (kpb : kpb_comp_data) (source : comp_buffer) (size : Nat) :
    Option (kpb_comp_data × List call) :=
  match find_free_buffer kpb.hbs 0 fuel 0 with
  | none => none
  | some buff =>
    match kpb_buffer_loop source.r_ptr fuel kpb.hbs buff size [] with
    | none => none
    | some (hbs1, tr) => some ({ kpb with hbs := hbs1 }, tr)

/-! ## kpb_have_enough_history_data -/

/-- The accumulation loop of `kpb_have_enough_history_data` (kpb.c 702-723);
returns the final `buffered_data`. -/
def have_enough_loop (hbs : List hb) (first_buff his_req : Nat) : Nat → Nat → Nat → Option Nat
  | 0, _, buffered_data => if buffered_data < his_req then none else some buffered_data
  | fuel + 1, buff, buffered_data =>
    if buffered_data < his_req then
      match hbs[buff]? with
      | none => none
      | some b =>
        let added : Option Nat :=
          if b.state = kpb_buffer_state.KPB_BUFFER_FREE then
            if b.w_ptr = b.start_addr then
              match b.next with
              | none => none
              | some nx =>
                match hbs[nx]? with
                | none => none
                | some c =>
                  if c.state = kpb_buffer_state.KPB_BUFFER_FULL then
                    some (sub32 b.end_addr b.start_addr)
                  else some (sub32 b.w_ptr b.start_addr)
            else some (sub32 b.w_ptr b.start_addr)
          else some (sub32 b.end_addr b.start_addr)
        match added with
        | none => none
        | some a =>
          match b.next with
          | none => some (buffered_data + a)
          | some nx =>
            if nx ≠ first_buff then
              have_enough_loop hbs first_buff his_req fuel nx (buffered_data + a)
            else some (buffered_data + a)
    else some buffered_data

/-- The function `kpb_have_enough_history_data(kpb, buff, his_req)`
(kpb.c 692-726); the result is the `uint8_t` it returns. -/
def kpb_have_enough_history_data (fuel : Nat) (kpb : kpb_comp_data) (buff his_req : Nat) :
    Option Nat :=
  if kpb.is_internal_buffer_full then some 1
  else
    match have_enough_loop kpb.hbs buff his_req fuel buff 0 with
    | none => none
    | some buffered_data => some (if buffered_data ≥ his_req then 1 else 0)

/-! ## kpb_init_draining -/

/-- The do-while loop of `kpb_init_draining` that computes the read pointer
(kpb.c 613-636). Returns the ring and the final `buff`. -/
def read_ptr_loop (history_depth first_buff : Nat) :
    Nat → List hb → Nat → Nat → Option (List hb × Nat)
  | 0, _, _, _ => none
  | fuel + 1, hbs, buff, buffered =>
    match hbs[buff]? with
    | none => none
    | some b =>
      let local_buff_buffered_size :=
        if b.state = kpb_buffer_state.KPB_BUFFER_FREE then sub32 b.w_ptr b.start_addr
        else if b.state = kpb_buffer_state.KPB_BUFFER_FULL then sub32 b.end_addr b.start_addr
        else 0
      let buffered1 := buffered + local_buff_buffered_size
      if history_depth > buffered1 then
        match b.prev with
        | none => none
        | some pv =>
          if pv ≠ first_buff then read_ptr_loop history_depth first_buff fuel hbs pv buffered1
          else some (hbs, pv)
      else if history_depth = buffered1 then
        some (hbs.set buff { b with r_ptr := b.start_addr }, buff)
      else
        some (hbs.set buff { b with r_ptr := b.start_addr + (buffered1 - history_depth) }, buff)

/-- The function `kpb_init_draining(kpb, cli)` (kpb.c 568-648).
`cli_sink` holds the fields of `*kpb->cli_sink` at the time of the call;
`KPB_MAX_NO_OF_CLIENTS` and `COMP_STATE_ACTIVE` are the constants of the
absent headers. A rejected request returns the component unchanged with no
call recorded. -/
def kpb_init_draining (KPB_MAX_NO_OF_CLIENTS COMP_STATE_ACTIVE : Nat) (fuel : Nat)
    (kpb : kpb_comp_data) (cli_sink : comp_buffer) (cli : kpb_client) :
    Option (kpb_comp_data × List call) :=
  let is_sink_ready : Bool := cli_sink.sink_state = COMP_STATE_ACTIVE
  let history_depth := cli.history_depth
  if cli.id > KPB_MAX_NO_OF_CLIENTS then some (kpb, [])
  else if !is_sink_ready then some (kpb, [])
  else
    match kpb_have_enough_history_data fuel kpb 0 history_depth with
    | none => none
    | some enough =>
      if enough = 0 then some (kpb, [])
      else
        match find_free_buffer kpb.hbs 0 fuel 0 with
        | none => none
        | some first_buff =>
          match read_ptr_loop history_depth first_buff fuel kpb.hbs first_buff 0 with
          | none => none
          | some (hbs1, buff) =>
            some ({ kpb with
                    hbs := hbs1
                    draining_task_data :=
                      { sink := kpb.cli_sink
                        history_buffer := some buff
                        history_depth := history_depth
                        state := true } },
                  [call.schedule_task])

/-! ## draining_task -/

/-- The loop of `draining_task` (kpb.c 658-685). Each element of the list is
the content of `*sink` as the loop finds it at the start of one iteration
(the sink is updated outside the component, by `comp_update_buffer_produce`
and by its consumer); the run is cut short (`none`) when the list is used up
while `history_depth` is still positive. Returns the ring, the context and
the calls made. -/
def draining_loop (sink_addr : Nat) :
    List comp_buffer → List hb → dd → Option Nat → List call →
      Option (List hb × dd × List call)
  | [], hbs, d, _, tr => if d.history_depth > 0 then none else some (hbs, d, tr)
  | sink :: rest, hbs, d, buff, tr =>
    if d.history_depth > 0 then
      match buff with
      | none => none
      | some bi =>
        match hbs[bi]? with
        | none => none
        | some b =>
          let size_to_read := sub32 b.end_addr b.r_ptr
          if size_to_read > sink.free then
            let size_to_copy :=
              if sink.free ≥ d.history_depth then d.history_depth else sink.free
            draining_loop sink_addr rest
              (hbs.set bi { b with r_ptr := b.r_ptr + size_to_copy % 2 ^ 32 })
              { d with history_depth := d.history_depth - size_to_copy }
              buff
              (tr ++ [call.memcpy sink.w_ptr b.r_ptr size_to_copy,
                      call.comp_update_buffer_produce sink_addr size_to_copy])
          else
            let size_to_copy :=
              if size_to_read ≥ d.history_depth then d.history_depth else size_to_read
            draining_loop sink_addr rest
              (hbs.set bi { b with r_ptr := b.start_addr })
              { d with history_depth := d.history_depth - size_to_copy
                       history_buffer := b.next }
              b.next
              (tr ++ [call.memcpy sink.w_ptr b.r_ptr size_to_copy,
                      call.comp_update_buffer_produce sink_addr size_to_copy])
    else some (hbs, d, tr)

/-- The function `draining_task(arg)` (kpb.c 650-690) with
`arg = &kpb->draining_task_data`. -/
def draining_task (kpb : kpb_comp_data) (sinks : List comp_buffer) :
    Option (kpb_comp_data × List call) :=
  match draining_loop kpb.draining_task_data.sink sinks kpb.hbs kpb.draining_task_data
      kpb.draining_task_data.history_buffer [] with
  | none => none
  | some (hbs1, d1, tr) =>
    if d1.state then
      some ({ kpb with
              hbs := hbs1
              draining_task_data := d1
              state := kpb_state.KPB_DRAINING_ON_DEMAND }, tr)
    else none

/-! ## Ring geometry, invariants and reachable states -/

/-- Size in bytes of a segment. -/
def seg_size (b : hb) : Nat := b.end_addr - b.start_addr

/-- Total capacity of the ring: the sum of the segment sizes. -/
def capacity (hbs : List hb) : Nat := (hbs.map seg_size).sum

/-- Linear offset of the start of segment `i`: the sizes of the segments
before it. -/
def offset_of (hbs : List hb) (i : Nat) : Nat := ((hbs.take i).map seg_size).sum

/-- The part of a segment no operation of the component writes after
construction: its bounds and its links. -/
def hb_geometry (b : hb) : Nat × Nat × Option Nat × Option Nat :=
  (b.start_addr, b.end_addr, b.next, b.prev)

/-- The `next`/`prev` links form one circular chain through all segments:
segment `i` is followed by segment `i + 1` and the last one by the head. -/
def links_circular (hbs : List hb) : Prop :=
  0 < hbs.length ∧ ∀ i, i < hbs.length → ∀ b ∈ hbs[i]?,
    b.next = some ((i + 1) % hbs.length) ∧
    b.prev = some ((i + hbs.length - 1) % hbs.length)

instance (hbs : List hb) : Decidable (links_circular hbs) := by
  unfold links_circular; infer_instance

/-- Both cursors of every segment lie between the segment bounds. -/
def cursors_in_bounds (hbs : List hb) : Prop :=
  ∀ b ∈ hbs, b.start_addr ≤ b.w_ptr ∧ b.w_ptr ≤ b.end_addr ∧
    b.start_addr ≤ b.r_ptr ∧ b.r_ptr ≤ b.end_addr

instance (hbs : List hb) : Decidable (cursors_in_bounds hbs) := by
  unfold cursors_in_bounds; infer_instance

/-- The ring invariant: cursors within bounds and a circular chain. -/
def ring_invariant (hbs : List hb) : Prop :=
  cursors_in_bounds hbs ∧ links_circular hbs

instance (hbs : List hb) : Decidable (ring_invariant hbs) := by
  unfold ring_invariant; infer_instance

/-- A well-formed ring as `kpb_new` leaves it when every segment got its
memory: a circular chain of non-empty segments inside the 32-bit address
space, each FREE with both cursors at its start. -/
def fresh_ring (hbs : List hb) : Prop :=
  links_circular hbs ∧ ∀ b ∈ hbs,
    b.state = kpb_buffer_state.KPB_BUFFER_FREE ∧
    b.start_addr < b.end_addr ∧ b.end_addr < 2 ^ 32 ∧
    b.w_ptr = b.start_addr ∧ b.r_ptr = b.start_addr

instance (hbs : List hb) : Decidable (fresh_ring hbs) := by
  unfold fresh_ring; infer_instance

/-- Component states reached from a well-formed fresh ring, together with
the number of bytes handed to `kpb_buffer_data` on the way. Besides writes,
the flag `is_internal_buffer_full` may get set (as `kpb_copy` does) and
drains may be initiated and run. -/
inductive ReachedBy : kpb_comp_data → Nat → Prop where
  | fresh (kpb : kpb_comp_data) : fresh_ring kpb.hbs → ReachedBy kpb 0
  | write (kpb : kpb_comp_data) (n fuel : Nat) (source : comp_buffer) (size : Nat)
      (kpb1 : kpb_comp_data) (tr : List call) :
      ReachedBy kpb n → kpb_buffer_data fuel kpb source size = some (kpb1, tr) →
      ReachedBy kpb1 (n + size)
  | full (kpb : kpb_comp_data) (n : Nat) :
      ReachedBy kpb n → ReachedBy { kpb with is_internal_buffer_full := true } n
  | init_draining (kpb : kpb_comp_data) (n maxc act fuel : Nat) (cli_sink : comp_buffer)
      (cli : kpb_client) (kpb1 : kpb_comp_data) (tr : List call) :
      ReachedBy kpb n → kpb_init_draining maxc act fuel kpb cli_sink cli = some (kpb1, tr) →
      ReachedBy kpb1 n
  | drain (kpb : kpb_comp_data) (n : Nat) (sinks : List comp_buffer)
      (kpb1 : kpb_comp_data) (tr : List call) :
      ReachedBy kpb n → draining_task kpb sinks = some (kpb1, tr) → ReachedBy kpb1 n

/-- Shape of the ring while segment `f` is the write segment with `o` bytes
written into it: the segments before `f` are FULL, `f` is FREE, the
segments after `f` are all FREE (`virgin`, the ring has not wrapped yet) or
all FULL, and every write cursor but that of `f` rests at its segment start. -/
def ring_at (hbs : List hb) (f o : Nat) (virgin : Bool) : Prop :=
  links_circular hbs ∧ f < hbs.length ∧
  ∀ i, i < hbs.length → ∀ b ∈ hbs[i]?,
    b.start_addr < b.end_addr ∧ b.end_addr < 2 ^ 32 ∧
    (i < f → b.state = kpb_buffer_state.KPB_BUFFER_FULL ∧ b.w_ptr = b.start_addr) ∧
    (i = f → b.state = kpb_buffer_state.KPB_BUFFER_FREE ∧
      b.w_ptr = b.start_addr + o ∧ o < seg_size b) ∧
    (f < i → b.w_ptr = b.start_addr ∧
      b.state = if virgin then kpb_buffer_state.KPB_BUFFER_FREE
                else kpb_buffer_state.KPB_BUFFER_FULL)

/-- The ring has the shape that `n` written bytes give it: the write
position is at linear offset `n mod capacity` and the ring is virgin exactly
while `n` is below the capacity. -/
def ring_inv (hbs : List hb) (n : Nat) : Prop :=
  ∃ f o, ring_at hbs f o (decide (n < capacity hbs)) ∧
    offset_of hbs f + o = n % capacity hbs

/-- The segment `kpb_buffer_data` writes to next: the result of its
"find free buffer" loop started at the head. -/
def write_segment (hbs : List hb) : Option Nat :=
  find_free_buffer hbs 0 hbs.length 0

/-- Linear offset of the write position: the sizes of the segments before
the write segment plus `w_ptr - start_addr` of the write segment. -/
def write_offset (hbs : List hb) : Option Nat :=
  match write_segment hbs with
  | none => none
  | some f =>
    match hbs[f]? with
    | none => none
    | some b => some (offset_of hbs f + (b.w_ptr - b.start_addr))

/-- Number of bytes from position `pos` of segment `cur` forward to position
`w` of segment `wb`, following `next` and wrapping across segments. -/
def walk_forward (hbs : List hb) (wb w : Nat) : Nat → Nat → Nat → Option Nat
  | 0, _, _ => none
  | fuel + 1, cur, pos =>
    if cur = wb ∧ pos ≤ w then some (w - pos)
    else
      match hbs[cur]? with
      | none => none
      | some b =>
        match b.next with
        | none => none
        | some nx =>
          match hbs[nx]? with
          | none => none
          | some c =>
            match walk_forward hbs wb w fuel nx c.start_addr with
            | none => none
            | some rest => some ((b.end_addr - pos) + rest)

/-- Bytes the read pointer computation of `kpb_init_draining` counts for a
segment: `w_ptr - start_addr` when FREE, the size when FULL, nothing when OFF. -/
def counted_size (b : hb) : Nat :=
  match b.state with
  | kpb_buffer_state.KPB_BUFFER_FREE => b.w_ptr - b.start_addr
  | kpb_buffer_state.KPB_BUFFER_FULL => b.end_addr - b.start_addr
  | kpb_buffer_state.KPB_BUFFER_OFF => 0

/-- Bytes the read pointer computation counts over the whole ring. -/
def counted (hbs : List hb) : Nat := (hbs.map counted_size).sum

/-- The byte counts passed to `comp_update_buffer_produce`, in order. -/
def produced : List call → List Nat
  | [] => []
  | call.comp_update_buffer_produce _ n :: tr => n :: produced tr
  | _ :: tr => produced tr

/-- A segment with its read cursor blanked: what the write path sees. -/
def drop_r_ptr (b : hb) : hb := { b with r_ptr := 0 }

/-- A segment with its label and write cursor blanked: the bounds, the links
and the read cursor. -/
def drop_write (b : hb) : hb :=
  { b with state := kpb_buffer_state.KPB_BUFFER_OFF, w_ptr := 0 }

/-! ## Example states -/

/-- A fresh segment `[s, e)` linked to `nx` and `pv`. -/
def ex_seg (s e nx pv : Nat) : hb :=
  { state := kpb_buffer_state.KPB_BUFFER_FREE, start_addr := s, end_addr := e,
    w_ptr := s, r_ptr := s, next := some nx, prev := some pv }

/-- A component around the ring `hbs`, with no client and no drain. -/
def ex_comp (hbs : List hb) : kpb_comp_data :=
  { hbs := hbs, is_internal_buffer_full := false, state := kpb_state.KPB_BUFFERING,
    no_of_clients := 0, clients := [],
    draining_task_data := { sink := 0, history_buffer := none, history_depth := 0, state := false },
    cli_sink := 7, rt_sink := 8 }

/-- A fresh ring of two segments of 100 and 50 bytes. -/
def ex_fresh : kpb_comp_data :=
  ex_comp [ex_seg 1000 1100 1 1, ex_seg 2000 2050 0 0]

/-- A source buffer whose read pointer is 5000. -/
def ex_source : comp_buffer :=
  { w_ptr := 0, r_ptr := 5000, free := 0, avail := 200, sink_state := 0 }

/-- The client sink with `free` bytes free, its consumer in state 5. -/
def ex_sink (free : Nat) : comp_buffer :=
  { w_ptr := 9000, r_ptr := 0, free := free, avail := 0, sink_state := 5 }

/-- Client 0 asking for `d` bytes of history. -/
def ex_client (d : Nat) : kpb_client :=
  { id := 0, history_depth := d, sink := 7, r_ptr := 0,
    state := kpb_client_state.KPB_CLIENT_BUFFERING }

/-- The ring of `ex_fresh` after `n` bytes written by one call. -/
def ex_written (n : Nat) : kpb_comp_data :=
  match kpb_buffer_data 200 ex_fresh ex_source n with
  | some (kpb, _) => kpb
  | none => ex_fresh

/-- Bytes between the start selected for the drain (the segment
`draining_task_data.history_buffer` at its `r_ptr`) and the current write
position (the write segment at its `w_ptr`), walking forward. -/
def drain_distance (kpb : kpb_comp_data) : Option Nat :=
  match kpb.draining_task_data.history_buffer with
  | none => none
  | some rb =>
    match kpb.hbs[rb]? with
    | none => none
    | some b =>
      match write_segment kpb.hbs with
      | none => none
      | some f =>
        match kpb.hbs[f]? with
        | none => none
        | some bf => walk_forward kpb.hbs f bf.w_ptr (kpb.hbs.length + 1) rb b.r_ptr

/-- The component of `ex_fresh` after 120 bytes were written and a drain of
110 bytes was accepted: the drain starts in segment 0 at address 1010. -/
def ex_draining_110 : kpb_comp_data :=
  { hbs := [{ state := kpb_buffer_state.KPB_BUFFER_FULL, start_addr := 1000, end_addr := 1100,
              w_ptr := 1000, r_ptr := 1010, next := some 1, prev := some 1 },
            { state := kpb_buffer_state.KPB_BUFFER_FREE, start_addr := 2000, end_addr := 2050,
              w_ptr := 2020, r_ptr := 2000, next := some 0, prev := some 0 }],
    is_internal_buffer_full := false, state := kpb_state.KPB_BUFFERING,
    no_of_clients := 0, clients := [],
    draining_task_data :=
      { sink := 7, history_buffer := some 0, history_depth := 110, state := true },
    cli_sink := 7, rt_sink := 8 }

/-- The component `ex_draining_110` after its drain has run. -/
def ex_drained_110 : kpb_comp_data :=
  { hbs := [{ state := kpb_buffer_state.KPB_BUFFER_FULL, start_addr := 1000, end_addr := 1100,
              w_ptr := 1000, r_ptr := 1000, next := some 1, prev := some 1 },
            { state := kpb_buffer_state.KPB_BUFFER_FREE, start_addr := 2000, end_addr := 2050,
              w_ptr := 2020, r_ptr := 2000, next := some 0, prev := some 0 }],
    is_internal_buffer_full := false, state := kpb_state.KPB_DRAINING_ON_DEMAND,
    no_of_clients := 0, clients := [],
    draining_task_data :=
      { sink := 7, history_buffer := some 0, history_depth := 0, state := true },
    cli_sink := 7, rt_sink := 8 }

/-- The component `ex_draining_110` after 70 more bytes were written. -/
def ex_written_over_drain : kpb_comp_data :=
  match kpb_buffer_data 200 ex_draining_110 ex_source 70 with
  | some (kpb, _) => kpb
  | none => ex_draining_110

/-! ## Byte memory -/

/-- The memory after `memcpy(dst, src, n)` (the areas do not overlap). -/
def memcpy_apply (mem : Nat → Nat) (dst src n : Nat) : Nat → Nat :=
  fun a => if dst ≤ a ∧ a < dst + n then mem (src + (a - dst)) else mem a

/-- The memory after the `memcpy` calls of a list of calls, in order. -/
def mem_after (mem : Nat → Nat) : List call → Nat → Nat
  | [] => mem
  | call.memcpy dst src n :: tr => mem_after (memcpy_apply mem dst src n) tr
  | _ :: tr => mem_after mem tr

/-- Address of the byte at linear offset `q` of the ring. -/
def ring_addr : List hb → Nat → Option Nat
  | [], _ => none
  | b :: rest, q => if q < seg_size b then some (b.start_addr + q) else ring_addr rest (q - seg_size b)

/-- A memory in which the source span at 5000 holds the bytes 0, 1, 2, ... -/
def ex_mem : Nat → Nat := fun a => (a - 5000) % 256

/-- The component of `ex_fresh` after 40 bytes were written and a drain of
30 bytes was accepted: the drain starts in segment 0 at address 1010. -/
def ex_draining_30 : kpb_comp_data :=
  { hbs := [{ state := kpb_buffer_state.KPB_BUFFER_FREE, start_addr := 1000, end_addr := 1100,
              w_ptr := 1040, r_ptr := 1010, next := some 1, prev := some 1 },
            ex_seg 2000 2050 0 0],
    is_internal_buffer_full := false, state := kpb_state.KPB_BUFFERING,
    no_of_clients := 0, clients := [],
    draining_task_data :=
      { sink := 7, history_buffer := some 0, history_depth := 30, state := true },
    cli_sink := 7, rt_sink := 8 }

/-- The component `ex_draining_30` after its drain has run. -/
def ex_drained_30 : kpb_comp_data :=
  { hbs := [{ state := kpb_buffer_state.KPB_BUFFER_FREE, start_addr := 1000, end_addr := 1100,
              w_ptr := 1040, r_ptr := 1040, next := some 1, prev := some 1 },
            ex_seg 2000 2050 0 0],
    is_internal_buffer_full := false, state := kpb_state.KPB_DRAINING_ON_DEMAND,
    no_of_clients := 0, clients := [],
    draining_task_data :=
      { sink := 7, history_buffer := some 0, history_depth := 0, state := true },
    cli_sink := 7, rt_sink := 8 }

/-! ## kpb_register_client -/

/-- The function `kpb_register_client(kpb, cli)` (kpb.c 520-556); `cli` is
`none` for a null pointer, `EINVAL` is the errno constant, and the result is
the returned `int` with the component afterwards. The table `kpb->clients`
has `KPB_MAX_NO_OF_CLIENTS` entries; an access outside the list gives `none`. -/
def kpb_register_client (EINVAL KPB_MAX_NO_OF_CLIENTS : Nat) (kpb : kpb_comp_data)
    (cli : Option kpb_client) : Option (Int × kpb_comp_data) :=
  match cli with
  | none => some (-(EINVAL : Int), kpb)
  | some c =>
    if kpb.no_of_clients ≥ KPB_MAX_NO_OF_CLIENTS ∨ c.id ≥ KPB_MAX_NO_OF_CLIENTS then
      some (-(EINVAL : Int), kpb)
    else
      match kpb.clients[c.id]? with
      | none => none
      | some slot =>
        if slot.state ≠ kpb_client_state.KPB_CLIENT_UNREGISTERED then
          some (-(EINVAL : Int), kpb)
        else
          some (0, { kpb with
            clients := kpb.clients.set c.id
              { slot with id := c.id, history_depth := c.history_depth, sink := c.sink,
                          r_ptr := 0, state := kpb_client_state.KPB_CLIENT_BUFFERING },
            no_of_clients := kpb.no_of_clients + 1 })

/-! ## kpb_copy -/

/-- The function `kpb_copy(dev)` (kpb.c 339-410). The static local `buffered`
is passed in and returned. `source_addr` is the source buffer pointer with
`source` its fields; the sink pointers are `kpb.rt_sink` and `kpb.cli_sink`
(0 for null) with `rt_sink` and `cli_sink` their fields. The result is the
returned `int`, the component, `buffered`, and the calls made. -/
def kpb_copy (EINVAL EIO KPB_MAX_BUFFER_SIZE COMP_STATE_PAUSED fuel : Nat)
    (kpb : kpb_comp_data) (buffered : Nat) (source_addr : Nat)
    (source rt_sink cli_sink : comp_buffer) :
    Option (Int × kpb_comp_data × Nat × List call) :=
  let sink_addr := if kpb.state = kpb_state.KPB_BUFFERING then kpb.rt_sink else kpb.cli_sink
  let sink := if kpb.state = kpb_state.KPB_BUFFERING then rt_sink else cli_sink
  if kpb.state ≠ kpb_state.KPB_BUFFERING ∧ kpb.rt_sink = 0 then none
  else
    let tr0 : List call :=
      if kpb.state ≠ kpb_state.KPB_BUFFERING then
        [call.set_sink_state kpb.rt_sink COMP_STATE_PAUSED]
      else []
    if source_addr ≠ 0 ∧ sink_addr ≠ 0 then
      if source.r_ptr = 0 ∨ sink.w_ptr = 0 then some (-(EINVAL : Int), kpb, buffered, tr0)
      else if sink.free = 0 then
        some (-( EIO : Int), kpb, buffered, tr0 ++ [call.comp_overrun sink_addr])
      else if source.avail = 0 then
        some (-( EIO : Int), kpb, buffered, tr0 ++ [call.comp_underrun source_addr])
      else
        let copy_bytes := min sink.free source.avail
        let tr1 := tr0 ++ [call.memcpy sink.w_ptr source.r_ptr copy_bytes]
        let update : List call :=
          [call.comp_update_buffer_produce sink_addr copy_bytes,
           call.comp_update_buffer_consume source_addr copy_bytes]
        if source.avail ≤ KPB_MAX_BUFFER_SIZE then
          match kpb_buffer_data fuel kpb source copy_bytes with
          | none => none
          | some (kpb1, tr2) =>
            if buffered < KPB_MAX_BUFFER_SIZE then
              some (0, kpb1, buffered + copy_bytes, tr1 ++ tr2 ++ update)
            else
              some (0, { kpb1 with is_internal_buffer_full := true }, buffered,
                    tr1 ++ tr2 ++ update)
        else some (0, kpb, buffered, tr1 ++ update)
    else some (-( EIO : Int), kpb, buffered, tr0)

/-! ## kpb_new -/

/-- Modelled from the spec: the fields of the configuration
`struct sof_kpb_config` that `kpb_new` checks. -/
structure sof_kpb_config where
  no_channels : Nat
  history_depth : Nat
  sampling_freq : Nat
  sampling_width : Nat
deriving DecidableEq, Repr

/-- One call of `rballoc`: the index `i` into `hb_mcp` of the pool asked,
the size asked, and the pointer returned (0 for null). -/
structure request where
  pool : Nat
  size : Nat
  ptr : Nat
deriving DecidableEq, Repr

/-- The local variables of the allocation loop of `kpb_new`, with the
segment arena and the requests made so far. -/
structure alloc_state where
  hbs : List hb
  history_buffer : Nat
  hb_size : Nat
  ca_size : Nat
  i : Nat
  requests : List request
deriving DecidableEq, Repr

/-- The allocation loop of `kpb_new` (kpb.c 143-187). The allocator is the
function `rballoc`: given the requests made so far, the pool index and the
size it returns the pointer (0 for null). `size_t` has 32 bits. The
descriptor obtained from `rzalloc` is zeroed and placed at the end of the
arena; the source uses it unchecked. -/
def kpb_new_loop (KPB_ALLOCATION_STEP KPB_NO_OF_MEM_POOLS : Nat)
    (rballoc : List request → Nat → Nat → Nat) : Nat → alloc_state → Option alloc_state
  | 0, _ => none
  | fuel + 1, s =>
    if 0 < s.hb_size ∧ s.i < KPB_NO_OF_MEM_POOLS then
      let ptr := rballoc s.requests s.i s.ca_size
      let requests := s.requests ++ [{ pool := s.i, size := s.ca_size, ptr := ptr }]
      if ptr ≠ 0 then
        match s.hbs[s.history_buffer]? with
        | none => none
        | some b =>
          let b1 : hb := { b with start_addr := ptr, end_addr := ptr + s.ca_size,
                                  w_ptr := ptr, r_ptr := ptr,
                                  state := kpb_buffer_state.KPB_BUFFER_FREE, next := some 0 }
          let hb_size := sub32 s.hb_size s.ca_size
          if 0 < hb_size then
            let new_hb := s.hbs.length
            let hbs2 := s.hbs.set s.history_buffer { b1 with next := some new_hb } ++
              [{ state := kpb_buffer_state.KPB_BUFFER_OFF, start_addr := 0, end_addr := 0,
                 w_ptr := 0, r_ptr := 0, next := none, prev := some s.history_buffer }]
            match hbs2[0]? with
            | none => none
            | some h =>
              kpb_new_loop KPB_ALLOCATION_STEP KPB_NO_OF_MEM_POOLS rballoc fuel
                { hbs := hbs2.set 0 { h with prev := some new_hb }, history_buffer := new_hb,
                  hb_size := hb_size, ca_size := hb_size, i := s.i + 1, requests := requests }
          else
            kpb_new_loop KPB_ALLOCATION_STEP KPB_NO_OF_MEM_POOLS rballoc fuel
              { s with hbs := s.hbs.set s.history_buffer b1, hb_size := hb_size,
                       requests := requests }
      else
        let _temp := sub32 s.ca_size KPB_ALLOCATION_STEP
        let ca_size := if s.ca_size < _temp then 0 else _temp
        if ca_size = 0 then
          kpb_new_loop KPB_ALLOCATION_STEP KPB_NO_OF_MEM_POOLS rballoc fuel
            { s with ca_size := s.hb_size, i := s.i + 1, requests := requests }
        else
          kpb_new_loop KPB_ALLOCATION_STEP KPB_NO_OF_MEM_POOLS rballoc fuel
            { s with ca_size := ca_size, requests := requests }
    else some s

/-- The function `kpb_new(comp)` from the configuration checks on
(kpb.c 109-197); `cd` is the zeroed component data that `rzalloc` returned,
its head segment at index 0 of the arena. The result holds `none` where the
source returns NULL, else the component data, and the requests made to
`rballoc`. -/
def kpb_new (KPB_MAX_SUPPORTED_CHANNELS KPB_MAX_BUFFER_SIZE KPB_SAMPLNG_FREQUENCY
    KPB_SAMPLING_WIDTH KPB_ALLOCATION_STEP KPB_NO_OF_MEM_POOLS : Nat)
    (rballoc : List request → Nat → Nat → Nat) (fuel : Nat)
    (config : sof_kpb_config) (cd : kpb_comp_data) :
    Option (Option kpb_comp_data × List request) :=
  if config.no_channels > KPB_MAX_SUPPORTED_CHANNELS then some (none, [])
  else if config.history_depth > KPB_MAX_BUFFER_SIZE then some (none, [])
  else if config.sampling_freq ≠ KPB_SAMPLNG_FREQUENCY then some (none, [])
  else if config.sampling_width ≠ KPB_SAMPLING_WIDTH then some (none, [])
  else
    match cd.hbs[0]? with
    | none => none
    | some h0 =>
      match kpb_new_loop KPB_ALLOCATION_STEP KPB_NO_OF_MEM_POOLS rballoc fuel
          { hbs := cd.hbs.set 0 { h0 with next := some 0, prev := some 0 },
            history_buffer := 0, hb_size := KPB_MAX_BUFFER_SIZE,
            ca_size := KPB_MAX_BUFFER_SIZE, i := 0, requests := [] } with
      | none => none
      | some s =>
        match s.hbs[0]? with
        | none => none
        | some h =>
          if h.start_addr = 0 then some (none, s.requests)
          else some (some { cd with hbs := s.hbs, no_of_clients := 0,
                                    state := kpb_state.KPB_BUFFERING }, s.requests)

/-- What the allocation loop of `kpb_new` keeps true, for the total size
`maxb`: while something is wanted the current request is positive and does
not exceed it, the current
descriptor is in the arena, and the head segment has memory exactly when some
request made so far was granted (after which the current descriptor is
another one, or nothing more is wanted). -/
def alloc_inv (maxb : Nat) (s : alloc_state) : Prop :=
  (0 < s.hb_size → s.ca_size ≤ s.hb_size) ∧ s.hb_size ≤ maxb ∧
  (0 < s.hb_size → 0 < s.ca_size) ∧
  s.history_buffer < s.hbs.length ∧
  ∃ h, s.hbs[0]? = some h ∧
    ((h.start_addr = 0 ∧ s.history_buffer = 0 ∧ ∀ q ∈ s.requests, q.ptr = 0) ∨
     (h.start_addr ≠ 0 ∧ (∃ q ∈ s.requests, q.ptr ≠ 0) ∧
       (s.history_buffer ≠ 0 ∨ s.hb_size = 0)))

/-! ## The documented accounting of buffered history -/

/-- What a segment adds to the sum in the accounting as documented: a FULL
segment its capacity, a FREE segment `w_ptr - start` unless the next segment
`c` is FULL, then its capacity. -/
def documented_share (b c : hb) : Nat :=
  match b.state with
  | kpb_buffer_state.KPB_BUFFER_FULL => seg_size b
  | kpb_buffer_state.KPB_BUFFER_FREE =>
    if c.state = kpb_buffer_state.KPB_BUFFER_FULL then seg_size b
    else b.w_ptr - b.start_addr
  | kpb_buffer_state.KPB_BUFFER_OFF => 0

/-- The share with the further condition the source puts on the special
case: the FREE segment has its write cursor at its start. -/
def guarded_share (b c : hb) : Nat :=
  match b.state with
  | kpb_buffer_state.KPB_BUFFER_FULL => seg_size b
  | kpb_buffer_state.KPB_BUFFER_FREE =>
    if b.w_ptr = b.start_addr ∧ c.state = kpb_buffer_state.KPB_BUFFER_FULL then seg_size b
    else b.w_ptr - b.start_addr
  | kpb_buffer_state.KPB_BUFFER_OFF => 0

/-- The documented walk over a ring given in ring order: from segment `i`,
over at most `k` segments, add the share of each segment (judged with the
segment after it in the ring) and stop once the sum reaches `d`. -/
def accounting_walk (share : hb → hb → Nat) (hbs : List hb) (d : Nat) : Nat → Nat → Nat → Nat
  | 0, _, sum => sum
  | k + 1, i, sum =>
    if sum ≥ d then sum
    else
      match hbs[i]?, hbs[(i + 1) % hbs.length]? with
      | some b, some c => accounting_walk share hbs d k (i + 1) (sum + share b c)
      | _, _ => sum

/-- The documented result: walk once round the ring from the head; true iff
the sum reached `d`. -/
def accounting_enough (share : hb → hb → Nat) (hbs : List hb) (d : Nat) : Bool :=
  decide (accounting_walk share hbs d hbs.length 0 0 ≥ d)

/-! ## Views of a `kpb_copy` run -/

/-- The sink pointer `kpb_copy` selects: the real-time sink while buffering,
else the client sink. -/
def copy_sink_addr (kpb : kpb_comp_data) : Nat :=
  if kpb.state = kpb_state.KPB_BUFFERING then kpb.rt_sink else kpb.cli_sink

/-- The fields of the sink `kpb_copy` selects. -/
def copy_sink (kpb : kpb_comp_data) (rt_sink cli_sink : comp_buffer) : comp_buffer :=
  if kpb.state = kpb_state.KPB_BUFFERING then rt_sink else cli_sink

/-- The produce and consume calls of a trace, in order. -/
def updates : List call → List call
  | [] => []
  | call.comp_update_buffer_produce s n :: tr =>
    call.comp_update_buffer_produce s n :: updates tr
  | call.comp_update_buffer_consume s n :: tr =>
    call.comp_update_buffer_consume s n :: updates tr
  | _ :: tr => updates tr

/-- The `memcpy` calls of a trace, in order. -/
def copies : List call → List call
  | [] => []
  | call.memcpy d s n :: tr => call.memcpy d s n :: copies tr
  | _ :: tr => copies tr

/-! ## Further example states -/

/-- A client table of `n` unregistered slots. -/
def ex_clients (n : Nat) : List kpb_client :=
  List.replicate n { id := 0, history_depth := 0, sink := 0, r_ptr := 0,
                     state := kpb_client_state.KPB_CLIENT_UNREGISTERED }

/-- The component `ex_fresh` with a table of two unregistered clients. -/
def ex_registry : kpb_comp_data := { ex_fresh with clients := ex_clients 2 }

/-- Client `id` asking for `d` bytes of history into sink 7. -/
def ex_client_id (id d : Nat) : kpb_client :=
  { id := id, history_depth := d, sink := 7, r_ptr := 0,
    state := kpb_client_state.KPB_CLIENT_UNREGISTERED }

/-- The zeroed component data before `kpb_new` fills it; `z` is the segment
state with value 0. -/
def ex_zeroed (z : kpb_buffer_state) : kpb_comp_data :=
  ex_comp [{ state := z, start_addr := 0, end_addr := 0, w_ptr := 0, r_ptr := 0,
             next := none, prev := none }]

/-- A configuration that passes the checks for the limits 2, 150, 16000, 16. -/
def ex_config : sof_kpb_config :=
  { no_channels := 2, history_depth := 100, sampling_freq := 16000, sampling_width := 16 }

/-- An allocator that fails the first request and grants only the second,
at address 1000. -/
def ex_rballoc_second : List request → Nat → Nat → Nat :=
  fun reqs _ _ => if reqs.length = 1 then 1000 else 0

/-- An allocator that grants every request of at most 100 bytes, each at a
fresh address. -/
def ex_rballoc_small : List request → Nat → Nat → Nat :=
  fun reqs _ size => if size ≤ 100 then 1000 * (reqs.length + 1) else 0

/-- The ring `kpb_new` leaves when only 100 of 150 bytes were granted: the
head with its memory and a second descriptor without. -/
def ex_short_ring : List hb :=
  [{ state := kpb_buffer_state.KPB_BUFFER_FREE, start_addr := 1000, end_addr := 1100,
     w_ptr := 1000, r_ptr := 1000, next := some 1, prev := some 1 },
   { state := kpb_buffer_state.KPB_BUFFER_OFF, start_addr := 0, end_addr := 0,
     w_ptr := 0, r_ptr := 0, next := none, prev := some 0 }]

/-- An allocator that fails every request. -/
def ex_rballoc_none : List request → Nat → Nat → Nat := fun _ _ _ => 0

/-! ## kpb_prepare and kpb_reset -/

/-- One buffer of `dev->bsink_list` as `kpb_prepare` reads it: its address,
the pointer `sink->sink` (0 for null) and the type of that component. -/
structure sink_entry where
  addr : Nat
  sink : Nat
  comp_type : Nat
deriving DecidableEq, Repr

/-- The loop of `kpb_prepare` that resets the client slots (kpb.c 256-259):
`n` iterations are left and `i` is the loop index. A slot outside the list
gives `none`. -/
def kpb_prepare_clients : Nat → Nat → List kpb_client → Option (List kpb_client)
  | 0, _, clients => some clients
  | n + 1, i, clients =>
    match clients[i]? with
    | none => none
    | some c =>
      kpb_prepare_clients n (i + 1)
        (clients.set i { c with state := kpb_client_state.KPB_CLIENT_UNREGISTERED, r_ptr := 0 })

/-- The search for the sinks in `kpb_prepare` (kpb.c 278-291); `ret` is the
value returned when the list is walked to its end. -/
def kpb_prepare_sinks (EINVAL SOF_COMP_SELECTOR SOF_COMP_HOST : Nat) :
    List sink_entry → Int → kpb_comp_data → Int × kpb_comp_data
  | [], ret, cd => (ret, cd)
  | e :: rest, ret, cd =>
    if e.sink = 0 then (-(EINVAL : Int), cd)
    else if e.comp_type = SOF_COMP_SELECTOR then
      kpb_prepare_sinks EINVAL SOF_COMP_SELECTOR SOF_COMP_HOST rest ret
        { cd with rt_sink := e.addr }
    else if e.comp_type = SOF_COMP_HOST then
      kpb_prepare_sinks EINVAL SOF_COMP_SELECTOR SOF_COMP_HOST rest ret
        { cd with cli_sink := e.addr }
    else kpb_prepare_sinks EINVAL SOF_COMP_SELECTOR SOF_COMP_HOST rest ret cd

/-- The function `kpb_prepare(dev)` (kpb.c 239-292). `set_state` is the value
`comp_set_state(dev, COMP_TRIGGER_PREPARE)` returns and `bsink_list` the sink
buffers of the device; the result is the returned `int`, the component data
and the calls made. -/
def kpb_prepare (EINVAL KPB_MAX_NO_OF_CLIENTS SOF_COMP_SELECTOR SOF_COMP_HOST : Nat)
    (COMP_STATUS_STATE_ALREADY_SET PPL_STATUS_PATH_STOP : Int)
    (set_state : Int) (bsink_list : List sink_entry) (cd : kpb_comp_data) :
    Option (Int × kpb_comp_data × List call) :=
  if set_state < 0 then some (set_state, cd, [])
  else if set_state = COMP_STATUS_STATE_ALREADY_SET then some (PPL_STATUS_PATH_STOP, cd, [])
  else
    match kpb_prepare_clients KPB_MAX_NO_OF_CLIENTS 0 cd.clients with
    | none => none
    | some clients =>
      let r := kpb_prepare_sinks EINVAL SOF_COMP_SELECTOR SOF_COMP_HOST bsink_list set_state
        { cd with clients := clients }
      some (r.1, r.2, [call.notifier_register, call.schedule_task_init])

/-- The function `kpb_reset(dev)` (kpb.c 312-321); `set_state` is the value
`comp_set_state(dev, COMP_TRIGGER_RESET)` returns. -/
def kpb_reset (set_state : Int) (kpb : kpb_comp_data) : Int × kpb_comp_data :=
  (set_state, { kpb with is_internal_buffer_full := false })

/-! ## Sequences of kpb_copy cycles -/

/-- What one call of `kpb_copy` finds: the source buffer pointer and the
fields of the source and of the two sinks. -/
structure copy_input where
  source_addr : Nat
  source : comp_buffer
  rt_sink : comp_buffer
  cli_sink : comp_buffer
deriving DecidableEq, Repr

/-- Consecutive calls of `kpb_copy`, each of which returns 0, threading the
component and the static `buffered`; `none` when a call does not return 0. -/
def kpb_copy_cycles (EINVAL EIO KPB_MAX_BUFFER_SIZE COMP_STATE_PAUSED fuel : Nat) :
    List copy_input → kpb_comp_data → Nat → Option (kpb_comp_data × Nat)
  | [], kpb, buffered => some (kpb, buffered)
  | c :: cs, kpb, buffered =>
    match kpb_copy EINVAL EIO KPB_MAX_BUFFER_SIZE COMP_STATE_PAUSED fuel kpb buffered
        c.source_addr c.source c.rt_sink c.cli_sink with
    | none => none
    | some (ret, kpb1, buffered1, _) =>
      if ret = 0 then
        kpb_copy_cycles EINVAL EIO KPB_MAX_BUFFER_SIZE COMP_STATE_PAUSED fuel cs kpb1 buffered1
      else none

/-! ## Further predicates -/

/-- A ring `kpb_buffer_data` can write to: a circular chain of segments in
the 32-bit address space, each with its write cursor inside it (and so of
positive size). -/
def writable_ring (hbs : List hb) : Prop :=
  links_circular hbs ∧ ∀ b ∈ hbs,
    b.start_addr ≤ b.w_ptr ∧ b.w_ptr < b.end_addr ∧ b.end_addr < 2 ^ 32

instance (hbs : List hb) : Decidable (writable_ring hbs) := by
  unfold writable_ring; infer_instance

/-- The number of client slots whose state is not UNREGISTERED. -/
def registered (clients : List kpb_client) : Nat :=
  (clients.filter
    (fun c => decide (c.state ≠ kpb_client_state.KPB_CLIENT_UNREGISTERED))).length

/-- A segment is memory-backed when an allocation filled it. -/
def backed (b : hb) : Bool := decide (b.start_addr ≠ 0)

/-- The bounds of a segment. -/
def extent (b : hb) : Nat × Nat := (b.start_addr, b.end_addr)

/-- The requests that were granted. -/
def granted (requests : List request) : List request :=
  requests.filter (fun q => decide (q.ptr ≠ 0))

/-- The bounds of the segment a granted request fills. -/
def request_extent (q : request) : Nat × Nat := (q.ptr, q.ptr + q.size)

/-- What the allocation loop of `kpb_new` keeps true about sizes, started on
an arena that holds the zeroed head only: the descriptors are, in order, the
segments filled by the granted requests, followed by one empty descriptor
while something is still wanted; the granted sizes and what is still wanted
add up to `maxb`; and no more requests were granted than pools were tried. -/
def alloc_sizes (maxb pools : Nat) (s : alloc_state) : Prop :=
  s.hbs.length = s.history_buffer + 1 ∧ s.i ≤ pools ∧
  (0 < s.hb_size → s.ca_size ≤ s.hb_size ∧ 0 < s.ca_size) ∧
  (∀ q ∈ s.requests, 0 < q.size ∧ q.size ≤ maxb) ∧
  ((granted s.requests).map request.size).sum + s.hb_size = maxb ∧
  ((granted s.requests).length ≤ s.i ∨
    (s.hb_size = 0 ∧ (granted s.requests).length ≤ pools)) ∧
  ∃ tail, (tail = [] ∨ tail = [(0, 0)]) ∧ (0 < s.hb_size → tail = [(0, 0)]) ∧
    s.hbs.map extent = (granted s.requests).map request_extent ++ tail

/-- The state in which `kpb_new` enters its allocation loop when the arena
holds only the head `h0`: the head linked to itself, the whole size `maxb`
wanted and asked for, pool 0, no request made. -/
def alloc_start (maxb : Nat) (h0 : hb) : alloc_state :=
  { hbs := [{ h0 with next := some 0, prev := some 0 }], history_buffer := 0,
    hb_size := maxb, ca_size := maxb, i := 0, requests := [] }

/-! ## Example cycles and registries -/

/-- A cycle with `avail` bytes in the source and `free` bytes free in the
real-time sink. -/
def ex_cycle (avail free : Nat) : copy_input :=
  { source_addr := 77, source := { ex_source with avail := avail },
    rt_sink := ex_sink free, cli_sink := ex_sink 40 }

/-- The component right after `kpb_new`: the fresh ring, `no_of_clients`
0, and a table of two client slots in state `z`. -/
def ex_created (z : kpb_client_state) : kpb_comp_data :=
  { ex_fresh with
    clients := List.replicate 2 { id := 0, history_depth := 0, sink := 0, r_ptr := 0,
                                  state := z } }

/-- A zeroed head segment. -/
def ex_zero_hb : hb :=
  { state := kpb_buffer_state.KPB_BUFFER_FREE, start_addr := 0, end_addr := 0, w_ptr := 0,
    r_ptr := 0, next := none, prev := none }

/-- The sink buffers of the device: buffer 8 feeds a selector (type 3),
buffer 7 the host (type 4). -/
def ex_bsink_list : List sink_entry :=
  [{ addr := 8, sink := 1, comp_type := 3 }, { addr := 7, sink := 1, comp_type := 4 }]

/-- The component `ex_created` after `kpb_prepare`. -/
def ex_prepared : kpb_comp_data :=
  { ex_fresh with clients := ex_clients 2 }

/-- The component `ex_prepared` after client 0 registered. -/
def ex_registered : kpb_comp_data :=
  { ex_fresh with
    clients := [{ id := 0, history_depth := 40, sink := 7, r_ptr := 0,
                  state := kpb_client_state.KPB_CLIENT_BUFFERING },
                { id := 0, history_depth := 0, sink := 0, r_ptr := 0,
                  state := kpb_client_state.KPB_CLIENT_UNREGISTERED }],
    no_of_clients := 1 }

/-- The component `ex_registered` after `kpb_reset` and a second
`kpb_prepare`: both slots UNREGISTERED, `no_of_clients` still 1. -/
def ex_prepared_again : kpb_comp_data :=
  { ex_fresh with
    clients := [{ id := 0, history_depth := 40, sink := 7, r_ptr := 0,
                  state := kpb_client_state.KPB_CLIENT_UNREGISTERED },
                { id := 0, history_depth := 0, sink := 0, r_ptr := 0,
                  state := kpb_client_state.KPB_CLIENT_UNREGISTERED }],
    no_of_clients := 1 }

/-- The component after the cycles `ex_cycle 150 150` and `ex_cycle 10 10`
with `KPB_MAX_BUFFER_SIZE = 150`. -/
def ex_cycled : kpb_comp_data :=
  match kpb_copy_cycles 22 5 150 4 200 [ex_cycle 150 150, ex_cycle 10 10] ex_fresh 0 with
  | some (kpb, _) => kpb
  | none => ex_fresh

/-! ## Example states: a wrapped ring and an incompletely allocated ring -/

/-- The component after the cycles `ex_cycle 150 150` and `ex_cycle 20 20`
with `KPB_MAX_BUFFER_SIZE = 150`: 170 bytes written to the ring of 150
bytes, `is_internal_buffer_full` set. -/
def ex_wrapped : kpb_comp_data :=
  match kpb_copy_cycles 22 5 150 4 200 [ex_cycle 150 150, ex_cycle 20 20] ex_fresh 0 with
  | some (kpb, _) => kpb
  | none => ex_fresh

/-- The component `kpb_new` returns when only 100 of 150 bytes were granted:
the ring `ex_short_ring`. -/
def ex_short : kpb_comp_data := ex_comp ex_short_ring

/-- The ring `ex_short_ring` after the head was filled: the head FULL, the
descriptor without memory labelled FREE. -/
def ex_stuck_ring : List hb :=
  [{ state := kpb_buffer_state.KPB_BUFFER_FULL, start_addr := 1000, end_addr := 1100,
     w_ptr := 1000, r_ptr := 1000, next := some 1, prev := some 1 },
   { state := kpb_buffer_state.KPB_BUFFER_FREE, start_addr := 0, end_addr := 0,
     w_ptr := 0, r_ptr := 0, next := none, prev := some 0 }]

/-! # Theorems -/

/-! ## Helper lemmas -/

theorem sub32_eq (a b : Nat) (h : b ≤ a) (ha : a < 2 ^ 32) : sub32 a b = a - b := by
  unfold sub32; omega

theorem sub32_le (a b : Nat) (h : b ≤ a) : sub32 a b ≤ a - b := by
  unfold sub32
  have h1 : (a % 2 ^ 32 + 2 ^ 32 - b % 2 ^ 32) % 2 ^ 32 = (a - b) % 2 ^ 32 := by omega
  rw [h1]; exact Nat.mod_le _ _

theorem getElem?_lt {hbs : List hb} {i : Nat} {b : hb} (h : hbs[i]? = some b) :
    i < hbs.length := by
  by_contra hc
  rw [List.getElem?_eq_none (by omega)] at h
  cases h

theorem getElem?_of_lt {hbs : List hb} {i : Nat} (h : i < hbs.length) :
    ∃ b, hbs[i]? = some b :=
  ⟨hbs[i], List.getElem?_eq_getElem h⟩

/-- Overwriting a segment by one with the same image under `f` does not
change the image of the ring. -/
theorem map_set_same {β : Type} (f : hb → β) (hbs : List hb) (i : Nat) (b b1 : hb)
    (h : hbs[i]? = some b) (hf : f b1 = f b) : (hbs.set i b1).map f = hbs.map f := by
  apply List.ext_getElem?
  intro j
  simp only [List.getElem?_map, List.getElem?_set]
  by_cases hij : i = j
  · subst hij
    simp [getElem?_lt h, h, hf]
  · simp [hij]

theorem map_eq_getElem? {β : Type} (f : hb → β) {h1 h2 : List hb}
    (h : h1.map f = h2.map f) {i : Nat} {b2 : hb} (hi : h2[i]? = some b2) :
    ∃ b1, h1[i]? = some b1 ∧ f b1 = f b2 := by
  have h3 : (h1.map f)[i]? = (h2.map f)[i]? := by rw [h]
  simp only [List.getElem?_map, hi, Option.map_some'] at h3
  cases h4 : h1[i]? with
  | none => rw [h4] at h3; simp at h3
  | some b1 =>
    rw [h4] at h3
    simp only [Option.map_some', Option.some.injEq] at h3
    exact ⟨b1, rfl, h3⟩

theorem map_eq_length {β : Type} (f : hb → β) {h1 h2 : List hb}
    (h : h1.map f = h2.map f) : h1.length = h2.length := by
  have := congrArg List.length h
  simpa using this

theorem map_seg_size_geometry {h1 h2 : List hb}
    (h : h1.map hb_geometry = h2.map hb_geometry) : h1.map seg_size = h2.map seg_size := by
  have e : ∀ l : List hb, l.map seg_size = (l.map hb_geometry).map (fun g => g.2.1 - g.1) := by
    intro l
    rw [List.map_map]
    rfl
  rw [e h1, e h2, h]

theorem capacity_geometry {h1 h2 : List hb}
    (h : h1.map hb_geometry = h2.map hb_geometry) : capacity h1 = capacity h2 := by
  unfold capacity
  rw [map_seg_size_geometry h]

theorem offset_of_geometry {h1 h2 : List hb}
    (h : h1.map hb_geometry = h2.map hb_geometry) (i : Nat) :
    offset_of h1 i = offset_of h2 i := by
  unfold offset_of
  rw [List.map_take, List.map_take, map_seg_size_geometry h]

theorem links_circular_geometry {h1 h2 : List hb}
    (h : h1.map hb_geometry = h2.map hb_geometry) (hl : links_circular h1) :
    links_circular h2 := by
  have hlen := map_eq_length hb_geometry h
  refine ⟨by rw [← hlen]; exact hl.1, ?_⟩
  intro i hi b2 hb2
  obtain ⟨b1, hb1, hg⟩ := map_eq_getElem? hb_geometry h hb2
  have := hl.2 i (by omega) b1 hb1
  unfold hb_geometry at hg
  simp only [Prod.mk.injEq] at hg
  rw [← hlen, ← hg.2.2.1, ← hg.2.2.2]
  exact this

theorem offset_of_succ {hbs : List hb} {i : Nat} {b : hb} (h : hbs[i]? = some b) :
    offset_of hbs (i + 1) = offset_of hbs i + seg_size b := by
  unfold offset_of
  rw [List.take_succ, h]
  simp

theorem offset_of_length (hbs : List hb) : offset_of hbs hbs.length = capacity hbs := by
  unfold offset_of capacity
  rw [List.take_length]

theorem offset_of_zero (hbs : List hb) : offset_of hbs 0 = 0 := by
  unfold offset_of
  simp

theorem offset_of_mono (hbs : List hb) {i j : Nat} (h : i ≤ j) :
    offset_of hbs i ≤ offset_of hbs j := by
  induction j with
  | zero =>
    have : i = 0 := by omega
    subst this; exact Nat.le_refl _
  | succ j ih =>
    by_cases hij : i = j + 1
    · subst hij; exact Nat.le_refl _
    · have h1 := ih (by omega)
      by_cases hj : j < hbs.length
      · obtain ⟨b, hb⟩ := getElem?_of_lt hj
        rw [offset_of_succ hb]; omega
      · have e1 : offset_of hbs (j + 1) = offset_of hbs j := by
          unfold offset_of
          rw [List.take_of_length_le (by omega), List.take_of_length_le (by omega)]
        omega

theorem offset_of_le_capacity (hbs : List hb) (i : Nat) : offset_of hbs i ≤ capacity hbs := by
  by_cases h : i ≤ hbs.length
  · rw [← offset_of_length]; exact offset_of_mono hbs h
  · unfold offset_of capacity
    rw [List.take_of_length_le (by omega)]

/-- The end of segment `i` does not pass the start of a later segment. -/
theorem offset_of_lt {hbs : List hb} {i j : Nat} {b : hb} (h : hbs[i]? = some b)
    (hij : i < j) : offset_of hbs i + seg_size b ≤ offset_of hbs j := by
  rw [← offset_of_succ h]
  exact offset_of_mono hbs hij

theorem offset_add_size_le_capacity {hbs : List hb} {i : Nat} {b : hb}
    (h : hbs[i]? = some b) : offset_of hbs i + seg_size b ≤ capacity hbs := by
  rw [← offset_of_succ h]
  exact offset_of_le_capacity hbs _

theorem ring_at_get {hbs : List hb} {f o : Nat} {v : Bool} (h : ring_at hbs f o v)
    {i : Nat} {b : hb} (hi : hbs[i]? = some b) :
    b.start_addr < b.end_addr ∧ b.end_addr < 2 ^ 32 ∧
    (i < f → b.state = kpb_buffer_state.KPB_BUFFER_FULL ∧ b.w_ptr = b.start_addr) ∧
    (i = f → b.state = kpb_buffer_state.KPB_BUFFER_FREE ∧
      b.w_ptr = b.start_addr + o ∧ o < seg_size b) ∧
    (f < i → b.w_ptr = b.start_addr ∧
      b.state = if v then kpb_buffer_state.KPB_BUFFER_FREE
                else kpb_buffer_state.KPB_BUFFER_FULL) :=
  h.2.2 i (getElem?_lt hi) b hi

theorem links_next {hbs : List hb} (h : links_circular hbs) {i : Nat} {b : hb}
    (hi : hbs[i]? = some b) : b.next = some ((i + 1) % hbs.length) :=
  (h.2 i (getElem?_lt hi) b hi).1

theorem links_prev {hbs : List hb} (h : links_circular hbs) {i : Nat} {b : hb}
    (hi : hbs[i]? = some b) : b.prev = some ((i + hbs.length - 1) % hbs.length) :=
  (h.2 i (getElem?_lt hi) b hi).2

/-- On a ring of shape `ring_at hbs f o v` the "find free buffer" loop
started at or before `f` stops at `f`. -/
theorem find_free_buffer_ring_at {hbs : List hb} {f o : Nat} {v : Bool}
    (h : ring_at hbs f o v) :
    ∀ (d j fuel : Nat), j + d = f → d < fuel → find_free_buffer hbs 0 fuel j = some f := by
  intro d
  induction d with
  | zero =>
    intro j fuel hj hfuel
    obtain ⟨fuel1, rfl⟩ : ∃ k, fuel = k + 1 := ⟨fuel - 1, by omega⟩
    have hjf : j = f := by omega
    subst hjf
    obtain ⟨b, hb⟩ := getElem?_of_lt h.2.1
    have hn := links_next h.1 hb
    have hs := ((ring_at_get h hb).2.2.2.1 rfl).1
    unfold find_free_buffer
    simp only [hb, hn, hs]
    split <;> rfl
  | succ d ih =>
    intro j fuel hj hfuel
    obtain ⟨fuel1, rfl⟩ : ∃ k, fuel = k + 1 := ⟨fuel - 1, by omega⟩
    have hjlen : j < hbs.length := by have := h.2.1; omega
    obtain ⟨b, hb⟩ := getElem?_of_lt hjlen
    have hn := links_next h.1 hb
    have hs := ((ring_at_get h hb).2.2.1 (by omega)).1
    have hmod : (j + 1) % hbs.length = j + 1 := Nat.mod_eq_of_lt (by have := h.2.1; omega)
    unfold find_free_buffer
    simp only [hb, hn, hs, hmod]
    simp only [Nat.add_one_ne_zero, if_false]
    rw [if_neg (by decide)]
    exact ih (j + 1) fuel1 (by omega) (by omega)

theorem write_segment_ring_at {hbs : List hb} {f o : Nat} {v : Bool}
    (h : ring_at hbs f o v) : write_segment hbs = some f := by
  unfold write_segment
  exact find_free_buffer_ring_at h f 0 hbs.length (by omega) h.2.1

theorem find_free_buffer_ring_at_fuel {hbs : List hb} {f o : Nat} {v : Bool}
    (h : ring_at hbs f o v) {fuel : Nat} (hf : hbs.length ≤ fuel) :
    find_free_buffer hbs 0 fuel 0 = some f :=
  find_free_buffer_ring_at h f 0 fuel (by omega) (by have := h.2.1; omega)

/-- What `switch_buffer` does to a circular ring, segment by segment. -/
theorem switch_buffer_spec {hbs : List hb} (h : links_circular hbs) {buff : Nat}
    (hb : buff < hbs.length) :
    ∃ hbs1, switch_buffer hbs buff = some (hbs1, (buff + 1) % hbs.length) ∧
      hbs1.length = hbs.length ∧
      ∀ i, hbs1[i]? = (hbs[i]?).map (fun x =>
        if i = (buff + 1) % hbs.length then
          { x with state := kpb_buffer_state.KPB_BUFFER_FREE }
        else if i = buff then { x with state := kpb_buffer_state.KPB_BUFFER_FULL }
        else x) := by
  obtain ⟨b, hbb⟩ := getElem?_of_lt hb
  have hn := links_next h hbb
  have hnlt : (buff + 1) % hbs.length < hbs.length := Nat.mod_lt _ h.1
  obtain ⟨st, sa, ea, w, r, nx, pv⟩ := b
  simp only at hn
  subst hn
  by_cases hnb : (buff + 1) % hbs.length = buff
  · refine ⟨hbs.set buff ⟨kpb_buffer_state.KPB_BUFFER_FREE, sa, ea, w, r, some ((buff + 1) % hbs.length), pv⟩, ?_, by simp, ?_⟩
    · unfold switch_buffer
      simp only [hbb, hnb, if_true]
    · intro i
      rw [List.getElem?_set]
      by_cases hi : buff = i
      · subst hi
        simp [hb, hbb, hnb]
      · have hi2 : ¬ i = buff := fun e => hi e.symm
        simp [hi, hi2, hnb]
  · obtain ⟨c, hc⟩ := getElem?_of_lt hnlt
    refine ⟨(hbs.set buff ⟨kpb_buffer_state.KPB_BUFFER_FULL, sa, ea, w, r, some ((buff + 1) % hbs.length), pv⟩).set
      ((buff + 1) % hbs.length) { c with state := kpb_buffer_state.KPB_BUFFER_FREE }, ?_, by simp, ?_⟩
    · unfold switch_buffer
      simp only [hbb, hnb, if_false]
      rw [List.getElem?_set_ne (fun e => hnb e.symm), hc]
    · intro i
      rw [List.getElem?_set]
      by_cases hi : (buff + 1) % hbs.length = i
      · subst hi
        simp [hnlt, hc]
      · have hi2 : ¬ i = (buff + 1) % hbs.length := fun e => hi e.symm
        rw [if_neg hi, List.getElem?_set]
        by_cases hib : buff = i
        · subst hib
          simp [hb, hbb, hnb, hi2]
        · have hib2 : ¬ i = buff := fun e => hib e.symm
          simp [hib, hib2, hi2]

theorem map_eq_of_pointwise {β : Type} (f : hb → β) {h1 h2 : List hb} (g : Nat → hb → hb)
    (hp : ∀ i, h1[i]? = (h2[i]?).map (g i)) (hf : ∀ i x, f (g i x) = f x) :
    h1.map f = h2.map f := by
  apply List.ext_getElem?
  intro i
  rw [List.getElem?_map, List.getElem?_map, hp i]
  cases h2[i]? with
  | none => rfl
  | some x => simp [hf]

/-- Writing fewer bytes than the write segment has room for moves its write
cursor and nothing else. -/
theorem ring_at_stay {hbs : List hb} {f o : Nat} {v : Bool} (h : ring_at hbs f o v)
    {b : hb} (hbf : hbs[f]? = some b) (s : Nat) (hs : o + s < seg_size b) :
    ring_at (hbs.set f { b with w_ptr := b.w_ptr + s }) f (o + s) v ∧
    (hbs.set f { b with w_ptr := b.w_ptr + s }).map hb_geometry = hbs.map hb_geometry ∧
    (hbs.set f { b with w_ptr := b.w_ptr + s }).map hb.r_ptr = hbs.map hb.r_ptr := by
  have hg := map_set_same hb_geometry hbs f b { b with w_ptr := b.w_ptr + s } hbf rfl
  refine ⟨⟨links_circular_geometry hg.symm h.1, by simpa using h.2.1, ?_⟩, hg,
    map_set_same hb.r_ptr hbs f b _ hbf rfl⟩
  intro i hi b1 hb1
  rw [Option.mem_def, List.getElem?_set] at hb1
  by_cases hif : f = i
  · subst hif
    rw [if_pos rfl, if_pos h.2.1] at hb1
    have hb1 : { b with w_ptr := b.w_ptr + s } = b1 := by simpa using hb1
    subst hb1
    have facts := ring_at_get h hbf
    have f1 := facts.2.2.2.1 rfl
    refine ⟨facts.1, facts.2.1, fun hlt => absurd hlt (Nat.lt_irrefl _), fun _ => ?_,
      fun hlt => absurd hlt (Nat.lt_irrefl _)⟩
    refine ⟨f1.1, ?_, ?_⟩
    · show b.w_ptr + s = b.start_addr + (o + s)
      rw [f1.2.1]; omega
    · exact hs
  · rw [if_neg hif] at hb1
    have facts := ring_at_get h hb1
    exact ⟨facts.1, facts.2.1, facts.2.2.1, fun e => absurd e.symm hif, facts.2.2.2.2⟩

/-- Filling the write segment hands the write position over to the next
segment of the chain. -/
theorem ring_at_advance {hbs : List hb} {f o : Nat} {v : Bool} (h : ring_at hbs f o v)
    {b : hb} (hbf : hbs[f]? = some b) :
    ∃ hbs1, switch_buffer (hbs.set f { b with w_ptr := b.start_addr }) f
        = some (hbs1, (f + 1) % hbs.length) ∧
      ring_at hbs1 ((f + 1) % hbs.length) 0 (v && decide (f + 1 < hbs.length)) ∧
      hbs1.map hb_geometry = hbs.map hb_geometry ∧
      hbs1.map hb.r_ptr = hbs.map hb.r_ptr := by
  have hg0 := map_set_same hb_geometry hbs f b { b with w_ptr := b.start_addr } hbf rfl
  have hr0 := map_set_same hb.r_ptr hbs f b { b with w_ptr := b.start_addr } hbf rfl
  have hl0 : links_circular (hbs.set f { b with w_ptr := b.start_addr }) :=
    links_circular_geometry hg0.symm h.1
  have hlen0 : (hbs.set f { b with w_ptr := b.start_addr }).length = hbs.length := by simp
  obtain ⟨hbs1, hsw, hlen1, hpt⟩ := @switch_buffer_spec _ hl0 f (by rw [hlen0]; exact h.2.1)
  rw [hlen0] at hsw hlen1 hpt
  have hg1 : hbs1.map hb_geometry = (hbs.set f { b with w_ptr := b.start_addr }).map hb_geometry :=
    map_eq_of_pointwise hb_geometry _ hpt (by intro i x; split_ifs <;> rfl)
  have hr1 : hbs1.map hb.r_ptr = (hbs.set f { b with w_ptr := b.start_addr }).map hb.r_ptr :=
    map_eq_of_pointwise hb.r_ptr _ hpt (by intro i x; split_ifs <;> rfl)
  refine ⟨hbs1, hsw, ⟨links_circular_geometry (hg1.trans hg0).symm h.1, ?_, ?_⟩,
    hg1.trans hg0, hr1.trans hr0⟩
  · rw [hlen1]; exact Nat.mod_lt _ h.1.1
  · intro i hi b1 hb1
    rw [hlen1] at hi
    rw [Option.mem_def, hpt i, List.getElem?_set] at hb1
    obtain ⟨x, hx⟩ := getElem?_of_lt hi
    have facts := ring_at_get h hx
    have fb := ring_at_get h hbf
    have hflen := h.2.1
    by_cases hwrap : f + 1 < hbs.length
    · have hmod : (f + 1) % hbs.length = f + 1 := Nat.mod_eq_of_lt hwrap
      rw [hmod] at hb1 ⊢
      simp only [hwrap, decide_True, Bool.and_true]
      by_cases hif : f = i
      · subst hif
        simp [hflen] at hb1
        subst hb1
        simp
        exact ⟨fb.1, fb.2.1⟩
      · rw [if_neg hif, hx] at hb1
        by_cases hi1 : i = f + 1
        · subst hi1
          simp at hb1
          subst hb1
          have := facts.2.2.2.2 (by omega)
          simp
          refine ⟨facts.1, facts.2.1, this.1, ?_⟩
          unfold seg_size; simp; exact facts.1
        · have hif2 : ¬ i = f := fun e => hif e.symm
          simp [hi1, hif2] at hb1
          subst hb1
          refine ⟨facts.1, facts.2.1, fun hlt => facts.2.2.1 (by omega), fun e => absurd e hi1,
            fun hlt => facts.2.2.2.2 (by omega)⟩
    · have hmod : (f + 1) % hbs.length = 0 := by
        have : f + 1 = hbs.length := by omega
        rw [this]; exact Nat.mod_self _
      rw [hmod] at hb1 ⊢
      simp only [hwrap, decide_False, Bool.and_false]
      by_cases hi0 : i = 0
      · subst hi0
        by_cases hif : f = 0
        · subst hif
          simp [hflen] at hb1
          subst hb1
          simp
          refine ⟨fb.1, fb.2.1, ?_⟩
          unfold seg_size; simp; exact fb.1
        · rw [if_neg hif, hx] at hb1
          simp at hb1
          subst hb1
          have := facts.2.2.1 (by omega)
          simp
          refine ⟨facts.1, facts.2.1, this.2, ?_⟩
          unfold seg_size; simp; exact facts.1
      · by_cases hif : f = i
        · subst hif
          simp [hflen, hi0] at hb1
          subst hb1
          simp [hi0]
          exact ⟨fb.1, fb.2.1⟩
        · rw [if_neg hif, hx] at hb1
          have hif2 : ¬ i = f := fun e => hif e.symm
          simp [hi0, hif2] at hb1
          subst hb1
          have := facts.2.2.1 (by omega)
          refine ⟨facts.1, facts.2.1, fun hlt => absurd hlt (Nat.not_lt_zero _),
            fun e => absurd e hi0, fun _ => ?_⟩
          simp
          exact ⟨this.2, this.1⟩

theorem ring_at_space {hbs : List hb} {f o : Nat} {v : Bool} (h : ring_at hbs f o v)
    {b : hb} (hbf : hbs[f]? = some b) :
    sub32 b.end_addr b.w_ptr = seg_size b - o ∧ 0 < seg_size b - o ∧
    b.w_ptr = b.start_addr + o := by
  have facts := ring_at_get h hbf
  have f1 := facts.2.2.2.1 rfl
  have hsz : seg_size b = b.end_addr - b.start_addr := rfl
  rw [sub32_eq _ _ (by rw [f1.2.1]; omega) facts.2.1, f1.2.1]
  refine ⟨by omega, by omega, rfl⟩

/-- Arithmetic of one hand-over: the write position after filling the write
segment, in terms of the bytes written so far. -/
theorem advance_offset {hbs : List hb} {f o n : Nat}
    (h : ring_at hbs f o (decide (n < capacity hbs)))
    (hoff : offset_of hbs f + o = n % capacity hbs) {b : hb} (hbf : hbs[f]? = some b) :
    (decide (n < capacity hbs) && decide (f + 1 < hbs.length))
      = decide (n + (seg_size b - o) < capacity hbs) ∧
    offset_of hbs ((f + 1) % hbs.length) + 0 = (n + (seg_size b - o)) % capacity hbs := by
  have facts := ring_at_get h hbf
  have f1 := facts.2.2.2.1 rfl
  have hcap := offset_add_size_le_capacity hbf
  have hsucc := offset_of_succ hbf
  have hmodadd : (n + (seg_size b - o)) % capacity hbs
      = (offset_of hbs f + seg_size b) % capacity hbs := by
    rw [← Nat.mod_add_mod n (capacity hbs) (seg_size b - o), ← hoff]
    have ho := f1.2.2
    congr 1
    omega
  have hnmod : n < capacity hbs → n % capacity hbs = n := fun hlt => Nat.mod_eq_of_lt hlt
  by_cases hwrap : f + 1 < hbs.length
  · have hmod : (f + 1) % hbs.length = f + 1 := Nat.mod_eq_of_lt hwrap
    obtain ⟨c, hc⟩ := getElem?_of_lt hwrap
    have hc1 := (ring_at_get h hc).1
    have hc2 := offset_add_size_le_capacity hc
    have hcs : seg_size c = c.end_addr - c.start_addr := rfl
    have hlt : offset_of hbs f + seg_size b < capacity hbs := by omega
    rw [hmod, hmodadd, Nat.mod_eq_of_lt hlt, hsucc]
    refine ⟨?_, by omega⟩
    simp only [hwrap, decide_True, Bool.and_true]
    by_cases hn : n < capacity hbs
    · have := hnmod hn
      have h2 : n + (seg_size b - o) < capacity hbs := by omega
      simp [hn, h2]
    · have h2 : ¬ n + (seg_size b - o) < capacity hbs := by omega
      simp [hn, h2]
  · have hlen : f + 1 = hbs.length := by have := h.2.1; omega
    have hmod : (f + 1) % hbs.length = 0 := by rw [hlen]; exact Nat.mod_self _
    have hfull : offset_of hbs f + seg_size b = capacity hbs := by
      rw [← hsucc, hlen, offset_of_length]
    rw [hmod, hmodadd, hfull, Nat.mod_self, offset_of_zero]
    refine ⟨?_, rfl⟩
    have hge : ¬ n + (seg_size b - o) < capacity hbs := by
      have := Nat.mod_le n (capacity hbs)
      omega
    simp [hwrap, hge]

theorem stay_offset {hbs : List hb} {f o n s : Nat}
    (hoff : offset_of hbs f + o = n % capacity hbs) {b : hb} (hbf : hbs[f]? = some b)
    (hs : o + s < seg_size b) :
    decide (n < capacity hbs) = decide (n + s < capacity hbs) ∧
    offset_of hbs f + (o + s) = (n + s) % capacity hbs := by
  have hcap := offset_add_size_le_capacity hbf
  have hlt : offset_of hbs f + o + s < capacity hbs := by omega
  have hmodadd : (n + s) % capacity hbs = offset_of hbs f + o + s := by
    rw [← Nat.mod_add_mod n (capacity hbs) s, ← hoff, Nat.mod_eq_of_lt hlt]
  refine ⟨?_, by omega⟩
  by_cases hn : n < capacity hbs
  · have := Nat.mod_eq_of_lt hn
    have h2 : n + s < capacity hbs := by omega
    simp [hn, h2]
  · have h2 : ¬ n + s < capacity hbs := by omega
    simp [hn, h2]

theorem kpb_buffer_loop_zero (src fuel : Nat) (hbs : List hb) (buff : Nat) (tr : List call) :
    kpb_buffer_loop src fuel hbs buff 0 tr = some (hbs, tr) := by
  cases fuel <;> simp [kpb_buffer_loop]

/-- The copy loop of `kpb_buffer_data`, started at the write segment of a
ring shaped by `n` written bytes, returns within `size_to_copy` iterations;
whenever it returns it leaves the ring shaped by `n + size_to_copy` written
bytes, with the segment bounds, the links and the read cursors untouched. -/
theorem kpb_buffer_loop_spec (src : Nat) :
    ∀ (fuel s : Nat) (hbs : List hb) (f o n : Nat) (tr : List call),
      ring_at hbs f o (decide (n < capacity hbs)) →
      offset_of hbs f + o = n % capacity hbs →
      (s ≤ fuel → ∃ hbs1 tr1, kpb_buffer_loop src fuel hbs f s tr = some (hbs1, tr1)) ∧
      (∀ hbs1 tr1, kpb_buffer_loop src fuel hbs f s tr = some (hbs1, tr1) →
        ring_inv hbs1 (n + s) ∧
        hbs1.map hb_geometry = hbs.map hb_geometry ∧
        hbs1.map hb.r_ptr = hbs.map hb.r_ptr) := by
  intro fuel
  induction fuel with
  | zero =>
    intro s hbs f o n tr h hoff
    by_cases hs0 : s = 0
    · subst hs0
      rw [kpb_buffer_loop_zero]
      refine ⟨fun _ => ⟨hbs, tr, rfl⟩, ?_⟩
      intro hbs1 tr1 heq
      simp only [Option.some.injEq, Prod.mk.injEq] at heq
      obtain ⟨rfl, rfl⟩ := heq
      exact ⟨⟨f, o, h, hoff⟩, rfl, rfl⟩
    · refine ⟨fun hle => absurd (Nat.le_zero.mp hle) hs0, ?_⟩
      intro hbs1 tr1 heq
      simp [kpb_buffer_loop, hs0] at heq
  | succ fuel ih =>
    intro s hbs f o n tr h hoff
    by_cases hs0 : s = 0
    · subst hs0
      rw [kpb_buffer_loop_zero]
      refine ⟨fun _ => ⟨hbs, tr, rfl⟩, ?_⟩
      intro hbs1 tr1 heq
      simp only [Option.some.injEq, Prod.mk.injEq] at heq
      obtain ⟨rfl, rfl⟩ := heq
      exact ⟨⟨f, o, h, hoff⟩, rfl, rfl⟩
    · obtain ⟨b, hbf⟩ := getElem?_of_lt h.2.1
      obtain ⟨hsp, hpos, hw⟩ := ring_at_space h hbf
      obtain ⟨hbs1, hsw, hat1, hg1, hr1⟩ := ring_at_advance h hbf
      obtain ⟨hv1, ho1⟩ := advance_offset h hoff hbf
      have hcap1 := capacity_geometry hg1
      have hat1n : ring_at hbs1 ((f + 1) % hbs.length) 0
          (decide (n + (seg_size b - o) < capacity hbs1)) := by
        rw [hcap1, ← hv1]; exact hat1
      have ho1n : offset_of hbs1 ((f + 1) % hbs.length) + 0
          = (n + (seg_size b - o)) % capacity hbs1 := by
        rw [hcap1, offset_of_geometry hg1]; exact ho1
      by_cases hgt : s > seg_size b - o
      · have step : kpb_buffer_loop src (fuel + 1) hbs f s tr
            = kpb_buffer_loop src fuel hbs1 ((f + 1) % hbs.length) (s - (seg_size b - o))
                (tr ++ [call.memcpy b.w_ptr src (seg_size b - o)]) := by
          rw [kpb_buffer_loop]
          simp only [hs0, if_false, hbf, hsp, hgt, if_true, hsw]
        rw [step]
        obtain ⟨ih1, ih2⟩ := ih (s - (seg_size b - o)) hbs1 _ 0 _
          (tr ++ [call.memcpy b.w_ptr src (seg_size b - o)]) hat1n ho1n
        refine ⟨fun hle => ih1 (by omega), ?_⟩
        intro hbs2 tr2 heq
        obtain ⟨hinv, hg2, hr2⟩ := ih2 hbs2 tr2 heq
        have e : n + (seg_size b - o) + (s - (seg_size b - o)) = n + s := by omega
        rw [e] at hinv
        exact ⟨hinv, hg2.trans hg1, hr2.trans hr1⟩
      · by_cases heq : b.w_ptr + s = b.end_addr
        · have step : kpb_buffer_loop src (fuel + 1) hbs f s tr
              = some (hbs1, tr ++ [call.memcpy b.w_ptr src s]) := by
            rw [kpb_buffer_loop]
            simp only [hs0, if_false, hbf, hsp, hgt, heq, if_true, hsw]
            exact kpb_buffer_loop_zero _ _ _ _ _
          rw [step]
          have hseq : s = seg_size b - o := by
            have : seg_size b = b.end_addr - b.start_addr := rfl
            omega
          refine ⟨fun _ => ⟨_, _, rfl⟩, ?_⟩
          intro hbs2 tr2 heq2
          simp only [Option.some.injEq, Prod.mk.injEq] at heq2
          obtain ⟨rfl, rfl⟩ := heq2
          refine ⟨?_, hg1, hr1⟩
          rw [hseq]; exact ⟨_, 0, hat1n, ho1n⟩
        · have step : kpb_buffer_loop src (fuel + 1) hbs f s tr
              = some (hbs.set f { b with w_ptr := b.w_ptr + s },
                  tr ++ [call.memcpy b.w_ptr src s]) := by
            rw [kpb_buffer_loop]
            simp only [hs0, if_false, hbf, hsp, hgt, heq]
            exact kpb_buffer_loop_zero _ _ _ _ _
          rw [step]
          have hlt : o + s < seg_size b := by
            have : seg_size b = b.end_addr - b.start_addr := rfl
            have := (ring_at_get h hbf).1
            omega
          obtain ⟨hat2, hg2, hr2⟩ := ring_at_stay h hbf s hlt
          obtain ⟨hv2, ho2⟩ := stay_offset hoff hbf hlt
          refine ⟨fun _ => ⟨_, _, rfl⟩, ?_⟩
          intro hbs2 tr2 heq2
          simp only [Option.some.injEq, Prod.mk.injEq] at heq2
          obtain ⟨rfl, rfl⟩ := heq2
          refine ⟨⟨f, o + s, ?_, ?_⟩, hg2, hr2⟩
          · rw [capacity_geometry hg2, ← hv2]; exact hat2
          · rw [capacity_geometry hg2, offset_of_geometry hg2]; exact ho2

/-- Whenever the "find free buffer" loop returns on a ring of shape
`ring_at hbs f o v`, started at or before `f`, it returns `f`. -/
theorem find_free_buffer_result {hbs : List hb} {f o : Nat} {v : Bool}
    (h : ring_at hbs f o v) :
    ∀ (fuel j r : Nat), j ≤ f → find_free_buffer hbs 0 fuel j = some r → r = f := by
  intro fuel
  induction fuel with
  | zero => intro j r _ heq; simp [find_free_buffer] at heq
  | succ fuel ih =>
    intro j r hj heq
    have hjlen : j < hbs.length := by have := h.2.1; omega
    obtain ⟨b, hbj⟩ := getElem?_of_lt hjlen
    have hn := links_next h.1 hbj
    rw [find_free_buffer] at heq
    simp only [hbj, hn] at heq
    by_cases hjf : j = f
    · subst hjf
      have hs := ((ring_at_get h hbj).2.2.2.1 rfl).1
      simp only [hs, if_true] at heq
      split at heq <;> simp at heq <;> exact heq.symm
    · have hs := ((ring_at_get h hbj).2.2.1 (by omega)).1
      have hmod : (j + 1) % hbs.length = j + 1 := Nat.mod_eq_of_lt (by have := h.2.1; omega)
      rw [hmod] at heq
      simp only [hs, Nat.add_one_ne_zero, if_false] at heq
      rw [if_neg (by decide)] at heq
      exact ih (j + 1) r (by omega) heq

theorem fresh_ring_inv {hbs : List hb} (h : fresh_ring hbs) : ring_inv hbs 0 := by
  obtain ⟨b0, hb0⟩ := getElem?_of_lt h.1.1
  have hf0 := h.2 b0 (List.getElem?_mem hb0)
  have hcap : 0 < capacity hbs := by
    have := offset_add_size_le_capacity hb0
    have hs : seg_size b0 = b0.end_addr - b0.start_addr := rfl
    omega
  refine ⟨0, 0, ⟨h.1, h.1.1, ?_⟩, ?_⟩
  · intro i hi b hbi
    have hfb := h.2 b (List.getElem?_mem hbi)
    have hs : seg_size b = b.end_addr - b.start_addr := rfl
    refine ⟨hfb.2.1, hfb.2.2.1, fun hlt => absurd hlt (Nat.not_lt_zero _), fun _ => ?_, fun _ => ?_⟩
    · exact ⟨hfb.1, by rw [hfb.2.2.2.1]; rfl, by omega⟩
    · refine ⟨hfb.2.2.2.1, ?_⟩
      simp [hcap, hfb.1]
  · rw [offset_of_zero, Nat.zero_mod]

/-- The function `kpb_buffer_data` on a ring shaped by `n` written bytes: it returns once
the fuel covers the ring length and the byte count, and every result is a
ring shaped by `n + size` bytes that differs from the old one in segment
labels and write cursors only. -/
theorem kpb_buffer_data_spec (fuel : Nat) (kpb : kpb_comp_data) (source : comp_buffer)
    (size n : Nat) (h : ring_inv kpb.hbs n) :
    (kpb.hbs.length ≤ fuel → size ≤ fuel →
      ∃ kpb1 tr, kpb_buffer_data fuel kpb source size = some (kpb1, tr)) ∧
    (∀ kpb1 tr, kpb_buffer_data fuel kpb source size = some (kpb1, tr) →
      ring_inv kpb1.hbs (n + size) ∧
      kpb1.hbs.map hb_geometry = kpb.hbs.map hb_geometry ∧
      kpb1.hbs.map hb.r_ptr = kpb.hbs.map hb.r_ptr ∧
      kpb1 = { kpb with hbs := kpb1.hbs }) := by
  obtain ⟨f, o, hat, hoff⟩ := h
  obtain ⟨l1, l2⟩ := kpb_buffer_loop_spec source.r_ptr fuel size kpb.hbs f o n [] hat hoff
  constructor
  · intro hlen hsize
    obtain ⟨hbs1, tr1, hrun⟩ := l1 hsize
    refine ⟨{ kpb with hbs := hbs1 }, tr1, ?_⟩
    unfold kpb_buffer_data
    rw [find_free_buffer_ring_at_fuel hat hlen]
    simp only [hrun]
  · intro kpb1 tr heq
    unfold kpb_buffer_data at heq
    cases hff : find_free_buffer kpb.hbs 0 fuel 0 with
    | none => simp [hff] at heq
    | some buff =>
      have hbf : buff = f := find_free_buffer_result hat fuel 0 buff (Nat.zero_le _) hff
      subst hbf
      simp only [hff] at heq
      cases hrun : kpb_buffer_loop source.r_ptr fuel kpb.hbs buff size [] with
      | none => simp [hrun] at heq
      | some r =>
        obtain ⟨hbs1, tr1⟩ := r
        simp only [hrun, Option.some.injEq, Prod.mk.injEq] at heq
        obtain ⟨rfl, rfl⟩ := heq
        obtain ⟨p1, p2, p3⟩ := l2 hbs1 tr1 hrun
        exact ⟨p1, p2, p3, rfl⟩

theorem drop_r_ptr_eq {b1 b2 : hb} (h : drop_r_ptr b1 = drop_r_ptr b2) :
    b1.state = b2.state ∧ b1.start_addr = b2.start_addr ∧ b1.end_addr = b2.end_addr ∧
    b1.w_ptr = b2.w_ptr ∧ b1.next = b2.next ∧ b1.prev = b2.prev := by
  unfold drop_r_ptr at h
  simp only [hb.mk.injEq] at h
  exact ⟨h.1, h.2.1, h.2.2.1, h.2.2.2.1, h.2.2.2.2.2.1, h.2.2.2.2.2.2⟩

theorem drop_write_eq {b1 b2 : hb} (h : drop_write b1 = drop_write b2) :
    b1.start_addr = b2.start_addr ∧ b1.end_addr = b2.end_addr ∧
    b1.r_ptr = b2.r_ptr ∧ b1.next = b2.next ∧ b1.prev = b2.prev := by
  unfold drop_write at h
  simp only [hb.mk.injEq] at h
  exact ⟨h.2.1, h.2.2.1, h.2.2.2.2.1, h.2.2.2.2.2.1, h.2.2.2.2.2.2⟩

theorem geometry_of_drop_r_ptr {h1 h2 : List hb}
    (h : h1.map drop_r_ptr = h2.map drop_r_ptr) : h1.map hb_geometry = h2.map hb_geometry := by
  have e : ∀ l : List hb, l.map hb_geometry = (l.map drop_r_ptr).map hb_geometry := by
    intro l; rw [List.map_map]; rfl
  rw [e h1, e h2, h]

theorem geometry_of_drop_write {h1 h2 : List hb}
    (h : h1.map drop_write = h2.map drop_write) : h1.map hb_geometry = h2.map hb_geometry := by
  have e : ∀ l : List hb, l.map hb_geometry = (l.map drop_write).map hb_geometry := by
    intro l; rw [List.map_map]; rfl
  rw [e h1, e h2, h]

theorem r_ptr_of_drop_write {h1 h2 : List hb}
    (h : h1.map drop_write = h2.map drop_write) : h1.map hb.r_ptr = h2.map hb.r_ptr := by
  have e : ∀ l : List hb, l.map hb.r_ptr = (l.map drop_write).map hb.r_ptr := by
    intro l; rw [List.map_map]; rfl
  rw [e h1, e h2, h]

theorem w_ptr_of_drop_r_ptr {h1 h2 : List hb}
    (h : h1.map drop_r_ptr = h2.map drop_r_ptr) : h1.map hb.w_ptr = h2.map hb.w_ptr := by
  have e : ∀ l : List hb, l.map hb.w_ptr = (l.map drop_r_ptr).map hb.w_ptr := by
    intro l; rw [List.map_map]; rfl
  rw [e h1, e h2, h]

theorem state_of_drop_r_ptr {h1 h2 : List hb}
    (h : h1.map drop_r_ptr = h2.map drop_r_ptr) : h1.map hb.state = h2.map hb.state := by
  have e : ∀ l : List hb, l.map hb.state = (l.map drop_r_ptr).map hb.state := by
    intro l; rw [List.map_map]; rfl
  rw [e h1, e h2, h]

/-- The shape of the ring does not depend on the read cursors. -/
theorem ring_at_congr {h1 h2 : List hb} (h : h2.map drop_r_ptr = h1.map drop_r_ptr)
    {f o : Nat} {v : Bool} (hat : ring_at h1 f o v) : ring_at h2 f o v := by
  have hg := geometry_of_drop_r_ptr h
  have hlen := map_eq_length drop_r_ptr h
  refine ⟨links_circular_geometry hg.symm hat.1, by rw [hlen]; exact hat.2.1, ?_⟩
  intro i hi b2 hb2
  obtain ⟨b1, hb1, he⟩ := map_eq_getElem? drop_r_ptr h.symm hb2
  have facts := ring_at_get hat hb1
  obtain ⟨e1, e2, e3, e4, -, -⟩ := drop_r_ptr_eq he
  have es : seg_size b1 = seg_size b2 := by unfold seg_size; rw [e2, e3]
  rw [← e1, ← e2, ← e3, ← e4, ← es]
  exact facts

theorem ring_inv_congr {h1 h2 : List hb} (h : h2.map drop_r_ptr = h1.map drop_r_ptr)
    {n : Nat} (hinv : ring_inv h1 n) : ring_inv h2 n := by
  obtain ⟨f, o, hat, hoff⟩ := hinv
  have hg := geometry_of_drop_r_ptr h
  refine ⟨f, o, ?_, ?_⟩
  · rw [capacity_geometry hg]; exact ring_at_congr h hat
  · rw [capacity_geometry hg, offset_of_geometry hg]; exact hoff

/-! ### Frame of the drain path: only read cursors move -/

/-- One iteration of the read pointer loop, with the bytes counted for the
current segment named. -/
theorem read_ptr_loop_step (history_depth first_buff fuel : Nat) (hbs : List hb)
    (buff buffered : Nat) (b : hb) (hbb : hbs[buff]? = some b) :
    ∃ loc, (loc = if b.state = kpb_buffer_state.KPB_BUFFER_FREE then sub32 b.w_ptr b.start_addr
                  else if b.state = kpb_buffer_state.KPB_BUFFER_FULL then
                    sub32 b.end_addr b.start_addr
                  else 0) ∧
      read_ptr_loop history_depth first_buff (fuel + 1) hbs buff buffered =
        if history_depth > buffered + loc then
          match b.prev with
          | none => none
          | some pv =>
            if pv ≠ first_buff then
              read_ptr_loop history_depth first_buff fuel hbs pv (buffered + loc)
            else some (hbs, pv)
        else if history_depth = buffered + loc then
          some (hbs.set buff { b with r_ptr := b.start_addr }, buff)
        else
          some (hbs.set buff
            { b with r_ptr := b.start_addr + (buffered + loc - history_depth) }, buff) := by
  refine ⟨_, rfl, ?_⟩
  rw [read_ptr_loop]
  simp only [hbb]

theorem read_ptr_loop_frame (history_depth first_buff : Nat) :
    ∀ (fuel : Nat) (hbs : List hb) (buff buffered : Nat) (hbs1 : List hb) (r : Nat),
      read_ptr_loop history_depth first_buff fuel hbs buff buffered = some (hbs1, r) →
      hbs1.map drop_r_ptr = hbs.map drop_r_ptr := by
  intro fuel
  induction fuel with
  | zero => intro hbs buff buffered hbs1 r heq; simp [read_ptr_loop] at heq
  | succ fuel ih =>
    intro hbs buff buffered hbs1 r heq
    cases hbb : hbs[buff]? with
    | none => rw [read_ptr_loop] at heq; simp [hbb] at heq
    | some b =>
      obtain ⟨loc, -, hstep⟩ := read_ptr_loop_step history_depth first_buff fuel hbs buff buffered b hbb
      rw [hstep] at heq
      by_cases h1 : history_depth > buffered + loc
      · rw [if_pos h1] at heq
        cases hp : b.prev with
        | none => simp [hp] at heq
        | some pv =>
          simp only [hp] at heq
          by_cases h2 : pv ≠ first_buff
          · rw [if_pos h2] at heq
            exact ih _ _ _ _ _ heq
          · rw [if_neg h2] at heq
            simp only [Option.some.injEq, Prod.mk.injEq] at heq
            rw [← heq.1]
      · rw [if_neg h1] at heq
        by_cases h2 : history_depth = buffered + loc
        · rw [if_pos h2] at heq
          simp only [Option.some.injEq, Prod.mk.injEq] at heq
          rw [← heq.1]
          exact map_set_same drop_r_ptr hbs buff b _ hbb rfl
        · rw [if_neg h2] at heq
          simp only [Option.some.injEq, Prod.mk.injEq] at heq
          rw [← heq.1]
          exact map_set_same drop_r_ptr hbs buff b _ hbb rfl

/-- The function `kpb_init_draining` changes read cursors and the drain context only. -/
theorem kpb_init_draining_frame (maxc act fuel : Nat) (kpb : kpb_comp_data)
    (cli_sink : comp_buffer) (cli : kpb_client) (kpb1 : kpb_comp_data) (tr : List call)
    (h : kpb_init_draining maxc act fuel kpb cli_sink cli = some (kpb1, tr)) :
    kpb1.hbs.map drop_r_ptr = kpb.hbs.map drop_r_ptr ∧
    kpb1 = { kpb with hbs := kpb1.hbs, draining_task_data := kpb1.draining_task_data } := by
  unfold kpb_init_draining at h
  simp only at h
  split at h
  · simp only [Option.some.injEq, Prod.mk.injEq] at h
    rw [← h.1]; exact ⟨rfl, rfl⟩
  · split at h
    · simp only [Option.some.injEq, Prod.mk.injEq] at h
      rw [← h.1]; exact ⟨rfl, rfl⟩
    · split at h
      · simp at h
      · split at h
        · simp only [Option.some.injEq, Prod.mk.injEq] at h
          rw [← h.1]; exact ⟨rfl, rfl⟩
        · split at h
          · simp at h
          · split at h
            · simp at h
            · rename_i hbs1 buff hrp
              simp only [Option.some.injEq, Prod.mk.injEq] at h
              rw [← h.1]
              exact ⟨read_ptr_loop_frame _ _ _ _ _ _ _ _ hrp, rfl⟩

theorem draining_loop_frame (sink_addr : Nat) :
    ∀ (sinks : List comp_buffer) (hbs : List hb) (d : dd) (buff : Option Nat) (tr : List call)
      (hbs1 : List hb) (d1 : dd) (tr1 : List call),
      draining_loop sink_addr sinks hbs d buff tr = some (hbs1, d1, tr1) →
      hbs1.map drop_r_ptr = hbs.map drop_r_ptr := by
  intro sinks
  induction sinks with
  | nil =>
    intro hbs d buff tr hbs1 d1 tr1 heq
    unfold draining_loop at heq
    split at heq
    · simp at heq
    · simp only [Option.some.injEq, Prod.mk.injEq] at heq
      rw [← heq.1]
  | cons sink rest ih =>
    intro hbs d buff tr hbs1 d1 tr1 heq
    unfold draining_loop at heq
    split at heq
    · cases buff with
      | none => simp at heq
      | some bi =>
        simp only at heq
        cases hbb : hbs[bi]? with
        | none => simp [hbb] at heq
        | some b =>
          simp only [hbb] at heq
          split at heq
          · have := ih _ _ _ _ _ _ _ heq
            rw [this]
            exact map_set_same drop_r_ptr hbs bi b _ hbb rfl
          · have := ih _ _ _ _ _ _ _ heq
            rw [this]
            exact map_set_same drop_r_ptr hbs bi b _ hbb rfl
    · simp only [Option.some.injEq, Prod.mk.injEq] at heq
      rw [← heq.1]

/-- The function `draining_task` changes read cursors, the drain context and the
component state only. -/
theorem draining_task_frame (kpb : kpb_comp_data) (sinks : List comp_buffer)
    (kpb1 : kpb_comp_data) (tr : List call) (h : draining_task kpb sinks = some (kpb1, tr)) :
    kpb1.hbs.map drop_r_ptr = kpb.hbs.map drop_r_ptr ∧
    kpb1 = { kpb with hbs := kpb1.hbs, draining_task_data := kpb1.draining_task_data,
                      state := kpb_state.KPB_DRAINING_ON_DEMAND } := by
  unfold draining_task at h
  split at h
  · simp at h
  · rename_i hbs1 d1 tr1 hrun
    split at h
    · simp only [Option.some.injEq, Prod.mk.injEq] at h
      rw [← h.1]
      exact ⟨draining_loop_frame _ _ _ _ _ _ _ _ _ hrun, rfl⟩
    · simp at h

/-- Every reachable component state has a ring shaped by the number of bytes
written so far. -/
theorem ReachedBy_ring_inv {kpb : kpb_comp_data} {n : Nat} (h : ReachedBy kpb n) :
    ring_inv kpb.hbs n := by
  induction h with
  | fresh kpb hf => exact fresh_ring_inv hf
  | write kpb n fuel source size kpb1 tr _ hrun ih =>
    exact ((kpb_buffer_data_spec fuel kpb source size n ih).2 kpb1 tr hrun).1
  | full kpb n _ ih => exact ih
  | init_draining kpb n maxc act fuel cli_sink cli kpb1 tr _ hrun ih =>
    exact ring_inv_congr (kpb_init_draining_frame _ _ _ _ _ _ _ _ hrun).1 ih
  | drain kpb n sinks kpb1 tr _ hrun ih =>
    exact ring_inv_congr (draining_task_frame _ _ _ _ hrun).1 ih

/-- One iteration of the accumulation loop of `kpb_have_enough_history_data`
on a circular ring, with the bytes added for the current segment named. -/
theorem have_enough_loop_step {hbs : List hb} (hl : links_circular hbs) (his_req fuel i B : Nat)
    {b : hb} (hbi : hbs[i]? = some b) (hB : B < his_req) :
    ∃ c, hbs[(i + 1) % hbs.length]? = some c ∧
      have_enough_loop hbs 0 his_req (fuel + 1) i B =
        (let a := if b.state = kpb_buffer_state.KPB_BUFFER_FREE then
                    if b.w_ptr = b.start_addr then
                      if c.state = kpb_buffer_state.KPB_BUFFER_FULL then
                        sub32 b.end_addr b.start_addr
                      else sub32 b.w_ptr b.start_addr
                    else sub32 b.w_ptr b.start_addr
                  else sub32 b.end_addr b.start_addr
         if (i + 1) % hbs.length ≠ 0 then
           have_enough_loop hbs 0 his_req fuel ((i + 1) % hbs.length) (B + a)
         else some (B + a)) := by
  have hn := links_next hl hbi
  obtain ⟨c, hc⟩ := getElem?_of_lt (Nat.mod_lt (i + 1) hl.1)
  refine ⟨c, hc, ?_⟩
  rw [have_enough_loop]
  simp only [hB, if_true, hbi, hn, hc]
  by_cases h1 : b.state = kpb_buffer_state.KPB_BUFFER_FREE
  · by_cases h2 : b.w_ptr = b.start_addr
    · simp only [h1, h2, if_true]
      by_cases h3 : c.state = kpb_buffer_state.KPB_BUFFER_FULL <;> simp [h3]
    · simp [h1, h2]
  · simp [h1]

theorem have_enough_loop_done (hbs : List hb) (his_req fuel i B : Nat) (hB : ¬ B < his_req) :
    have_enough_loop hbs 0 his_req fuel i B = some B := by
  cases fuel <;> simp [have_enough_loop, hB]

/-- On a ring of the reachable shape the accumulation never counts more than
the capacity that lies at and after the segment it stands on. -/
theorem have_enough_loop_bound {hbs : List hb} {f o : Nat} {v : Bool} (h : ring_at hbs f o v)
    (his_req : Nat) :
    ∀ (m i fuel B : Nat), i + m = hbs.length → 0 < m → m ≤ fuel →
      ∃ T, have_enough_loop hbs 0 his_req fuel i B = some T ∧
        T + offset_of hbs i ≤ B + capacity hbs := by
  intro m
  induction m with
  | zero => intro i fuel B _ hm; omega
  | succ m ih =>
    intro i fuel B him _ hfuel
    obtain ⟨fuel1, rfl⟩ : ∃ k, fuel = k + 1 := ⟨fuel - 1, by omega⟩
    by_cases hB : B < his_req
    · obtain ⟨b, hbi⟩ := getElem?_of_lt (show i < hbs.length by omega)
      obtain ⟨c, hc, hstep⟩ := have_enough_loop_step h.1 his_req fuel1 i B hbi hB
      rw [hstep]
      have facts := ring_at_get h hbi
      have hsz : seg_size b = b.end_addr - b.start_addr := rfl
      have hw : b.start_addr ≤ b.w_ptr ∧ b.w_ptr ≤ b.end_addr := by
        rcases Nat.lt_trichotomy i f with hlt | heq | hgt
        · have := (facts.2.2.1 hlt).2; omega
        · have := facts.2.2.2.1 heq; omega
        · have := (facts.2.2.2.2 hgt).1; omega
      have h1 := sub32_le b.end_addr b.start_addr (by omega)
      have h2 := sub32_le b.w_ptr b.start_addr hw.1
      have hsucc := offset_of_succ hbi
      have hcap := offset_add_size_le_capacity hbi
      generalize ha : (if b.state = kpb_buffer_state.KPB_BUFFER_FREE then
                    if b.w_ptr = b.start_addr then
                      if c.state = kpb_buffer_state.KPB_BUFFER_FULL then
                        sub32 b.end_addr b.start_addr
                      else sub32 b.w_ptr b.start_addr
                    else sub32 b.w_ptr b.start_addr
                  else sub32 b.end_addr b.start_addr) = a
      have hale : a ≤ seg_size b := by
        rw [← ha]; split_ifs <;> omega
      simp only []
      by_cases hlast : m = 0
      · have hmod : (i + 1) % hbs.length = 0 := by
          have : i + 1 = hbs.length := by omega
          rw [this]; exact Nat.mod_self _
        simp only [hmod, ne_eq, not_true_eq_false, if_false]
        exact ⟨_, rfl, by omega⟩
      · have hmod : (i + 1) % hbs.length = i + 1 := Nat.mod_eq_of_lt (by omega)
        simp only [hmod, ne_eq, Nat.add_one_ne_zero, not_false_eq_true, if_true]
        obtain ⟨T, hT, hle⟩ := ih (i + 1) fuel1 (B + a) (by omega) (by omega) (by omega)
        exact ⟨T, hT, by omega⟩
    · rw [have_enough_loop_done _ _ _ _ _ hB]
      exact ⟨B, rfl, by have := offset_of_le_capacity hbs i; omega⟩

theorem ex_fresh_reached : ReachedBy ex_fresh 0 := ReachedBy.fresh _ (by decide)

theorem ex_written_30_reached : ReachedBy (ex_written 30) 30 :=
  ReachedBy.write ex_fresh 0 200 ex_source 30 (ex_written 30)
    [call.memcpy 1000 5000 30] ex_fresh_reached (by decide)

theorem ex_written_100_reached : ReachedBy (ex_written 100) 100 :=
  ReachedBy.write ex_fresh 0 200 ex_source 100 (ex_written 100)
    [call.memcpy 1000 5000 100] ex_fresh_reached (by decide)

theorem ring_at_write_seg {hbs : List hb} {f o : Nat} {v : Bool} (h : ring_at hbs f o v) :
    ∃ b, hbs[f]? = some b ∧ b.w_ptr = b.start_addr + o ∧ o < seg_size b ∧
      b.state = kpb_buffer_state.KPB_BUFFER_FREE := by
  obtain ⟨b, hbf⟩ := getElem?_of_lt h.2.1
  have := (ring_at_get h hbf).2.2.2.1 rfl
  exact ⟨b, hbf, this.2.1, this.2.2, this.1⟩

/-- Bytes from the start of a segment at or before the write segment forward
to the write position. -/
theorem walk_forward_low {hbs : List hb} {f o : Nat} {v : Bool} (h : ring_at hbs f o v)
    {bf : hb} (hbf : hbs[f]? = some bf) :
    ∀ (t j fuel : Nat) (b : hb), j + t = f → t < fuel → hbs[j]? = some b →
      walk_forward hbs f bf.w_ptr fuel j b.start_addr
        = some (offset_of hbs f + o - offset_of hbs j) := by
  have hw := ((ring_at_get h hbf).2.2.2.1 rfl).2.1
  intro t
  induction t with
  | zero =>
    intro j fuel b hj hfuel hbj
    obtain ⟨fuel1, rfl⟩ : ∃ k, fuel = k + 1 := ⟨fuel - 1, by omega⟩
    have hjf : j = f := by omega
    subst hjf
    rw [hbf] at hbj
    cases hbj
    rw [walk_forward, if_pos ⟨rfl, by omega⟩]
    congr 1
    omega
  | succ t ih =>
    intro j fuel b hj hfuel hbj
    obtain ⟨fuel1, rfl⟩ : ∃ k, fuel = k + 1 := ⟨fuel - 1, by omega⟩
    have hjf : j ≠ f := by omega
    have hflen := h.2.1
    have hn := links_next h.1 hbj
    have hmod : (j + 1) % hbs.length = j + 1 := Nat.mod_eq_of_lt (by omega)
    rw [hmod] at hn
    obtain ⟨c, hc⟩ := getElem?_of_lt (show j + 1 < hbs.length by omega)
    rw [walk_forward, if_neg (fun hcon => hjf hcon.1)]
    simp only [hbj, hn, hc, ih (j + 1) fuel1 c (by omega) (by omega) hc]
    congr 1
    have hsucc := offset_of_succ hbj
    have hmono := offset_of_mono hbs (show j + 1 ≤ f by omega)
    have hb1 := (ring_at_get h hbj).1
    have hsz : seg_size b = b.end_addr - b.start_addr := rfl
    omega

/-- Bytes from the start of a segment after the write segment forward,
across the end of the ring, to the write position. -/
theorem walk_forward_high {hbs : List hb} {f o : Nat} {v : Bool} (h : ring_at hbs f o v)
    {bf : hb} (hbf : hbs[f]? = some bf) :
    ∀ (t j fuel : Nat) (b : hb), j + t + 1 = hbs.length → f < j → t + f + 1 < fuel →
      hbs[j]? = some b →
      walk_forward hbs f bf.w_ptr fuel j b.start_addr
        = some (capacity hbs + offset_of hbs f + o - offset_of hbs j) := by
  intro t
  induction t with
  | zero =>
    intro j fuel b hj hfj hfuel hbj
    obtain ⟨fuel1, rfl⟩ : ∃ k, fuel = k + 1 := ⟨fuel - 1, by omega⟩
    have hn := links_next h.1 hbj
    have hmod : (j + 1) % hbs.length = 0 := by
      have : j + 1 = hbs.length := by omega
      rw [this]; exact Nat.mod_self _
    rw [hmod] at hn
    obtain ⟨c, hc⟩ := getElem?_of_lt h.1.1
    rw [walk_forward, if_neg (fun hcon => by omega)]
    simp only [hbj, hn, hc, walk_forward_low h hbf f 0 fuel1 c (by omega) (by omega) hc]
    congr 1
    have hsucc := offset_of_succ hbj
    have hlen : offset_of hbs (j + 1) = capacity hbs := by
      have : j + 1 = hbs.length := by omega
      rw [this]; exact offset_of_length hbs
    have hb1 := (ring_at_get h hbj).1
    have hsz : seg_size b = b.end_addr - b.start_addr := rfl
    rw [offset_of_zero]
    omega
  | succ t ih =>
    intro j fuel b hj hfj hfuel hbj
    obtain ⟨fuel1, rfl⟩ : ∃ k, fuel = k + 1 := ⟨fuel - 1, by omega⟩
    have hn := links_next h.1 hbj
    have hmod : (j + 1) % hbs.length = j + 1 := Nat.mod_eq_of_lt (by omega)
    rw [hmod] at hn
    obtain ⟨c, hc⟩ := getElem?_of_lt (show j + 1 < hbs.length by omega)
    rw [walk_forward, if_neg (fun hcon => by omega)]
    simp only [hbj, hn, hc, ih (j + 1) fuel1 c (by omega) (by omega) (by omega) hc]
    congr 1
    have hsucc := offset_of_succ hbj
    have hcap := offset_add_size_le_capacity hc
    have hb1 := (ring_at_get h hbj).1
    have hsz : seg_size b = b.end_addr - b.start_addr := rfl
    omega

/-- Bytes from a position `x` bytes into segment `j` forward to the write
position: the difference of the linear offsets, taken around the ring when
`j` lies after the write segment. -/
theorem walk_forward_from {hbs : List hb} {f o : Nat} {v : Bool} (h : ring_at hbs f o v)
    {bf : hb} (hbf : hbs[f]? = some bf) {j x : Nat} {b : hb} (hbj : hbs[j]? = some b)
    (hx : x ≤ seg_size b) (hxf : j = f → x ≤ o) :
    walk_forward hbs f bf.w_ptr (hbs.length + 1) j (b.start_addr + x)
      = some (if j ≤ f then offset_of hbs f + o - (offset_of hbs j + x)
              else capacity hbs + offset_of hbs f + o - (offset_of hbs j + x)) := by
  have hw := ((ring_at_get h hbf).2.2.2.1 rfl).2.1
  have hflen := h.2.1
  have hjlen := getElem?_lt hbj
  have hb1 := (ring_at_get h hbj).1
  have hsz : seg_size b = b.end_addr - b.start_addr := rfl
  have hsucc := offset_of_succ hbj
  by_cases hjf : j = f
  · subst hjf
    rw [hbf] at hbj
    cases hbj
    have := hxf rfl
    rw [walk_forward, if_pos ⟨rfl, by omega⟩, if_pos (Nat.le_refl _)]
    congr 1
    omega
  · have hn := links_next h.1 hbj
    obtain ⟨c, hc⟩ := getElem?_of_lt (Nat.mod_lt (j + 1) h.1.1)
    rw [walk_forward, if_neg (fun hcon => hjf hcon.1)]
    simp only [hbj, hn, hc]
    by_cases hlt : j < f
    · have hmod : (j + 1) % hbs.length = j + 1 := Nat.mod_eq_of_lt (by omega)
      rw [hmod] at hc ⊢
      rw [walk_forward_low h hbf (f - (j + 1)) (j + 1) hbs.length c (by omega) (by omega) hc]
      simp only [if_pos (Nat.le_of_lt hlt)]
      congr 1
      have hmono := offset_of_mono hbs (show j + 1 ≤ f by omega)
      omega
    · simp only [if_neg (show ¬ j ≤ f by omega)]
      by_cases hlast : j + 1 = hbs.length
      · have hmod : (j + 1) % hbs.length = 0 := by rw [hlast]; exact Nat.mod_self _
        rw [hmod] at hc ⊢
        rw [walk_forward_low h hbf f 0 hbs.length c (by omega) (by omega) hc]
        dsimp only
        congr 1
        have hlen : offset_of hbs (j + 1) = capacity hbs := by
          rw [hlast]; exact offset_of_length hbs
        rw [offset_of_zero]
        omega
      · have hmod : (j + 1) % hbs.length = j + 1 := Nat.mod_eq_of_lt (by omega)
        rw [hmod] at hc ⊢
        rw [walk_forward_high h hbf (hbs.length - (j + 2)) (j + 1) hbs.length c (by omega)
          (by omega) (by omega) hc]
        dsimp only
        congr 1
        have hcap := offset_add_size_le_capacity hc
        omega

/-- Bytes counted by the read pointer computation over the first `i`
segments of a ring of the reachable shape. -/
theorem counted_take {hbs : List hb} {f o : Nat} {v : Bool} (h : ring_at hbs f o v) :
    ∀ i, i ≤ hbs.length →
      ((hbs.take i).map counted_size).sum =
        if i ≤ f then offset_of hbs i
        else if v then offset_of hbs f + o
        else offset_of hbs i + o - (offset_of hbs (f + 1) - offset_of hbs f) := by
  intro i
  induction i with
  | zero => intro _; simp [offset_of_zero]
  | succ i ih =>
    intro hi
    obtain ⟨b, hbi⟩ := getElem?_of_lt (show i < hbs.length by omega)
    have facts := ring_at_get h hbi
    have hsz : seg_size b = b.end_addr - b.start_addr := rfl
    have hsucc := offset_of_succ hbi
    rw [List.take_succ, hbi]
    simp only [Option.toList_some, List.map_append, List.map_cons, List.map_nil, List.sum_append,
      List.sum_cons, List.sum_nil, Nat.add_zero]
    rw [ih (by omega)]
    rcases Nat.lt_trichotomy i f with hlt | heq | hgt
    · have hs := (facts.2.2.1 hlt).1
      rw [if_pos (show i ≤ f by omega), if_pos (show i + 1 ≤ f by omega)]
      unfold counted_size
      rw [hs]
      simp only []
      omega
    · subst heq
      have hs := facts.2.2.2.1 rfl
      rw [if_pos (Nat.le_refl _), if_neg (show ¬ i + 1 ≤ i by omega)]
      unfold counted_size
      rw [hs.1]
      simp only []
      split_ifs <;> omega
    · have hs := facts.2.2.2.2 hgt
      rw [if_neg (show ¬ i ≤ f by omega), if_neg (show ¬ i + 1 ≤ f by omega)]
      obtain ⟨bf, hbf⟩ := getElem?_of_lt h.2.1
      have hsf := offset_of_succ hbf
      have hmono := offset_of_mono hbs (show f + 1 ≤ i by omega)
      unfold counted_size
      cases v with
      | true =>
        simp only [if_true] at hs ⊢
        rw [hs.2]
        simp only []
        omega
      | false =>
        simp only [Bool.false_eq_true, if_false] at hs ⊢
        rw [hs.2]
        simp only []
        omega

theorem counted_ring_at {hbs : List hb} {f o : Nat} {v : Bool} (h : ring_at hbs f o v) :
    counted hbs = if v then offset_of hbs f + o
      else capacity hbs + o - (offset_of hbs (f + 1) - offset_of hbs f) := by
  have := counted_take h hbs.length (Nat.le_refl _)
  rw [List.take_length, if_neg (by have := h.2.1; omega), offset_of_length] at this
  exact this

/-- Bytes the read pointer loop counts for segment `j` of a ring of the
reachable shape. -/
theorem ring_at_loc {hbs : List hb} {f o : Nat} {v : Bool} (h : ring_at hbs f o v)
    {j : Nat} {b : hb} (hbj : hbs[j]? = some b) :
    (if b.state = kpb_buffer_state.KPB_BUFFER_FREE then sub32 b.w_ptr b.start_addr
     else if b.state = kpb_buffer_state.KPB_BUFFER_FULL then sub32 b.end_addr b.start_addr
     else 0) = if j = f then o else if j < f then seg_size b else if v then 0 else seg_size b := by
  have facts := ring_at_get h hbj
  have hsz : seg_size b = b.end_addr - b.start_addr := rfl
  have hfull : sub32 b.end_addr b.start_addr = seg_size b :=
    sub32_eq _ _ (by omega) facts.2.1
  have hzero : sub32 b.start_addr b.start_addr = 0 := by unfold sub32; omega
  have hnf : ¬ (kpb_buffer_state.KPB_BUFFER_FULL = kpb_buffer_state.KPB_BUFFER_FREE) := by decide
  rcases Nat.lt_trichotomy j f with hlt | heq | hgt
  · have hs := facts.2.2.1 hlt
    rw [hs.1, if_neg hnf, if_pos rfl, if_neg (show ¬ j = f by omega), if_pos hlt, hfull]
  · have hs := facts.2.2.2.1 heq
    rw [hs.1, if_pos rfl, if_pos heq, hs.2.1, sub32_eq _ _ (by omega) (by omega)]
    omega
  · have hs := facts.2.2.2.2 hgt
    rw [if_neg (show ¬ j = f by omega), if_neg (show ¬ j < f by omega)]
    cases v with
    | true =>
      simp only [if_true] at hs ⊢
      rw [hs.2, if_pos rfl, hs.1, hzero]
    | false =>
      simp only [Bool.false_eq_true, if_false] at hs ⊢
      rw [hs.2, if_neg hnf, if_pos rfl, hfull]

/-- The read pointer loop on the segments at and before the write segment:
when the depth does not exceed the write offset the loop stores the read
cursor `d` bytes below the write offset; otherwise it passes the head with
everything up to the write offset counted. -/
theorem read_ptr_loop_low {hbs : List hb} {f o : Nat} {v : Bool} (h : ring_at hbs f o v)
    (d : Nat) :
    ∀ (j fuel B : Nat), j ≤ f → B ≤ d →
      (if j = f then B = 0 else B + offset_of hbs (j + 1) = offset_of hbs f + o) →
      (d ≤ offset_of hbs f + o →
        ∃ jj b x, jj ≤ f ∧ hbs[jj]? = some b ∧
          read_ptr_loop d f (fuel + j + 1) hbs j B
            = some (hbs.set jj { b with r_ptr := b.start_addr + x }, jj) ∧
          offset_of hbs jj + x + d = offset_of hbs f + o ∧ x ≤ seg_size b ∧
          (jj = f → x ≤ o)) ∧
      (offset_of hbs f + o < d →
        read_ptr_loop d f (fuel + j + 1) hbs j B =
          if f + 1 = hbs.length then some (hbs, f)
          else read_ptr_loop d f fuel hbs (hbs.length - 1) (offset_of hbs f + o)) := by
  intro j
  induction j with
  | zero =>
    intro fuel B hjf hB hentry
    obtain ⟨b, hbj⟩ := getElem?_of_lt h.1.1
    obtain ⟨loc, hloc, hstep⟩ := read_ptr_loop_step d f fuel hbs 0 B b hbj
    rw [ring_at_loc h hbj] at hloc
    have facts := ring_at_get h hbj
    have hsz : seg_size b = b.end_addr - b.start_addr := rfl
    have hsucc := offset_of_succ hbj
    have hflen := h.2.1
    rw [offset_of_zero] at hsucc
    have hprev := links_prev h.1 hbj
    have hsum : B + loc = offset_of hbs f + o := by
      by_cases h0 : 0 = f
      · subst h0
        rw [if_pos rfl] at hentry hloc
        rw [offset_of_zero]; omega
      · rw [if_neg h0] at hentry hloc
        rw [if_pos (by omega)] at hloc
        omega
    have hlocle : loc ≤ seg_size b ∧ (0 = f → loc ≤ o) := by
      by_cases h0 : 0 = f
      · subst h0
        rw [if_pos rfl] at hloc
        have := (facts.2.2.2.1 rfl).2.2
        omega
      · rw [if_neg h0, if_pos (by omega)] at hloc
        omega
    constructor
    · intro hd
      refine ⟨0, b, B + loc - d, Nat.zero_le _, hbj, ?_, by rw [offset_of_zero]; omega,
        by omega, fun e => by have := hlocle.2 e; omega⟩
      rw [Nat.add_zero, hstep, if_neg (by omega)]
      by_cases he : d = B + loc
      · rw [if_pos he]
        have : B + loc - d = 0 := by omega
        rw [this]
        rfl
      · rw [if_neg he]
    · intro hd
      rw [Nat.add_zero, hstep, if_pos (by omega), hprev]
      have hmod : (0 + hbs.length - 1) % hbs.length = hbs.length - 1 := by
        rw [Nat.zero_add]; exact Nat.mod_eq_of_lt (by omega)
      rw [hmod]
      simp only []
      by_cases hlast : f + 1 = hbs.length
      · have : hbs.length - 1 = f := by omega
        rw [if_pos hlast, this]
        simp
      · rw [if_neg hlast, if_pos (by omega), hsum]
  | succ j ih =>
    intro fuel B hjf hB hentry
    have hflen := h.2.1
    obtain ⟨b, hbj⟩ := getElem?_of_lt (show j + 1 < hbs.length by omega)
    obtain ⟨loc, hloc, hstep⟩ := read_ptr_loop_step d f (fuel + j + 1) hbs (j + 1) B b hbj
    rw [ring_at_loc h hbj] at hloc
    have facts := ring_at_get h hbj
    have hsz : seg_size b = b.end_addr - b.start_addr := rfl
    have hsucc := offset_of_succ hbj
    have hprev := links_prev h.1 hbj
    have hmod : (j + 1 + hbs.length - 1) % hbs.length = j := by
      have : j + 1 + hbs.length - 1 = j + hbs.length := by omega
      rw [this, Nat.add_mod_right]; exact Nat.mod_eq_of_lt (by omega)
    rw [hmod] at hprev
    have hmono := offset_of_mono hbs hjf
    have hsum : B + loc + offset_of hbs (j + 1) = offset_of hbs f + o := by
      by_cases h0 : j + 1 = f
      · rw [if_pos h0] at hentry hloc
        rw [h0]; omega
      · rw [if_neg h0] at hentry hloc
        rw [if_pos (by omega)] at hloc
        omega
    have hlocle : loc ≤ seg_size b ∧ (j + 1 = f → loc ≤ o) := by
      by_cases h0 : j + 1 = f
      · rw [if_pos h0] at hloc
        have := (facts.2.2.2.1 h0).2.2
        omega
      · rw [if_neg h0, if_pos (by omega)] at hloc
        omega
    have e1 : fuel + (j + 1) + 1 = (fuel + j + 1) + 1 := by omega
    by_cases hgt : d > B + loc
    · have hrec := ih fuel (B + loc) (by omega) (by omega)
        (by rw [if_neg (by omega)]; exact hsum)
      have hrun : read_ptr_loop d f (fuel + (j + 1) + 1) hbs (j + 1) B
          = read_ptr_loop d f (fuel + j + 1) hbs j (B + loc) := by
        rw [e1, hstep, if_pos hgt, hprev]
        simp only []
        rw [if_pos (by omega)]
      rw [hrun]
      exact hrec
    · constructor
      · intro hd
        refine ⟨j + 1, b, B + loc - d, hjf, hbj, ?_, by omega, by omega,
          fun e => by have := hlocle.2 e; omega⟩
        rw [e1, hstep, if_neg hgt]
        by_cases he : d = B + loc
        · rw [if_pos he]
          have : B + loc - d = 0 := by omega
          rw [this]
          rfl
        · rw [if_neg he]
      · intro hd
        omega

/-- The read pointer loop on the segments after the write segment of a ring
that has wrapped: the loop stores the read cursor `d` bytes below the write
offset, counted around the end of the ring. -/
theorem read_ptr_loop_high {hbs : List hb} {f o : Nat} (h : ring_at hbs f o false)
    (d : Nat) (hd : d + offset_of hbs (f + 1) ≤ offset_of hbs f + o + capacity hbs) :
    ∀ (t j fuel B : Nat), j = f + 1 + t → j < hbs.length → B ≤ d →
      B + offset_of hbs (j + 1) = offset_of hbs f + o + capacity hbs →
      ∃ jj b x, f < jj ∧ hbs[jj]? = some b ∧
        read_ptr_loop d f (fuel + t + 1) hbs j B
          = some (hbs.set jj { b with r_ptr := b.start_addr + x }, jj) ∧
        offset_of hbs jj + x + d = offset_of hbs f + o + capacity hbs ∧ x ≤ seg_size b := by
  intro t
  induction t with
  | zero =>
    intro j fuel B hj hjlen hB hentry
    rw [Nat.add_zero] at hj
    subst hj
    obtain ⟨b, hbj⟩ := getElem?_of_lt hjlen
    obtain ⟨loc, hloc, hstep⟩ := read_ptr_loop_step d f fuel hbs (f + 1) B b hbj
    rw [ring_at_loc h hbj, if_neg (by omega), if_neg (by omega)] at hloc
    simp only [Bool.false_eq_true, if_false] at hloc
    have hsucc := offset_of_succ hbj
    refine ⟨f + 1, b, B + loc - d, by omega, hbj, ?_, by omega, by omega⟩
    rw [Nat.add_zero, hstep, if_neg (by omega)]
    by_cases he : d = B + loc
    · rw [if_pos he]
      have : B + loc - d = 0 := by omega
      rw [this]
      rfl
    · rw [if_neg he]
  | succ t ih =>
    intro j fuel B hj hjlen hB hentry
    obtain ⟨b, hbj⟩ := getElem?_of_lt hjlen
    obtain ⟨loc, hloc, hstep⟩ := read_ptr_loop_step d f (fuel + t + 1) hbs j B b hbj
    rw [ring_at_loc h hbj, if_neg (by omega), if_neg (by omega)] at hloc
    simp only [Bool.false_eq_true, if_false] at hloc
    have hsucc := offset_of_succ hbj
    have hprev := links_prev h.1 hbj
    have hmod : (j + hbs.length - 1) % hbs.length = j - 1 := by
      have : j + hbs.length - 1 = (j - 1) + hbs.length := by omega
      rw [this, Nat.add_mod_right]; exact Nat.mod_eq_of_lt (by omega)
    rw [hmod] at hprev
    have e1 : fuel + (t + 1) + 1 = (fuel + t + 1) + 1 := by omega
    by_cases hgt : d > B + loc
    · obtain ⟨jj, bj, x, hjj, hbjj, hrun, hoff, hx⟩ := ih (j - 1) fuel (B + loc) (by omega)
        (by omega) (by omega) (by
          have : j - 1 + 1 = j := by omega
          rw [this]; omega)
      refine ⟨jj, bj, x, hjj, hbjj, ?_, hoff, hx⟩
      rw [e1, hstep, if_pos hgt, hprev]
      simp only []
      rw [if_pos (by omega)]
      exact hrun
    · refine ⟨j, b, B + loc - d, by omega, hbj, ?_, by omega, by omega⟩
      rw [e1, hstep, if_neg hgt]
      by_cases he : d = B + loc
      · rw [if_pos he]
        have : B + loc - d = 0 := by omega
        rw [this]
        rfl
      · rw [if_neg he]

/-- On a ring of the reachable shape, for a depth within the bytes the loop
counts, the read pointer loop started at the write segment stores a read
cursor whose linear offset lies `d` bytes behind the write offset. -/
theorem read_ptr_loop_located {hbs : List hb} {f o : Nat} {v : Bool} (h : ring_at hbs f o v)
    (d fuel : Nat) (hfuel : hbs.length ≤ fuel) (hd : d ≤ counted hbs) :
    ∃ jj b x, hbs[jj]? = some b ∧
      read_ptr_loop d f fuel hbs f 0
        = some (hbs.set jj { b with r_ptr := b.start_addr + x }, jj) ∧
      x ≤ seg_size b ∧ (jj = f → x ≤ o) ∧
      offset_of hbs jj + x + d =
        if jj ≤ f then offset_of hbs f + o else offset_of hbs f + o + capacity hbs := by
  have hflen := h.2.1
  obtain ⟨fuel1, rfl⟩ : ∃ k, fuel = k + f + 1 := ⟨fuel - f - 1, by omega⟩
  obtain ⟨low1, low2⟩ := read_ptr_loop_low h d f fuel1 0 (Nat.le_refl _) (Nat.zero_le _)
    (by rw [if_pos rfl])
  by_cases hlow : d ≤ offset_of hbs f + o
  · obtain ⟨jj, b, x, hjj, hbjj, hrun, hoff, hx, hxf⟩ := low1 hlow
    exact ⟨jj, b, x, hbjj, hrun, hx, hxf, by rw [if_pos hjj]; exact hoff⟩
  · rw [counted_ring_at h] at hd
    cases v with
    | true => simp only [if_true] at hd; omega
    | false =>
      simp only [Bool.false_eq_true, if_false] at hd
      obtain ⟨bf, hbf⟩ := getElem?_of_lt hflen
      have hsucc := offset_of_succ hbf
      have hcapf := offset_add_size_le_capacity hbf
      have hnl : ¬ f + 1 = hbs.length := by
        intro hc
        have := offset_of_length hbs
        rw [← hc] at this
        omega
      have hrun0 := low2 (by omega)
      rw [if_neg hnl] at hrun0
      have hfuel1 : hbs.length - f - 2 + 1 ≤ fuel1 := by omega
      obtain ⟨fuel2, hfuel2⟩ : ∃ k, fuel1 = k + (hbs.length - f - 2) + 1 :=
        ⟨fuel1 - (hbs.length - f - 2) - 1, by omega⟩
      have hd2 : d + offset_of hbs (f + 1) ≤ offset_of hbs f + o + capacity hbs := by omega
      have hj2 : hbs.length - 1 = f + 1 + (hbs.length - f - 2) := by omega
      have hj3 : hbs.length - 1 < hbs.length := by omega
      have hB2 : offset_of hbs f + o ≤ d := by omega
      have hent : offset_of hbs f + o + offset_of hbs (hbs.length - 1 + 1)
          = offset_of hbs f + o + capacity hbs := by
        have : hbs.length - 1 + 1 = hbs.length := by omega
        rw [this, offset_of_length]
      obtain ⟨jj, b, x, hjj, hbjj, hrun, hoff, hx⟩ :=
        read_ptr_loop_high h d hd2 (hbs.length - f - 2) (hbs.length - 1) fuel2
          (offset_of hbs f + o) hj2 hj3 hB2 hent
      rw [← hfuel2] at hrun
      have hxf : jj = f → x ≤ o := fun e => by omega
      have hnle : ¬ jj ≤ f := by omega
      refine ⟨jj, b, x, hbjj, ?_, hx, hxf, by rw [if_neg hnle]; exact hoff⟩
      rw [hrun0]
      exact hrun

/-- On the fresh two segment ring (100 and 50 bytes) after one write of 100
bytes the drain of depth 120 is accepted (the sufficiency check counts
segment 1 in full), and the start selected is segment 1 at `r_ptr = 2000`,
the write position itself: the walk from the read position to the write
position covers 0 bytes. -/
theorem drain_start_after_overcount :
    ReachedBy (ex_written 100) 100 ∧
    kpb_init_draining 2 5 2 (ex_written 100) (ex_sink 10) (ex_client 120)
      = some ({ ex_written 100 with
                draining_task_data :=
                  { sink := 7, history_buffer := some 1, history_depth := 120, state := true } },
              [call.schedule_task]) ∧
    (ex_written 100).hbs =
      [{ state := kpb_buffer_state.KPB_BUFFER_FULL, start_addr := 1000, end_addr := 1100,
         w_ptr := 1000, r_ptr := 1000, next := some 1, prev := some 1 },
       { state := kpb_buffer_state.KPB_BUFFER_FREE, start_addr := 2000, end_addr := 2050,
         w_ptr := 2000, r_ptr := 2000, next := some 0, prev := some 0 }] ∧
    drain_distance { ex_written 100 with
                draining_task_data :=
                  { sink := 7, history_buffer := some 1, history_depth := 120, state := true } }
      = some 0 :=
  ⟨ex_written_100_reached, by decide, by decide, by decide⟩

/-- Where the read pointer computation works: for every drain accepted by
`kpb_init_draining` on a reachable ring state whose depth `d` does not exceed
the bytes that computation counts (`w_ptr - start_addr` of FREE segments
plus the sizes of FULL segments), the call returns, schedules the drain, and
the start it selects lies exactly `d` bytes behind the write position,
walking forward and wrapping across segments. -/
theorem drain_start_distance_counted (kpb : kpb_comp_data) (n maxc act fuel : Nat)
    (cli_sink : comp_buffer) (cli : kpb_client)
    (hreach : ReachedBy kpb n) (hfuel : kpb.hbs.length ≤ fuel)
    (hid : cli.id ≤ maxc) (hsink : cli_sink.sink_state = act)
    (henough : kpb_have_enough_history_data fuel kpb 0 cli.history_depth = some 1)
    (hd : cli.history_depth ≤ counted kpb.hbs) :
    ∃ kpb1, kpb_init_draining maxc act fuel kpb cli_sink cli
        = some (kpb1, [call.schedule_task]) ∧
      kpb1.draining_task_data.history_depth = cli.history_depth ∧
      drain_distance kpb1 = some cli.history_depth := by
  obtain ⟨f, o, hat, -⟩ := ReachedBy_ring_inv hreach
  obtain ⟨jj, b, x, hbjj, hrun, hx, hxf, hoff⟩ :=
    read_ptr_loop_located hat cli.history_depth fuel hfuel hd
  have hff := find_free_buffer_ring_at_fuel hat hfuel
  have hframe := map_set_same drop_r_ptr kpb.hbs jj b { b with r_ptr := b.start_addr + x } hbjj rfl
  have hat1 := ring_at_congr hframe hat
  have hg := geometry_of_drop_r_ptr hframe
  have hjlen := getElem?_lt hbjj
  have hb1 : (kpb.hbs.set jj { b with r_ptr := b.start_addr + x })[jj]?
      = some { b with r_ptr := b.start_addr + x } := by
    rw [List.getElem?_set_self hjlen]
  obtain ⟨bf, hbf, -⟩ := ring_at_write_seg hat1
  refine ⟨{ kpb with
              hbs := kpb.hbs.set jj { b with r_ptr := b.start_addr + x }
              draining_task_data :=
                { sink := kpb.cli_sink, history_buffer := some jj,
                  history_depth := cli.history_depth, state := true } }, ?_, rfl, ?_⟩
  · unfold kpb_init_draining
    simp only [henough, hff, hrun, hsink]
    rw [if_neg (by omega)]
    simp
  · unfold drain_distance
    simp only [hb1, write_segment_ring_at hat1, hbf]
    have hwalk := walk_forward_from hat1 hbf hb1 hx hxf
    simp only [List.length_set] at hwalk ⊢
    rw [hwalk, capacity_geometry hg, offset_of_geometry hg, offset_of_geometry hg]
    congr 1
    split_ifs at hoff ⊢ <;> omega

/-- An instance: 120 bytes written to the fresh ring of 100 and 50 bytes,
drain of 110 bytes; the start is 10 bytes into segment 0. -/
theorem drain_start_distance_counted_example :
    ReachedBy (ex_written 120) 120 ∧ (ex_written 120).hbs.length ≤ 2 ∧
    (ex_client 110).id ≤ 2 ∧ (ex_sink 10).sink_state = 5 ∧
    kpb_have_enough_history_data 2 (ex_written 120) 0 (ex_client 110).history_depth = some 1 ∧
    (ex_client 110).history_depth ≤ counted (ex_written 120).hbs ∧
    ∃ kpb1, kpb_init_draining 2 5 2 (ex_written 120) (ex_sink 10) (ex_client 110)
        = some (kpb1, [call.schedule_task]) ∧
      kpb1.draining_task_data.history_depth = (ex_client 110).history_depth ∧
      drain_distance kpb1 = some (ex_client 110).history_depth :=
  have hr : ReachedBy (ex_written 120) 120 :=
    ReachedBy.write ex_fresh 0 200 ex_source 120 (ex_written 120)
      [call.memcpy 1000 5000 100, call.memcpy 2000 5000 20] ex_fresh_reached (by decide)
  ⟨hr, by decide, by decide, rfl, by decide, by decide,
    drain_start_distance_counted (ex_written 120) 120 2 5 2 (ex_sink 10) (ex_client 110) hr
      (by decide) (by decide) rfl (by decide) (by decide)⟩

/-- The read pointer loop on the segments after the write segment when the
depth exceeds everything it can count there: the loop walks back to the
write segment and stops, storing nothing. -/
theorem read_ptr_loop_high_exit {hbs : List hb} {f o : Nat} {v : Bool} (h : ring_at hbs f o v)
    (d : Nat) :
    ∀ (t j fuel B : Nat), j = f + 1 + t → j < hbs.length →
      (if v then B < d else B + offset_of hbs (j + 1) < d + offset_of hbs (f + 1)) →
      read_ptr_loop d f (fuel + t + 1) hbs j B = some (hbs, f) := by
  intro t
  induction t with
  | zero =>
    intro j fuel B hj hjlen hentry
    rw [Nat.add_zero] at hj
    subst hj
    obtain ⟨b, hbj⟩ := getElem?_of_lt hjlen
    obtain ⟨loc, hloc, hstep⟩ := read_ptr_loop_step d f fuel hbs (f + 1) B b hbj
    rw [ring_at_loc h hbj, if_neg (show ¬ f + 1 = f by omega),
      if_neg (show ¬ f + 1 < f by omega)] at hloc
    have hsucc := offset_of_succ hbj
    have hprev := links_prev h.1 hbj
    have hmod : (f + 1 + hbs.length - 1) % hbs.length = f := by
      have : f + 1 + hbs.length - 1 = f + hbs.length := by omega
      rw [this, Nat.add_mod_right]; exact Nat.mod_eq_of_lt (by omega)
    rw [hmod] at hprev
    have hgt : d > B + loc := by
      cases v with
      | true => simp only [if_true] at hloc hentry; omega
      | false => simp only [Bool.false_eq_true, if_false] at hloc hentry; omega
    rw [Nat.add_zero, hstep, if_pos hgt, hprev]
    simp
  | succ t ih =>
    intro j fuel B hj hjlen hentry
    obtain ⟨b, hbj⟩ := getElem?_of_lt hjlen
    obtain ⟨loc, hloc, hstep⟩ := read_ptr_loop_step d f (fuel + t + 1) hbs j B b hbj
    rw [ring_at_loc h hbj, if_neg (show ¬ j = f by omega),
      if_neg (show ¬ j < f by omega)] at hloc
    have hsucc := offset_of_succ hbj
    have hmono := offset_of_mono hbs (show f + 1 ≤ j by omega)
    have hprev := links_prev h.1 hbj
    have hmod : (j + hbs.length - 1) % hbs.length = j - 1 := by
      have : j + hbs.length - 1 = (j - 1) + hbs.length := by omega
      rw [this, Nat.add_mod_right]; exact Nat.mod_eq_of_lt (by omega)
    rw [hmod] at hprev
    have e1 : fuel + (t + 1) + 1 = (fuel + t + 1) + 1 := by omega
    have hj1 : j - 1 + 1 = j := by omega
    have hgt : d > B + loc := by
      cases v with
      | true => simp only [if_true] at hloc hentry; omega
      | false => simp only [Bool.false_eq_true, if_false] at hloc hentry; omega
    rw [e1, hstep, if_pos hgt, hprev]
    simp only []
    rw [if_pos (show j - 1 ≠ f by omega)]
    apply ih (j - 1) fuel (B + loc) (by omega) (by omega)
    rw [hj1]
    cases v with
    | true => simp only [if_true] at hloc hentry ⊢; omega
    | false => simp only [Bool.false_eq_true, if_false] at hloc hentry ⊢; omega

/-- On a ring of the reachable shape the read pointer loop, started at the
write segment, returns within one revolution for every depth. -/
theorem read_ptr_loop_total {hbs : List hb} {f o : Nat} {v : Bool} (h : ring_at hbs f o v)
    (d fuel : Nat) (hfuel : hbs.length ≤ fuel) :
    ∃ hbs1 r, read_ptr_loop d f fuel hbs f 0 = some (hbs1, r) := by
  by_cases hd : d ≤ counted hbs
  · obtain ⟨jj, b, x, -, hrun, -⟩ := read_ptr_loop_located h d fuel hfuel hd
    exact ⟨_, _, hrun⟩
  · have hflen := h.2.1
    obtain ⟨bf, hbf⟩ := getElem?_of_lt hflen
    have hsucc := offset_of_succ hbf
    have hcapf := offset_add_size_le_capacity hbf
    have hcnt := counted_ring_at h
    have hPw : offset_of hbs f + o < d := by
      cases v with
      | true => simp only [if_true] at hcnt; omega
      | false =>
        simp only [Bool.false_eq_true, if_false] at hcnt
        have := (ring_at_get h hbf).2.2.2.1 rfl
        omega
    obtain ⟨fuel1, rfl⟩ : ∃ k, fuel = k + f + 1 := ⟨fuel - f - 1, by omega⟩
    rw [(read_ptr_loop_low h d f fuel1 0 (Nat.le_refl _) (Nat.zero_le _)
      (by rw [if_pos rfl])).2 hPw]
    by_cases hlast : f + 1 = hbs.length
    · rw [if_pos hlast]; exact ⟨_, _, rfl⟩
    · rw [if_neg hlast]
      obtain ⟨fuel2, rfl⟩ : ∃ k, fuel1 = k + (hbs.length - f - 2) + 1 :=
        ⟨fuel1 - (hbs.length - f - 2) - 1, by omega⟩
      have hj2 : hbs.length - 1 = f + 1 + (hbs.length - f - 2) := by omega
      have hj3 : hbs.length - 1 < hbs.length := by omega
      have hlen1 : hbs.length - 1 + 1 = hbs.length := by omega
      rw [read_ptr_loop_high_exit h d (hbs.length - f - 2) (hbs.length - 1) fuel2
        (offset_of hbs f + o) hj2 hj3 (by
          rw [hlen1, offset_of_length]
          cases v with
          | true => simp only [if_true]; exact hPw
          | false =>
            simp only [Bool.false_eq_true, if_false] at hcnt ⊢
            omega)]
      exact ⟨_, _, rfl⟩

/-- In every reachable component state `kpb_init_draining` returns once the
fuel covers the ring length. -/
theorem kpb_init_draining_total (kpb : kpb_comp_data) (n maxc act fuel : Nat)
    (cli_sink : comp_buffer) (cli : kpb_client) (hreach : ReachedBy kpb n)
    (hfuel : kpb.hbs.length ≤ fuel) :
    ∃ kpb1 tr, kpb_init_draining maxc act fuel kpb cli_sink cli = some (kpb1, tr) := by
  obtain ⟨f, o, hat, -⟩ := ReachedBy_ring_inv hreach
  have hhe : ∃ e, kpb_have_enough_history_data fuel kpb 0 cli.history_depth = some e := by
    unfold kpb_have_enough_history_data
    split
    · exact ⟨1, rfl⟩
    · obtain ⟨T, hT, -⟩ := have_enough_loop_bound hat cli.history_depth kpb.hbs.length 0 fuel 0
        (by omega) hat.1.1 hfuel
      rw [hT]
      exact ⟨_, rfl⟩
  obtain ⟨e, he⟩ := hhe
  obtain ⟨hbs1, r, hrun⟩ := read_ptr_loop_total hat cli.history_depth fuel hfuel
  unfold kpb_init_draining
  simp only [he, find_free_buffer_ring_at_fuel hat hfuel, hrun]
  split_ifs <;> exact ⟨_, _, rfl⟩

theorem produced_append (a b : List call) : produced (a ++ b) = produced a ++ produced b := by
  induction a with
  | nil => rfl
  | cons c a ih =>
    cases c <;> simp [produced, ih]

theorem produced_chunk (tr : List call) (dst src sink n : Nat) :
    produced (tr ++ [call.memcpy dst src n, call.comp_update_buffer_produce sink n])
      = produced tr ++ [n] := by
  rw [produced_append]
  rfl

/-- Whenever the loop of `draining_task` returns, the byte counts it passed
to `comp_update_buffer_produce` add up to the depth it started with and no
depth is left. -/
theorem draining_loop_total (sink_addr : Nat) :
    ∀ (sinks : List comp_buffer) (hbs : List hb) (d : dd) (buff : Option Nat) (tr : List call)
      (hbs1 : List hb) (d1 : dd) (tr1 : List call),
      draining_loop sink_addr sinks hbs d buff tr = some (hbs1, d1, tr1) →
      (produced tr1).sum = (produced tr).sum + d.history_depth ∧ d1.history_depth = 0 := by
  intro sinks
  induction sinks with
  | nil =>
    intro hbs d buff tr hbs1 d1 tr1 heq
    unfold draining_loop at heq
    split at heq
    · simp at heq
    · rename_i hz
      simp only [Option.some.injEq, Prod.mk.injEq] at heq
      obtain ⟨-, rfl, rfl⟩ := heq
      omega
  | cons sink rest ih =>
    intro hbs d buff tr hbs1 d1 tr1 heq
    unfold draining_loop at heq
    split at heq
    · cases buff with
      | none => simp at heq
      | some bi =>
        simp only at heq
        cases hbb : hbs[bi]? with
        | none => simp [hbb] at heq
        | some b =>
          simp only [hbb] at heq
          split at heq
          · obtain ⟨h1, h2⟩ := ih _ _ _ _ _ _ _ heq
            rw [produced_chunk] at h1
            simp only [List.sum_append, List.sum_cons, List.sum_nil] at h1
            refine ⟨?_, h2⟩
            rw [h1]
            split_ifs <;> omega
          · obtain ⟨h1, h2⟩ := ih _ _ _ _ _ _ _ heq
            rw [produced_chunk] at h1
            simp only [List.sum_append, List.sum_cons, List.sum_nil] at h1
            refine ⟨?_, h2⟩
            rw [h1]
            split_ifs <;> omega
    · rename_i hz
      simp only [Option.some.injEq, Prod.mk.injEq] at heq
      obtain ⟨-, rfl, rfl⟩ := heq
      omega

/-- Every `comp_update_buffer_produce` call of the loop of `draining_task` is
made on the sink of the drain context. -/
theorem draining_loop_sink (sink_addr : Nat) :
    ∀ (sinks : List comp_buffer) (hbs : List hb) (d : dd) (buff : Option Nat) (tr : List call)
      (hbs1 : List hb) (d1 : dd) (tr1 : List call),
      draining_loop sink_addr sinks hbs d buff tr = some (hbs1, d1, tr1) →
      (∀ s n, call.comp_update_buffer_produce s n ∈ tr → s = sink_addr) →
      ∀ s n, call.comp_update_buffer_produce s n ∈ tr1 → s = sink_addr := by
  intro sinks
  induction sinks with
  | nil =>
    intro hbs d buff tr hbs1 d1 tr1 heq htr
    unfold draining_loop at heq
    split at heq
    · simp at heq
    · simp only [Option.some.injEq, Prod.mk.injEq] at heq
      obtain ⟨-, -, rfl⟩ := heq
      exact htr
  | cons sink rest ih =>
    intro hbs d buff tr hbs1 d1 tr1 heq htr
    have hext : ∀ (dst src k : Nat) (s n : Nat),
        call.comp_update_buffer_produce s n ∈
          tr ++ [call.memcpy dst src k, call.comp_update_buffer_produce sink_addr k] →
        s = sink_addr := by
      intro dst src k s n hmem
      simp only [List.mem_append, List.mem_cons, List.mem_singleton, call.comp_update_buffer_produce.injEq,
        List.not_mem_nil, or_false] at hmem
      rcases hmem with h1 | h1 | h1
      · exact htr s n h1
      · cases h1
      · exact h1.1
    unfold draining_loop at heq
    split at heq
    · cases buff with
      | none => simp at heq
      | some bi =>
        simp only at heq
        cases hbb : hbs[bi]? with
        | none => simp [hbb] at heq
        | some b =>
          simp only [hbb] at heq
          split at heq
          · exact ih _ _ _ _ _ _ _ heq (hext _ _ _)
          · exact ih _ _ _ _ _ _ _ heq (hext _ _ _)
    · simp only [Option.some.injEq, Prod.mk.injEq] at heq
      obtain ⟨-, -, rfl⟩ := heq
      exact htr

/-- C3: for every drain context of depth `d` and every sequence of sink
states (free space) for which `draining_task` finishes, the byte counts passed
to `comp_update_buffer_produce`, all of them on the sink of the drain
context, sum to exactly `d`, and `history_depth` is 0 at the end. -/
theorem C3_drain_delivers_depth (kpb : kpb_comp_data) (sinks : List comp_buffer)
    (kpb1 : kpb_comp_data) (tr : List call)
    (hrun : draining_task kpb sinks = some (kpb1, tr)) :
    (produced tr).sum = kpb.draining_task_data.history_depth ∧
    (∀ s n, call.comp_update_buffer_produce s n ∈ tr → s = kpb.draining_task_data.sink) ∧
    kpb1.draining_task_data.history_depth = 0 := by
  unfold draining_task at hrun
  split at hrun
  · simp at hrun
  · rename_i hbs1 d1 tr1 hloop
    split at hrun
    · simp only [Option.some.injEq, Prod.mk.injEq] at hrun
      obtain ⟨rfl, rfl⟩ := hrun
      have htot := draining_loop_total _ _ _ _ _ _ _ _ _ hloop
      have hsink := draining_loop_sink _ _ _ _ _ _ _ _ _ hloop (by simp)
      exact ⟨by simpa [produced] using htot.1, hsink, htot.2⟩
    · simp at hrun

theorem ex_draining_110_run :
    draining_task ex_draining_110
        [ex_sink 7, ex_sink 0, ex_sink 200, ex_sink 3, ex_sink 1, ex_sink 64]
      = some (ex_drained_110,
          [call.memcpy 9000 1010 7, call.comp_update_buffer_produce 7 7,
           call.memcpy 9000 1017 0, call.comp_update_buffer_produce 7 0,
           call.memcpy 9000 1017 83, call.comp_update_buffer_produce 7 83,
           call.memcpy 9000 2000 3, call.comp_update_buffer_produce 7 3,
           call.memcpy 9000 2003 1, call.comp_update_buffer_produce 7 1,
           call.memcpy 9000 2004 16, call.comp_update_buffer_produce 7 16]) := by
  decide

/-- An instance of C3: a drain of 110 bytes crossing a segment boundary, cut
into chunks of 7, 0, 83, 3, 1 and 16 bytes by the free space of the sink. -/
theorem C3_drain_delivers_depth_witness :
    draining_task ex_draining_110
        [ex_sink 7, ex_sink 0, ex_sink 200, ex_sink 3, ex_sink 1, ex_sink 64]
      = some (ex_drained_110,
          [call.memcpy 9000 1010 7, call.comp_update_buffer_produce 7 7,
           call.memcpy 9000 1017 0, call.comp_update_buffer_produce 7 0,
           call.memcpy 9000 1017 83, call.comp_update_buffer_produce 7 83,
           call.memcpy 9000 2000 3, call.comp_update_buffer_produce 7 3,
           call.memcpy 9000 2003 1, call.comp_update_buffer_produce 7 1,
           call.memcpy 9000 2004 16, call.comp_update_buffer_produce 7 16]) ∧
    7 + 0 + 83 + 3 + 1 + 16 = ex_draining_110.draining_task_data.history_depth ∧
    ex_drained_110.draining_task_data.history_depth = 0 :=
  ⟨ex_draining_110_run, (C3_drain_delivers_depth _ _ _ _ ex_draining_110_run).1,
    (C3_drain_delivers_depth _ _ _ _ ex_draining_110_run).2.2⟩

/-! ### The write path on an arbitrary ring: bounds, links and read cursors -/

theorem switch_buffer_frame {β : Type} (f : hb → β)
    (hf : ∀ (x : hb) (s : kpb_buffer_state), f { x with state := s } = f x)
    (hbs : List hb) (buff : Nat) (hbs1 : List hb) (buff1 : Nat)
    (h : switch_buffer hbs buff = some (hbs1, buff1)) : hbs1.map f = hbs.map f := by
  unfold switch_buffer at h
  cases hbb : hbs[buff]? with
  | none => simp [hbb] at h
  | some b =>
    obtain ⟨st, sa, ea, w, r, nxo, pv⟩ := b
    simp only [hbb] at h
    cases nxo with
    | none =>
      simp only [Option.some.injEq, Prod.mk.injEq] at h
      rw [← h.1]
      exact map_set_same f hbs buff _ _ hbb
        (hf ⟨st, sa, ea, w, r, none, pv⟩ kpb_buffer_state.KPB_BUFFER_FREE)
    | some nx =>
      simp only at h
      by_cases hnb : nx = buff
      · subst hnb
        simp only [if_true, Option.some.injEq, Prod.mk.injEq] at h
        rw [← h.1]
        exact map_set_same f hbs nx _ _ hbb
          (hf ⟨st, sa, ea, w, r, some nx, pv⟩ kpb_buffer_state.KPB_BUFFER_FREE)
      · simp only [hnb, if_false] at h
        split at h
        · simp at h
        · rename_i c hc
          simp only [Option.some.injEq, Prod.mk.injEq] at h
          rw [← h.1, map_set_same f _ nx c _ hc (hf c _)]
          exact map_set_same f hbs buff _ _ hbb
            (hf ⟨st, sa, ea, w, r, some nx, pv⟩ kpb_buffer_state.KPB_BUFFER_FULL)

/-- The write cursor of every segment lies within the segment. -/
theorem w_bounds_of_view {h1 h2 : List hb}
    (h : h1.map (fun b => (b.start_addr, b.end_addr, b.w_ptr))
       = h2.map (fun b => (b.start_addr, b.end_addr, b.w_ptr)))
    (hw : ∀ b ∈ h2, b.start_addr ≤ b.w_ptr ∧ b.w_ptr ≤ b.end_addr) :
    ∀ b ∈ h1, b.start_addr ≤ b.w_ptr ∧ b.w_ptr ≤ b.end_addr := by
  intro b1 hb1
  obtain ⟨i, hi⟩ := List.getElem?_of_mem hb1
  obtain ⟨b2, hb2, he⟩ := map_eq_getElem? _ h.symm hi
  simp only [Prod.mk.injEq] at he
  have := hw b2 (List.getElem?_mem hb2)
  omega

theorem r_bounds_of_view {h1 h2 : List hb} (h : h1.map drop_write = h2.map drop_write)
    (hr : ∀ b ∈ h2, b.start_addr ≤ b.r_ptr ∧ b.r_ptr ≤ b.end_addr) :
    ∀ b ∈ h1, b.start_addr ≤ b.r_ptr ∧ b.r_ptr ≤ b.end_addr := by
  intro b1 hb1
  obtain ⟨i, hi⟩ := List.getElem?_of_mem hb1
  obtain ⟨b2, hb2, he⟩ := map_eq_getElem? _ h.symm hi
  obtain ⟨e1, e2, e3, -, -⟩ := drop_write_eq he
  have := hr b2 (List.getElem?_mem hb2)
  omega

theorem w_bounds_of_drop_r_ptr {h1 h2 : List hb} (h : h1.map drop_r_ptr = h2.map drop_r_ptr)
    (hw : ∀ b ∈ h2, b.start_addr ≤ b.w_ptr ∧ b.w_ptr ≤ b.end_addr) :
    ∀ b ∈ h1, b.start_addr ≤ b.w_ptr ∧ b.w_ptr ≤ b.end_addr := by
  intro b1 hb1
  obtain ⟨i, hi⟩ := List.getElem?_of_mem hb1
  obtain ⟨b2, hb2, he⟩ := map_eq_getElem? _ h.symm hi
  obtain ⟨-, e2, e3, e4, -, -⟩ := drop_r_ptr_eq he
  have := hw b2 (List.getElem?_mem hb2)
  omega

theorem w_bounds_set {hbs : List hb} (hw : ∀ b ∈ hbs, b.start_addr ≤ b.w_ptr ∧ b.w_ptr ≤ b.end_addr)
    (i : Nat) (x : hb) (hx : x.start_addr ≤ x.w_ptr ∧ x.w_ptr ≤ x.end_addr) :
    ∀ b ∈ hbs.set i x, b.start_addr ≤ b.w_ptr ∧ b.w_ptr ≤ b.end_addr := by
  intro b hbm
  rcases List.mem_or_eq_of_mem_set hbm with h1 | h1
  · exact hw b h1
  · rw [h1]; exact hx

/-- Whatever the ring, the copy loop of `kpb_buffer_data` touches neither
bounds, links nor read cursors, and it keeps every write cursor within its
segment. -/
theorem kpb_buffer_loop_bounds (src : Nat) :
    ∀ (fuel : Nat) (hbs : List hb) (buff s : Nat) (tr : List call) (hbs1 : List hb)
      (tr1 : List call),
      kpb_buffer_loop src fuel hbs buff s tr = some (hbs1, tr1) →
      hbs1.map drop_write = hbs.map drop_write ∧
      ((∀ b ∈ hbs, b.start_addr ≤ b.w_ptr ∧ b.w_ptr ≤ b.end_addr) →
        ∀ b ∈ hbs1, b.start_addr ≤ b.w_ptr ∧ b.w_ptr ≤ b.end_addr) := by
  intro fuel
  induction fuel with
  | zero =>
    intro hbs buff s tr hbs1 tr1 heq
    unfold kpb_buffer_loop at heq
    split at heq
    · simp only [Option.some.injEq, Prod.mk.injEq] at heq
      rw [← heq.1]; exact ⟨rfl, fun hw => hw⟩
    · simp at heq
  | succ fuel ih =>
    intro hbs buff s tr hbs1 tr1 heq
    rw [kpb_buffer_loop] at heq
    by_cases hs0 : s = 0
    · simp only [hs0, if_true, Option.some.injEq, Prod.mk.injEq] at heq
      rw [← heq.1]; exact ⟨rfl, fun hw => hw⟩
    · simp only [hs0, if_false] at heq
      cases hbb : hbs[buff]? with
      | none => simp [hbb] at heq
      | some b =>
        simp only [hbb] at heq
        have hd0 := map_set_same drop_write hbs buff b { b with w_ptr := b.start_addr } hbb rfl
        have hswitch : ∀ hbs2 buff2,
            switch_buffer (hbs.set buff { b with w_ptr := b.start_addr }) buff
              = some (hbs2, buff2) →
            hbs2.map drop_write = hbs.map drop_write ∧
            ((∀ b ∈ hbs, b.start_addr ≤ b.w_ptr ∧ b.w_ptr ≤ b.end_addr) →
              ∀ b ∈ hbs2, b.start_addr ≤ b.w_ptr ∧ b.w_ptr ≤ b.end_addr) := by
          intro hbs2 buff2 hsw
          refine ⟨?_, fun hw => ?_⟩
          · rw [switch_buffer_frame drop_write (fun _ _ => rfl) _ _ _ _ hsw, hd0]
          · have hwb := hw b (List.getElem?_mem hbb)
            exact w_bounds_of_view (switch_buffer_frame
              (fun b => (b.start_addr, b.end_addr, b.w_ptr)) (fun _ _ => rfl) _ _ _ _ hsw)
              (w_bounds_set hw buff { b with w_ptr := b.start_addr }
                ⟨Nat.le_refl _, by show b.start_addr ≤ b.end_addr; omega⟩)
        by_cases hgt : s > sub32 b.end_addr b.w_ptr
        · simp only [hgt, if_true] at heq
          cases hsw : switch_buffer (hbs.set buff { b with w_ptr := b.start_addr }) buff with
          | none => simp [hsw] at heq
          | some r =>
            obtain ⟨hbs2, buff2⟩ := r
            simp only [hsw] at heq
            obtain ⟨hd2, hw2⟩ := hswitch hbs2 buff2 hsw
            obtain ⟨hd3, hw3⟩ := ih _ _ _ _ _ _ heq
            exact ⟨hd3.trans hd2, fun hw => hw3 (hw2 hw)⟩
        · simp only [hgt, if_false] at heq
          by_cases hend : b.w_ptr + s = b.end_addr
          · simp only [hend, if_true] at heq
            cases hsw : switch_buffer (hbs.set buff { b with w_ptr := b.start_addr }) buff with
            | none => simp [hsw] at heq
            | some r =>
              obtain ⟨hbs2, buff2⟩ := r
              simp only [hsw] at heq
              obtain ⟨hd2, hw2⟩ := hswitch hbs2 buff2 hsw
              obtain ⟨hd3, hw3⟩ := ih _ _ _ _ _ _ heq
              exact ⟨hd3.trans hd2, fun hw => hw3 (hw2 hw)⟩
          · simp only [hend, if_false] at heq
            have hd1 := map_set_same drop_write hbs buff b { b with w_ptr := b.w_ptr + s } hbb rfl
            obtain ⟨hd3, hw3⟩ := ih _ _ _ _ _ _ heq
            refine ⟨hd3.trans hd1, fun hw => hw3 ?_⟩
            have hwb := hw b (List.getElem?_mem hbb)
            have hle := sub32_le b.end_addr b.w_ptr hwb.2
            exact w_bounds_set hw buff { b with w_ptr := b.w_ptr + s }
              ⟨by show b.start_addr ≤ b.w_ptr + s; omega,
               by show b.w_ptr + s ≤ b.end_addr; omega⟩

theorem kpb_buffer_data_bounds (fuel : Nat) (kpb : kpb_comp_data) (source : comp_buffer)
    (size : Nat) (kpb1 : kpb_comp_data) (tr : List call)
    (h : kpb_buffer_data fuel kpb source size = some (kpb1, tr)) :
    kpb1.hbs.map drop_write = kpb.hbs.map drop_write ∧
    ((∀ b ∈ kpb.hbs, b.start_addr ≤ b.w_ptr ∧ b.w_ptr ≤ b.end_addr) →
      ∀ b ∈ kpb1.hbs, b.start_addr ≤ b.w_ptr ∧ b.w_ptr ≤ b.end_addr) := by
  unfold kpb_buffer_data at h
  cases hff : find_free_buffer kpb.hbs 0 fuel 0 with
  | none => simp [hff] at h
  | some buff =>
    simp only [hff] at h
    cases hrun : kpb_buffer_loop source.r_ptr fuel kpb.hbs buff size [] with
    | none => simp [hrun] at h
    | some r =>
      obtain ⟨hbs1, tr1⟩ := r
      simp only [hrun, Option.some.injEq, Prod.mk.injEq] at h
      rw [← h.1]
      exact kpb_buffer_loop_bounds _ _ _ _ _ _ _ _ hrun

/-! ### The drain path on an arbitrary ring: read cursors stay within bounds -/

theorem r_bounds_set {hbs : List hb} (hr : ∀ b ∈ hbs, b.start_addr ≤ b.r_ptr ∧ b.r_ptr ≤ b.end_addr)
    (i : Nat) (x : hb) (hx : x.start_addr ≤ x.r_ptr ∧ x.r_ptr ≤ x.end_addr) :
    ∀ b ∈ hbs.set i x, b.start_addr ≤ b.r_ptr ∧ b.r_ptr ≤ b.end_addr := by
  intro b hbm
  rcases List.mem_or_eq_of_mem_set hbm with h1 | h1
  · exact hr b h1
  · rw [h1]; exact hx

theorem read_ptr_loop_bounds (d first_buff : Nat) :
    ∀ (fuel : Nat) (hbs : List hb) (buff B : Nat) (hbs1 : List hb) (r : Nat),
      (∀ b ∈ hbs, b.start_addr ≤ b.w_ptr ∧ b.w_ptr ≤ b.end_addr) →
      (∀ b ∈ hbs, b.start_addr ≤ b.r_ptr ∧ b.r_ptr ≤ b.end_addr) → B ≤ d →
      read_ptr_loop d first_buff fuel hbs buff B = some (hbs1, r) →
      ∀ b ∈ hbs1, b.start_addr ≤ b.r_ptr ∧ b.r_ptr ≤ b.end_addr := by
  intro fuel
  induction fuel with
  | zero => intro hbs buff B hbs1 r _ _ _ heq; simp [read_ptr_loop] at heq
  | succ fuel ih =>
    intro hbs buff B hbs1 r hw hr hB heq
    cases hbb : hbs[buff]? with
    | none => rw [read_ptr_loop] at heq; simp [hbb] at heq
    | some b =>
      obtain ⟨loc, hloc, hstep⟩ := read_ptr_loop_step d first_buff fuel hbs buff B b hbb
      rw [hstep] at heq
      have hwb := hw b (List.getElem?_mem hbb)
      have hlocle : loc ≤ b.end_addr - b.start_addr := by
        have h1 := sub32_le b.w_ptr b.start_addr hwb.1
        have h2 := sub32_le b.end_addr b.start_addr (by omega)
        rw [hloc]; split_ifs <;> omega
      by_cases h1 : d > B + loc
      · rw [if_pos h1] at heq
        cases hp : b.prev with
        | none => simp [hp] at heq
        | some pv =>
          simp only [hp] at heq
          by_cases h2 : pv ≠ first_buff
          · rw [if_pos h2] at heq
            exact ih _ _ _ _ _ hw hr (by omega) heq
          · rw [if_neg h2] at heq
            simp only [Option.some.injEq, Prod.mk.injEq] at heq
            rw [← heq.1]; exact hr
      · rw [if_neg h1] at heq
        by_cases h2 : d = B + loc
        · rw [if_pos h2] at heq
          simp only [Option.some.injEq, Prod.mk.injEq] at heq
          rw [← heq.1]
          exact r_bounds_set hr buff _ ⟨Nat.le_refl _, by show b.start_addr ≤ b.end_addr; omega⟩
        · rw [if_neg h2] at heq
          simp only [Option.some.injEq, Prod.mk.injEq] at heq
          rw [← heq.1]
          exact r_bounds_set hr buff _
            ⟨by show b.start_addr ≤ b.start_addr + (B + loc - d); omega,
             by show b.start_addr + (B + loc - d) ≤ b.end_addr; omega⟩

theorem draining_loop_bounds (sink_addr : Nat) :
    ∀ (sinks : List comp_buffer) (hbs : List hb) (d : dd) (buff : Option Nat) (tr : List call)
      (hbs1 : List hb) (d1 : dd) (tr1 : List call),
      (∀ b ∈ hbs, b.start_addr ≤ b.r_ptr ∧ b.r_ptr ≤ b.end_addr) →
      draining_loop sink_addr sinks hbs d buff tr = some (hbs1, d1, tr1) →
      ∀ b ∈ hbs1, b.start_addr ≤ b.r_ptr ∧ b.r_ptr ≤ b.end_addr := by
  intro sinks
  induction sinks with
  | nil =>
    intro hbs d buff tr hbs1 d1 tr1 hr heq
    unfold draining_loop at heq
    split at heq
    · simp at heq
    · simp only [Option.some.injEq, Prod.mk.injEq] at heq
      rw [← heq.1]; exact hr
  | cons sink rest ih =>
    intro hbs d buff tr hbs1 d1 tr1 hr heq
    unfold draining_loop at heq
    split at heq
    · cases buff with
      | none => simp at heq
      | some bi =>
        simp only at heq
        cases hbb : hbs[bi]? with
        | none => simp [hbb] at heq
        | some b =>
          simp only [hbb] at heq
          have hrb := hr b (List.getElem?_mem hbb)
          have hle := sub32_le b.end_addr b.r_ptr hrb.2
          split at heq
          · rename_i hgt
            refine ih _ _ _ _ _ _ _ (r_bounds_set hr bi _ ⟨?_, ?_⟩) heq
            · show b.start_addr ≤ b.r_ptr + _ % 2 ^ 32
              omega
            · show b.r_ptr + (if sink.free ≥ d.history_depth then d.history_depth else sink.free)
                % 2 ^ 32 ≤ b.end_addr
              have hm := Nat.mod_le (if sink.free ≥ d.history_depth then d.history_depth
                else sink.free) (2 ^ 32)
              split_ifs at hm ⊢ <;> omega
          · exact ih _ _ _ _ _ _ _ (r_bounds_set hr bi _
              ⟨Nat.le_refl _, by show b.start_addr ≤ b.end_addr; omega⟩) heq
    · simp only [Option.some.injEq, Prod.mk.injEq] at heq
      rw [← heq.1]; exact hr

theorem cursors_in_bounds_split (hbs : List hb) :
    cursors_in_bounds hbs ↔
      (∀ b ∈ hbs, b.start_addr ≤ b.w_ptr ∧ b.w_ptr ≤ b.end_addr) ∧
      (∀ b ∈ hbs, b.start_addr ≤ b.r_ptr ∧ b.r_ptr ≤ b.end_addr) := by
  unfold cursors_in_bounds
  constructor
  · intro h
    exact ⟨fun b hb1 => ⟨(h b hb1).1, (h b hb1).2.1⟩, fun b hb1 => ⟨(h b hb1).2.2.1, (h b hb1).2.2.2⟩⟩
  · intro h b hb1
    exact ⟨(h.1 b hb1).1, (h.1 b hb1).2, (h.2 b hb1).1, (h.2 b hb1).2⟩

theorem fresh_ring_invariant {hbs : List hb} (h : fresh_ring hbs) : ring_invariant hbs := by
  refine ⟨?_, h.1⟩
  intro b hbm
  have := h.2 b hbm
  omega

theorem kpb_init_draining_bounds (maxc act fuel : Nat) (kpb : kpb_comp_data)
    (cli_sink : comp_buffer) (cli : kpb_client) (kpb1 : kpb_comp_data) (tr : List call)
    (hw : ∀ b ∈ kpb.hbs, b.start_addr ≤ b.w_ptr ∧ b.w_ptr ≤ b.end_addr)
    (hr : ∀ b ∈ kpb.hbs, b.start_addr ≤ b.r_ptr ∧ b.r_ptr ≤ b.end_addr)
    (h : kpb_init_draining maxc act fuel kpb cli_sink cli = some (kpb1, tr)) :
    ∀ b ∈ kpb1.hbs, b.start_addr ≤ b.r_ptr ∧ b.r_ptr ≤ b.end_addr := by
  unfold kpb_init_draining at h
  simp only at h
  split at h
  · simp only [Option.some.injEq, Prod.mk.injEq] at h
    rw [← h.1]; exact hr
  · split at h
    · simp only [Option.some.injEq, Prod.mk.injEq] at h
      rw [← h.1]; exact hr
    · split at h
      · simp at h
      · split at h
        · simp only [Option.some.injEq, Prod.mk.injEq] at h
          rw [← h.1]; exact hr
        · split at h
          · simp at h
          · split at h
            · simp at h
            · rename_i hbs1 buff hrp
              simp only [Option.some.injEq, Prod.mk.injEq] at h
              rw [← h.1]
              exact read_ptr_loop_bounds _ _ _ _ _ _ _ _ hw hr (Nat.zero_le _) hrp

theorem draining_task_bounds (kpb : kpb_comp_data) (sinks : List comp_buffer)
    (kpb1 : kpb_comp_data) (tr : List call)
    (hr : ∀ b ∈ kpb.hbs, b.start_addr ≤ b.r_ptr ∧ b.r_ptr ≤ b.end_addr)
    (h : draining_task kpb sinks = some (kpb1, tr)) :
    ∀ b ∈ kpb1.hbs, b.start_addr ≤ b.r_ptr ∧ b.r_ptr ≤ b.end_addr := by
  unfold draining_task at h
  split at h
  · simp at h
  · rename_i hbs1 d1 tr1 hrun
    split at h
    · simp only [Option.some.injEq, Prod.mk.injEq] at h
      rw [← h.1]
      exact draining_loop_bounds _ _ _ _ _ _ _ _ _ hr hrun
    · simp at h

/-- C4: the ring invariant (both cursors of every segment within the segment
bounds, `next`/`prev` forming one circular chain) holds for a well-formed
fresh ring and is kept, with the same bounds and links, by every
`kpb_buffer_data` call of any size, every `kpb_init_draining` call and every
`draining_task` run. In a reachable state `kpb_buffer_data` and
`kpb_init_draining` do return (last two parts); whether `draining_task`
returns depends on the free space it finds in the sink. -/
theorem C4_ring_invariant_preserved (kpb : kpb_comp_data)
    (h : fresh_ring kpb.hbs ∨ ring_invariant kpb.hbs) :
    ring_invariant kpb.hbs ∧
    (∀ (fuel : Nat) (source : comp_buffer) (size : Nat) (kpb1 : kpb_comp_data) (tr : List call),
      kpb_buffer_data fuel kpb source size = some (kpb1, tr) →
      ring_invariant kpb1.hbs ∧ kpb1.hbs.map hb_geometry = kpb.hbs.map hb_geometry) ∧
    (∀ (maxc act fuel : Nat) (cli_sink : comp_buffer) (cli : kpb_client) (kpb1 : kpb_comp_data)
      (tr : List call),
      kpb_init_draining maxc act fuel kpb cli_sink cli = some (kpb1, tr) →
      ring_invariant kpb1.hbs ∧ kpb1.hbs.map hb_geometry = kpb.hbs.map hb_geometry) ∧
    (∀ (sinks : List comp_buffer) (kpb1 : kpb_comp_data) (tr : List call),
      draining_task kpb sinks = some (kpb1, tr) →
      ring_invariant kpb1.hbs ∧ kpb1.hbs.map hb_geometry = kpb.hbs.map hb_geometry) ∧
    (∀ (n fuel : Nat) (source : comp_buffer) (size : Nat), ReachedBy kpb n →
      kpb.hbs.length ≤ fuel → size ≤ fuel →
      ∃ kpb1 tr, kpb_buffer_data fuel kpb source size = some (kpb1, tr)) ∧
    (∀ (n maxc act fuel : Nat) (cli_sink : comp_buffer) (cli : kpb_client), ReachedBy kpb n →
      kpb.hbs.length ≤ fuel →
      ∃ kpb1 tr, kpb_init_draining maxc act fuel kpb cli_sink cli = some (kpb1, tr)) := by
  have hinv : ring_invariant kpb.hbs := by
    rcases h with h | h
    · exact fresh_ring_invariant h
    · exact h
  obtain ⟨hw, hr⟩ := (cursors_in_bounds_split kpb.hbs).mp hinv.1
  refine ⟨hinv, ?_, ?_, ?_, ?_, ?_⟩
  · intro fuel source size kpb1 tr hrun
    obtain ⟨hd, hw1⟩ := kpb_buffer_data_bounds fuel kpb source size kpb1 tr hrun
    have hg := geometry_of_drop_write hd
    exact ⟨⟨(cursors_in_bounds_split _).mpr ⟨hw1 hw, r_bounds_of_view hd hr⟩,
      links_circular_geometry hg.symm hinv.2⟩, hg⟩
  · intro maxc act fuel cli_sink cli kpb1 tr hrun
    have hd := (kpb_init_draining_frame _ _ _ _ _ _ _ _ hrun).1
    have hg := geometry_of_drop_r_ptr hd
    exact ⟨⟨(cursors_in_bounds_split _).mpr ⟨w_bounds_of_drop_r_ptr hd hw,
      kpb_init_draining_bounds _ _ _ _ _ _ _ _ hw hr hrun⟩,
      links_circular_geometry hg.symm hinv.2⟩, hg⟩
  · intro sinks kpb1 tr hrun
    have hd := (draining_task_frame _ _ _ _ hrun).1
    have hg := geometry_of_drop_r_ptr hd
    exact ⟨⟨(cursors_in_bounds_split _).mpr ⟨w_bounds_of_drop_r_ptr hd hw,
      draining_task_bounds _ _ _ _ hr hrun⟩,
      links_circular_geometry hg.symm hinv.2⟩, hg⟩
  · intro n fuel source size hreach hlen hsize
    exact (kpb_buffer_data_spec fuel kpb source size n (ReachedBy_ring_inv hreach)).1 hlen hsize
  · intro n maxc act fuel cli_sink cli hreach hlen
    exact kpb_init_draining_total kpb n maxc act fuel cli_sink cli hreach hlen

theorem ex_written_120_run :
    kpb_buffer_data 200 ex_fresh ex_source 120
      = some (ex_written 120, [call.memcpy 1000 5000 100, call.memcpy 2000 5000 20]) := by
  decide

theorem ex_written_120_init :
    kpb_init_draining 2 5 2 (ex_written 120) (ex_sink 10) (ex_client 110)
      = some (ex_draining_110, [call.schedule_task]) := by
  decide

/-- An instance of C4: the fresh ring, a write of 120 bytes, an accepted drain
of 110 bytes and the run of that drain. -/
theorem C4_ring_invariant_preserved_witness :
    (fresh_ring ex_fresh.hbs ∨ ring_invariant ex_fresh.hbs) ∧
    ring_invariant ex_fresh.hbs ∧ ring_invariant (ex_written 120).hbs ∧
    ring_invariant ex_draining_110.hbs ∧ ring_invariant ex_drained_110.hbs :=
  have h0 : fresh_ring ex_fresh.hbs ∨ ring_invariant ex_fresh.hbs := Or.inl (by decide)
  have h1 := ((C4_ring_invariant_preserved ex_fresh h0).2.1 _ _ _ _ _ ex_written_120_run).1
  have h2 := ((C4_ring_invariant_preserved (ex_written 120) (Or.inr h1)).2.2.1 _ _ _ _ _ _ _
    ex_written_120_init).1
  have h3 := ((C4_ring_invariant_preserved ex_draining_110 (Or.inr h2)).2.2.2.1 _ _ _
    ex_draining_110_run).1
  ⟨h0, (C4_ring_invariant_preserved ex_fresh h0).1, h1, h2, h3⟩

/-- C8: write/read cursor separation. `kpb_buffer_data` leaves the `r_ptr` of
every segment unchanged, and `draining_task` leaves the `w_ptr` and the state
of every segment unchanged. -/
theorem C8_cursor_separation (kpbw kpbw1 kpbd kpbd1 : kpb_comp_data) (fuel : Nat)
    (source : comp_buffer) (size : Nat) (trw : List call) (sinks : List comp_buffer)
    (trd : List call)
    (hwrite : kpb_buffer_data fuel kpbw source size = some (kpbw1, trw))
    (hdrain : draining_task kpbd sinks = some (kpbd1, trd)) :
    kpbw1.hbs.map hb.r_ptr = kpbw.hbs.map hb.r_ptr ∧
    kpbd1.hbs.map hb.w_ptr = kpbd.hbs.map hb.w_ptr ∧
    kpbd1.hbs.map hb.state = kpbd.hbs.map hb.state := by
  have hd := (kpb_buffer_data_bounds fuel kpbw source size kpbw1 trw hwrite).1
  have hf := (draining_task_frame _ _ _ _ hdrain).1
  exact ⟨r_ptr_of_drop_write hd, w_ptr_of_drop_r_ptr hf, state_of_drop_r_ptr hf⟩

/-- An instance of C8: a write of 70 bytes and a drain of 110 bytes, both on
`ex_draining_110`. -/
theorem C8_cursor_separation_witness :
    kpb_buffer_data 200 ex_draining_110 ex_source 70
      = some (ex_written_over_drain, [call.memcpy 2020 5000 30, call.memcpy 1000 5000 40]) ∧
    draining_task ex_draining_110
        [ex_sink 7, ex_sink 0, ex_sink 200, ex_sink 3, ex_sink 1, ex_sink 64]
      = some (ex_drained_110,
          [call.memcpy 9000 1010 7, call.comp_update_buffer_produce 7 7,
           call.memcpy 9000 1017 0, call.comp_update_buffer_produce 7 0,
           call.memcpy 9000 1017 83, call.comp_update_buffer_produce 7 83,
           call.memcpy 9000 2000 3, call.comp_update_buffer_produce 7 3,
           call.memcpy 9000 2003 1, call.comp_update_buffer_produce 7 1,
           call.memcpy 9000 2004 16, call.comp_update_buffer_produce 7 16]) ∧
    ex_written_over_drain.hbs.map hb.r_ptr = [1010, 2000] ∧
    ex_drained_110.hbs.map hb.w_ptr = [1000, 2020] ∧
    ex_drained_110.hbs.map hb.state
      = [kpb_buffer_state.KPB_BUFFER_FULL, kpb_buffer_state.KPB_BUFFER_FREE] :=
  have hw : kpb_buffer_data 200 ex_draining_110 ex_source 70
      = some (ex_written_over_drain, [call.memcpy 2020 5000 30, call.memcpy 1000 5000 40]) := by
    decide
  ⟨hw, ex_draining_110_run,
    (C8_cursor_separation _ _ _ _ _ _ _ _ _ _ hw ex_draining_110_run).1,
    (C8_cursor_separation _ _ _ _ _ _ _ _ _ _ hw ex_draining_110_run).2.1,
    (C8_cursor_separation _ _ _ _ _ _ _ _ _ _ hw ex_draining_110_run).2.2⟩

/-- The write segment and the bytes written into it are determined by the
write offset. -/
theorem write_pos_unique {hbs : List hb} {f1 o1 f2 o2 : Nat} {b1 b2 : hb}
    (hb1 : hbs[f1]? = some b1) (hb2 : hbs[f2]? = some b2)
    (ho1 : o1 < seg_size b1) (ho2 : o2 < seg_size b2)
    (he : offset_of hbs f1 + o1 = offset_of hbs f2 + o2) : f1 = f2 ∧ o1 = o2 := by
  have hf : f1 = f2 := by
    rcases Nat.lt_trichotomy f1 f2 with hlt | heq | hgt
    · have := offset_of_lt hb1 hlt
      omega
    · exact heq
    · have := offset_of_lt hb2 hgt
      omega
  subst hf
  exact ⟨rfl, by omega⟩

theorem ring_at_unique {h1 h2 : List hb} (hd : h1.map drop_write = h2.map drop_write)
    {f o : Nat} {v : Bool} (hat1 : ring_at h1 f o v) (hat2 : ring_at h2 f o v) : h1 = h2 := by
  have hlen := map_eq_length drop_write hd
  apply List.ext_getElem?
  intro i
  cases hi2 : h2[i]? with
  | none =>
    have : h2.length ≤ i := by
      by_contra hc
      obtain ⟨b, hb2⟩ := getElem?_of_lt (show i < h2.length by omega)
      rw [hb2] at hi2
      cases hi2
    exact List.getElem?_eq_none (by omega)
  | some b2 =>
    obtain ⟨b1, hb1, he⟩ := map_eq_getElem? drop_write hd hi2
    rw [hb1]
    obtain ⟨e1, e2, e3, e4, e5⟩ := drop_write_eq he
    have fa1 := ring_at_get hat1 hb1
    have fa2 := ring_at_get hat2 hi2
    have hsw : b1.state = b2.state ∧ b1.w_ptr = b2.w_ptr := by
      rcases Nat.lt_trichotomy i f with hlt | heq | hgt
      · have a1 := fa1.2.2.1 hlt
        have a2 := fa2.2.2.1 hlt
        exact ⟨a1.1.trans a2.1.symm, by omega⟩
      · have a1 := fa1.2.2.2.1 heq
        have a2 := fa2.2.2.2.1 heq
        exact ⟨a1.1.trans a2.1.symm, by omega⟩
      · have a1 := fa1.2.2.2.2 hgt
        have a2 := fa2.2.2.2.2 hgt
        exact ⟨a1.2.trans a2.2.symm, by omega⟩
    obtain ⟨s1, sa1, ea1, w1, r1, n1, p1⟩ := b1
    obtain ⟨s2, sa2, ea2, w2, r2, n2, p2⟩ := b2
    simp only at e1 e2 e3 e4 e5 hsw
    simp only [Option.some.injEq, hb.mk.injEq]
    exact ⟨hsw.1, e1, e2, hsw.2, e3, e4, e5⟩

/-- Two rings with the same bounds, links and read cursors that are shaped
by the same number of written bytes are equal. -/
theorem ring_inv_unique {h1 h2 : List hb} (hd : h1.map drop_write = h2.map drop_write)
    {n : Nat} (hi1 : ring_inv h1 n) (hi2 : ring_inv h2 n) : h1 = h2 := by
  obtain ⟨f1, o1, hat1, ho1⟩ := hi1
  obtain ⟨f2, o2, hat2, ho2⟩ := hi2
  have hg := geometry_of_drop_write hd
  rw [capacity_geometry hg] at hat1 ho1
  rw [offset_of_geometry hg] at ho1
  obtain ⟨b1, hb1, -, hlt1, -⟩ := ring_at_write_seg hat1
  obtain ⟨b2, hb2, -, hlt2, -⟩ := ring_at_write_seg hat2
  obtain ⟨b1', hb1', he1⟩ := map_eq_getElem? drop_write hd.symm hb1
  have hs1 : seg_size b1' = seg_size b1 := by
    obtain ⟨e1, e2, -, -, -⟩ := drop_write_eq he1
    unfold seg_size; rw [e1, e2]
  obtain ⟨hf, ho⟩ := write_pos_unique hb1' hb2 (by omega) hlt2 (ho1.trans ho2.symm)
  subst hf
  subst ho
  exact ring_at_unique hd hat1 hat2

/-- On a ring shaped by `n` written bytes, one write of `a + b` bytes leaves
the component exactly as a write of `a` bytes followed by a write of `b`
bytes does. -/
theorem kpb_buffer_data_split (kpb : kpb_comp_data) (n a b fuel : Nat)
    (source source1 source2 : comp_buffer) (hinv : ring_inv kpb.hbs n)
    (hlen : kpb.hbs.length ≤ fuel) (hfuel : a + b ≤ fuel) :
    ∃ k1 t1 k2 t2 t12,
      kpb_buffer_data fuel kpb source1 a = some (k1, t1) ∧
      kpb_buffer_data fuel k1 source2 b = some (k2, t2) ∧
      kpb_buffer_data fuel kpb source (a + b) = some (k2, t12) := by
  obtain ⟨tot1, par1⟩ := kpb_buffer_data_spec fuel kpb source1 a n hinv
  obtain ⟨k1, t1, hrun1⟩ := tot1 hlen (by omega)
  obtain ⟨hinv1, hg1, hr1, hk1⟩ := par1 k1 t1 hrun1
  have hlen1 : k1.hbs.length = kpb.hbs.length := map_eq_length hb_geometry hg1
  obtain ⟨tot2, par2⟩ := kpb_buffer_data_spec fuel k1 source2 b (n + a) hinv1
  obtain ⟨k2, t2, hrun2⟩ := tot2 (by omega) (by omega)
  obtain ⟨hinv2, hg2, hr2, hk2⟩ := par2 k2 t2 hrun2
  obtain ⟨tot3, par3⟩ := kpb_buffer_data_spec fuel kpb source (a + b) n hinv
  obtain ⟨k12, t12, hrun12⟩ := tot3 hlen hfuel
  obtain ⟨hinv12, hg12, hr12, hk12⟩ := par3 k12 t12 hrun12
  have hd1 := (kpb_buffer_data_bounds fuel kpb source1 a k1 t1 hrun1).1
  have hd2 := (kpb_buffer_data_bounds fuel k1 source2 b k2 t2 hrun2).1
  have hd12 := (kpb_buffer_data_bounds fuel kpb source (a + b) k12 t12 hrun12).1
  have hsame : k12.hbs = k2.hbs := by
    apply ring_inv_unique (hd12.trans (hd2.trans hd1).symm) hinv12
    rw [Nat.add_assoc] at hinv2
    exact hinv2
  have hk : k12 = k2 := by
    rw [hk12, hk2, hk1, hsame]
  rw [hk] at hrun12
  exact ⟨k1, t1, k2, t2, t12, hrun1, hrun2, hrun12⟩

/-- C5: in every reachable ring state, `kpb_buffer_data` of `a + b` bytes
leaves the component, so in particular every segment's state and `w_ptr`,
identical to `kpb_buffer_data` of `a` bytes followed by `kpb_buffer_data` of
`b` bytes. This holds for every split `a`, `b`, hence also when `a` is the
space left in the write segment and `0 < b ≤` size of the next segment, where
the `a + b` bytes straddle exactly one segment boundary. -/
theorem C5_straddling_write_splits (kpb : kpb_comp_data) (n a b fuel : Nat)
    (source source1 source2 : comp_buffer)
    (hreach : ReachedBy kpb n)
    (hlen : kpb.hbs.length ≤ fuel) (hfuel : a + b ≤ fuel) :
    ∃ k1 t1 k2 t2 k12 t12,
      kpb_buffer_data fuel kpb source1 a = some (k1, t1) ∧
      kpb_buffer_data fuel k1 source2 b = some (k2, t2) ∧
      kpb_buffer_data fuel kpb source (a + b) = some (k12, t12) ∧
      k12 = k2 ∧ k12.hbs.map hb.state = k2.hbs.map hb.state ∧
      k12.hbs.map hb.w_ptr = k2.hbs.map hb.w_ptr := by
  obtain ⟨k1, t1, k2, t2, t12, h1, h2, h12⟩ :=
    kpb_buffer_data_split kpb n a b fuel source source1 source2 (ReachedBy_ring_inv hreach)
      hlen hfuel
  exact ⟨k1, t1, k2, t2, k2, t12, h1, h2, h12, rfl, rfl, rfl⟩

/-- An instance of C5 with one boundary straddled: 30 bytes are in segment 0
(100 bytes), so `a = 70` fills it and `b = 20` goes to segment 1. -/
theorem C5_straddling_write_splits_witness :
    ReachedBy (ex_written 30) 30 ∧ (ex_written 30).hbs.length ≤ 200 ∧ 70 + 20 ≤ 200 ∧
    write_segment (ex_written 30).hbs = some 0 ∧
    (ex_written 30).hbs[0]? = some
      { state := kpb_buffer_state.KPB_BUFFER_FREE, start_addr := 1000, end_addr := 1100,
        w_ptr := 1030, r_ptr := 1000, next := some 1, prev := some 1 } ∧
    (ex_written 30).hbs[1]? = some (ex_seg 2000 2050 0 0) ∧
    ∃ k1 t1 k2 t2 k12 t12,
      kpb_buffer_data 200 (ex_written 30) ex_source 70 = some (k1, t1) ∧
      kpb_buffer_data 200 k1 ex_source 20 = some (k2, t2) ∧
      kpb_buffer_data 200 (ex_written 30) ex_source (70 + 20) = some (k12, t12) ∧
      k12 = k2 ∧ k12.hbs.map hb.state = k2.hbs.map hb.state ∧
      k12.hbs.map hb.w_ptr = k2.hbs.map hb.w_ptr :=
  ⟨ex_written_30_reached, by decide, by decide, by decide, by decide, by decide,
    C5_straddling_write_splits (ex_written 30) 30 70 20 200 ex_source ex_source ex_source
      ex_written_30_reached (by decide) (by decide)⟩

/-! ### The write offset -/

theorem write_offset_ring_at {hbs : List hb} {f o : Nat} {v : Bool} (h : ring_at hbs f o v) :
    write_offset hbs = some (offset_of hbs f + o) := by
  obtain ⟨b, hbf, hw, -, -⟩ := ring_at_write_seg h
  unfold write_offset
  rw [write_segment_ring_at h]
  simp only [hbf]
  congr 2
  omega

/-- C6: on a reachable ring of total capacity `C` whose write position is at
linear offset `p`, `kpb_buffer_data` of `k` bytes returns and leaves the
write position at linear offset `(p + k) mod C`, for every `k` (also
`k > C`); the segment holding the write position is marked FREE, and every
other segment whose end the written span `(p, p + k]` reaches (at
`offset_of (j + 1) + m * C` for some lap `m`) is marked FULL. -/
theorem C6_write_offset_advances (kpb : kpb_comp_data) (n p k fuel : Nat)
    (source : comp_buffer) (hreach : ReachedBy kpb n)
    (hp : write_offset kpb.hbs = some p)
    (hlen : kpb.hbs.length ≤ fuel) (hfuel : k ≤ fuel) :
    ∃ kpb1 tr f1 b1,
      kpb_buffer_data fuel kpb source k = some (kpb1, tr) ∧
      write_offset kpb1.hbs = some ((p + k) % capacity kpb.hbs) ∧
      write_segment kpb1.hbs = some f1 ∧ kpb1.hbs[f1]? = some b1 ∧
      b1.state = kpb_buffer_state.KPB_BUFFER_FREE ∧
      ∀ j bj m, kpb1.hbs[j]? = some bj → j ≠ f1 →
        p < offset_of kpb.hbs (j + 1) + m * capacity kpb.hbs →
        offset_of kpb.hbs (j + 1) + m * capacity kpb.hbs ≤ p + k →
        bj.state = kpb_buffer_state.KPB_BUFFER_FULL := by
  have hinv := ReachedBy_ring_inv hreach
  obtain ⟨tot, par⟩ := kpb_buffer_data_spec fuel kpb source k n hinv
  obtain ⟨kpb1, tr, hrun⟩ := tot hlen hfuel
  obtain ⟨hinv1, hg, -, -⟩ := par kpb1 tr hrun
  obtain ⟨f, o, hat, hoff⟩ := hinv
  obtain ⟨f1, o1, hat1, hoff1⟩ := hinv1
  rw [capacity_geometry hg] at hat1 hoff1
  have hpn : p = n % capacity kpb.hbs := by
    rw [write_offset_ring_at hat] at hp
    simp only [Option.some.injEq] at hp
    omega
  obtain ⟨b1, hb1, -, ho1, hs1⟩ := ring_at_write_seg hat1
  refine ⟨kpb1, tr, f1, b1, hrun, ?_, write_segment_ring_at hat1, hb1, hs1, ?_⟩
  · rw [write_offset_ring_at hat1, hoff1, hpn, Nat.mod_add_mod]
  · intro j bj m hbj hjf hlo hhi
    have fj := ring_at_get hat1 hbj
    rcases Nat.lt_trichotomy j f1 with hlt | heq | hgt
    · exact (fj.2.2.1 hlt).1
    · exact absurd heq hjf
    · have hst := (fj.2.2.2.2 hgt).2
      by_cases hv : n + k < capacity kpb.hbs
      · exfalso
        have hnC : n < capacity kpb.hbs := by omega
        rw [Nat.mod_eq_of_lt hv] at hoff1
        rw [Nat.mod_eq_of_lt hnC] at hpn
        have h1 := offset_of_lt hb1 hgt
        have h2 := offset_of_mono kpb1.hbs (show j ≤ j + 1 by omega)
        simp only [offset_of_geometry hg] at h1 h2 hoff1
        generalize m * capacity kpb.hbs = q at hlo hhi
        omega
      · simpa [hv] using hst

/-- An instance of C6: 120 bytes written to the fresh ring of 100 and 50 bytes. -/
theorem C6_write_offset_advances_witness :
    ReachedBy ex_fresh 0 ∧ write_offset ex_fresh.hbs = some 0 ∧
    ex_fresh.hbs.length ≤ 200 ∧ 120 ≤ 200 ∧
    ∃ kpb1 tr f1 b1,
      kpb_buffer_data 200 ex_fresh ex_source 120 = some (kpb1, tr) ∧
      write_offset kpb1.hbs = some ((0 + 120) % capacity ex_fresh.hbs) ∧
      write_segment kpb1.hbs = some f1 ∧ kpb1.hbs[f1]? = some b1 ∧
      b1.state = kpb_buffer_state.KPB_BUFFER_FREE ∧
      ∀ j bj m, kpb1.hbs[j]? = some bj → j ≠ f1 →
        0 < offset_of ex_fresh.hbs (j + 1) + m * capacity ex_fresh.hbs →
        offset_of ex_fresh.hbs (j + 1) + m * capacity ex_fresh.hbs ≤ 0 + 120 →
        bj.state = kpb_buffer_state.KPB_BUFFER_FULL :=
  ⟨ex_fresh_reached, by decide, by decide, by decide,
    C6_write_offset_advances ex_fresh 0 0 120 200 ex_source ex_fresh_reached (by decide)
      (by decide) (by decide)⟩

/-- Scenario A of the specification, and a write longer than the ring:
on the fresh ring of 100 and 50 bytes a write of 120 bytes leaves segment 0
FULL and segment 1 FREE with `w_ptr = start_addr + 20`; a write of 170 bytes
(20 more than the capacity) leaves the write position 20 bytes into the ring. -/
theorem scenario_a_write_120 :
    (ex_written 120).hbs =
      [{ state := kpb_buffer_state.KPB_BUFFER_FULL, start_addr := 1000, end_addr := 1100,
         w_ptr := 1000, r_ptr := 1000, next := some 1, prev := some 1 },
       { state := kpb_buffer_state.KPB_BUFFER_FREE, start_addr := 2000, end_addr := 2050,
         w_ptr := 2020, r_ptr := 2000, next := some 0, prev := some 0 }] ∧
    write_offset (ex_written 120).hbs = some 120 ∧
    write_offset (ex_written 170).hbs = some 20 := by
  decide

/-- C7 fails on the code: `kpb_buffer_data` never advances `source->r_ptr`,
so the chunk written after a segment boundary repeats the start of the
source span. On the fresh ring of 100 and 50 bytes, writing 120 bytes from a
source holding the bytes 0, 1, 2, ... stores source byte 0 at ring position
100 (address 2000), where the source span has byte 100. -/
theorem C7_chunk_after_boundary_repeats_source :
    kpb_buffer_data 200 ex_fresh ex_source 120
      = some (ex_written 120, [call.memcpy 1000 5000 100, call.memcpy 2000 5000 20]) ∧
    write_offset ex_fresh.hbs = some 0 ∧
    ring_addr ex_fresh.hbs ((0 + 100) % capacity ex_fresh.hbs) = some 2000 ∧
    mem_after ex_mem [call.memcpy 1000 5000 100, call.memcpy 2000 5000 20] 2000 = 0 ∧
    ex_mem (ex_source.r_ptr + 100) = 100 := by
  refine ⟨ex_written_120_run, by decide, by decide, ?_, by decide⟩
  simp [mem_after, memcpy_apply, ex_mem]

/-- C9 (as stated) fails: `ex_draining_110` is the component right after a
drain of 110 bytes was accepted (`history_depth = 110 > 0`, task not yet
run); a second `kpb_init_draining` for 30 bytes is accepted as well,
replaces the drain context and moves the `r_ptr` of segment 0 from 1010 to
1090. -/
theorem C9_counterexample :
    kpb_init_draining 2 5 2 (ex_written 120) (ex_sink 10) (ex_client 110)
      = some (ex_draining_110, [call.schedule_task]) ∧
    ex_draining_110.draining_task_data.history_depth = 110 ∧
    ex_draining_110.hbs.map hb.r_ptr = [1010, 2000] ∧
    (kpb_init_draining 2 5 2 ex_draining_110 (ex_sink 10) (ex_client 30)).map
        (fun r => (r.1.draining_task_data, r.1.hbs.map hb.r_ptr, r.2))
      = some ({ sink := 7, history_buffer := some 0, history_depth := 30, state := true },
              [1090, 2000], [call.schedule_task]) := by
  decide

theorem kpb_init_draining_cases (kpb : kpb_comp_data) (maxc act fuel : Nat)
    (cli_sink : comp_buffer) (cli : kpb_client) (kpb1 : kpb_comp_data) (tr : List call)
    (hrun : kpb_init_draining maxc act fuel kpb cli_sink cli = some (kpb1, tr)) :
    (tr = [] ∧ kpb1 = kpb ∧
      (cli.id > maxc ∨ cli_sink.sink_state ≠ act ∨
        kpb_have_enough_history_data fuel kpb 0 cli.history_depth = some 0)) ∨
    (tr = [call.schedule_task] ∧ cli.id ≤ maxc ∧ cli_sink.sink_state = act ∧
      (∃ e, kpb_have_enough_history_data fuel kpb 0 cli.history_depth = some e ∧ e ≠ 0) ∧
      kpb1.draining_task_data.sink = kpb.cli_sink ∧
      kpb1.draining_task_data.history_depth = cli.history_depth ∧
      kpb1.draining_task_data.state = true ∧
      ∃ j, kpb1.draining_task_data.history_buffer = some j) := by
  unfold kpb_init_draining at hrun
  simp only at hrun
  by_cases hid : cli.id > maxc
  · rw [if_pos hid] at hrun
    simp only [Option.some.injEq, Prod.mk.injEq] at hrun
    exact Or.inl ⟨hrun.2.symm, hrun.1.symm, Or.inl hid⟩
  · rw [if_neg hid] at hrun
    by_cases hsink : cli_sink.sink_state = act
    · simp only [hsink, decide_True, Bool.not_true, Bool.false_eq_true, if_false] at hrun
      cases hhe : kpb_have_enough_history_data fuel kpb 0 cli.history_depth with
      | none => simp [hhe] at hrun
      | some e =>
        simp only [hhe] at hrun
        by_cases he : e = 0
        · rw [if_pos he] at hrun
          simp only [Option.some.injEq, Prod.mk.injEq] at hrun
          exact Or.inl ⟨hrun.2.symm, hrun.1.symm, Or.inr (Or.inr (by rw [he]))⟩
        · rw [if_neg he] at hrun
          split at hrun
          · simp at hrun
          · split at hrun
            · simp at hrun
            · simp only [Option.some.injEq, Prod.mk.injEq] at hrun
              obtain ⟨rfl, rfl⟩ := hrun
              exact Or.inr ⟨rfl, by omega, hsink, ⟨e, rfl, he⟩, rfl, rfl, rfl, ⟨_, rfl⟩⟩
    · simp only [hsink, decide_False, Bool.not_false, if_true] at hrun
      simp only [Option.some.injEq, Prod.mk.injEq] at hrun
      exact Or.inl ⟨hrun.2.symm, hrun.1.symm, Or.inr (Or.inl hsink)⟩

theorem ex_draining_110_reached : ReachedBy ex_draining_110 120 :=
  ReachedBy.init_draining (ex_written 120) 120 2 5 2 (ex_sink 10) (ex_client 110)
    ex_draining_110 [call.schedule_task]
    (ReachedBy.write ex_fresh 0 200 ex_source 120 (ex_written 120)
      [call.memcpy 1000 5000 100, call.memcpy 2000 5000 20] ex_fresh_reached
      ex_written_120_run)
    ex_written_120_init

/-- C9 (amended): `kpb_init_draining` has no guard for a drain in flight.
Invoked in a reachable state while a previously accepted drain still has
`history_depth > 0`, it returns and leaves the component (drain context and
every `r_ptr` included) unchanged exactly when it rejects the request (client
id above `KPB_MAX_NO_OF_CLIENTS`, sink not active, or not enough history);
when it accepts, it schedules the task again and overwrites the drain context
with the new request. -/
theorem C9_init_draining_while_in_flight (kpb : kpb_comp_data) (n maxc act fuel : Nat)
    (cli_sink : comp_buffer) (cli : kpb_client)
    (hreach : ReachedBy kpb n)
    (_hflight : kpb.draining_task_data.history_depth > 0)
    (hfuel : kpb.hbs.length ≤ fuel) :
    ∃ kpb1 tr, kpb_init_draining maxc act fuel kpb cli_sink cli = some (kpb1, tr) ∧
      ((tr = [] ∧ kpb1 = kpb ∧
        (cli.id > maxc ∨ cli_sink.sink_state ≠ act ∨
          kpb_have_enough_history_data fuel kpb 0 cli.history_depth = some 0)) ∨
      (tr = [call.schedule_task] ∧ cli.id ≤ maxc ∧ cli_sink.sink_state = act ∧
        (∃ e, kpb_have_enough_history_data fuel kpb 0 cli.history_depth = some e ∧ e ≠ 0) ∧
        kpb1.draining_task_data.sink = kpb.cli_sink ∧
        kpb1.draining_task_data.history_depth = cli.history_depth ∧
        kpb1.draining_task_data.state = true ∧
        ∃ j, kpb1.draining_task_data.history_buffer = some j)) := by
  obtain ⟨kpb1, tr, hrun⟩ := kpb_init_draining_total kpb n maxc act fuel cli_sink cli hreach hfuel
  exact ⟨kpb1, tr, hrun, kpb_init_draining_cases kpb maxc act fuel cli_sink cli kpb1 tr hrun⟩

/-- An instance of C9 (amended): a request for 200 bytes while the drain of
110 bytes is pending. -/
theorem C9_init_draining_while_in_flight_witness :
    ReachedBy ex_draining_110 120 ∧
    ex_draining_110.draining_task_data.history_depth > 0 ∧
    ex_draining_110.hbs.length ≤ 2 ∧
    ∃ kpb1 tr, kpb_init_draining 2 5 2 ex_draining_110 (ex_sink 10) (ex_client 200)
        = some (kpb1, tr) ∧
      ((tr = [] ∧ kpb1 = ex_draining_110 ∧
        ((ex_client 200).id > 2 ∨ (ex_sink 10).sink_state ≠ 5 ∨
          kpb_have_enough_history_data 2 ex_draining_110 0 (ex_client 200).history_depth
            = some 0)) ∨
      (tr = [call.schedule_task] ∧ (ex_client 200).id ≤ 2 ∧ (ex_sink 10).sink_state = 5 ∧
        (∃ e, kpb_have_enough_history_data 2 ex_draining_110 0 (ex_client 200).history_depth
          = some e ∧ e ≠ 0) ∧
        kpb1.draining_task_data.sink = ex_draining_110.cli_sink ∧
        kpb1.draining_task_data.history_depth = (ex_client 200).history_depth ∧
        kpb1.draining_task_data.state = true ∧
        ∃ j, kpb1.draining_task_data.history_buffer = some j)) :=
  ⟨ex_draining_110_reached, by decide, by decide,
    C9_init_draining_while_in_flight ex_draining_110 120 2 5 2 (ex_sink 10) (ex_client 200)
      ex_draining_110_reached (by decide) (by decide)⟩

/-- One iteration of the loop of `draining_task` when the bytes left to the
end of the current segment exceed the free space of the sink. -/
theorem draining_loop_step_partial (sink_addr : Nat) (sink : comp_buffer)
    (rest : List comp_buffer) (hbs : List hb) (d : dd) (bi : Nat) (tr : List call) (b : hb)
    (hbi : hbs[bi]? = some b) (hd : d.history_depth > 0)
    (hgt : sub32 b.end_addr b.r_ptr > sink.free) :
    draining_loop sink_addr (sink :: rest) hbs d (some bi) tr =
      draining_loop sink_addr rest
        (hbs.set bi { b with r_ptr := b.r_ptr +
          (if sink.free ≥ d.history_depth then d.history_depth else sink.free) % 2 ^ 32 })
        { d with history_depth := d.history_depth -
          (if sink.free ≥ d.history_depth then d.history_depth else sink.free) }
        (some bi)
        (tr ++ [call.memcpy sink.w_ptr b.r_ptr
                  (if sink.free ≥ d.history_depth then d.history_depth else sink.free),
                call.comp_update_buffer_produce sink_addr
                  (if sink.free ≥ d.history_depth then d.history_depth else sink.free)]) := by
  rw [draining_loop]
  simp only [hd, if_true, hbi, hgt]

theorem draining_loop_done (sink_addr : Nat) (sinks : List comp_buffer) (hbs : List hb) (d : dd)
    (buff : Option Nat) (tr : List call) (hd : d.history_depth = 0) :
    draining_loop sink_addr sinks hbs d buff tr = some (hbs, d, tr) := by
  cases sinks <;> simp [draining_loop, hd]

/-- A drain that stays inside the current segment, into a sink that has `c`
bytes free at every iteration, takes exactly `m` iterations when
`(m - 1) * c < history_depth ≤ m * c`. -/
theorem draining_loop_chunks (sink_addr c : Nat) (sink : comp_buffer) (hfree : sink.free = c)
    (bi : Nat) :
    ∀ (m : Nat) (hbs : List hb) (d : dd) (tr : List call) (b : hb),
      hbs[bi]? = some b → b.r_ptr ≤ b.end_addr → b.end_addr < 2 ^ 32 →
      d.history_depth ≤ m * c → (0 < m → (m - 1) * c < d.history_depth) →
      m * c < b.end_addr - b.r_ptr →
      (∀ j, j < m → draining_loop sink_addr (List.replicate j sink) hbs d (some bi) tr = none) ∧
      ∃ hbs1 d1 tr1 b1,
        draining_loop sink_addr (List.replicate m sink) hbs d (some bi) tr
          = some (hbs1, d1, tr1) ∧
        d1 = { d with history_depth := 0 } ∧
        (produced tr1).length = (produced tr).length + m ∧
        (∀ x ∈ produced tr1, x ∈ produced tr ∨ x ≤ c) ∧
        hbs1[bi]? = some b1 ∧ b1.r_ptr = b.r_ptr + d.history_depth := by
  intro m
  induction m with
  | zero =>
    intro hbs d tr b hbi hr hend hle _ _
    have hz : d.history_depth = 0 := by omega
    refine ⟨fun j hj => absurd hj (Nat.not_lt_zero _), hbs, d, tr, b, ?_, ?_, rfl,
      fun x hx => Or.inl hx, hbi, by omega⟩
    · exact draining_loop_done _ _ _ _ _ _ hz
    · obtain ⟨s, hb1, hd1, st⟩ := d
      simp only at hz
      subst hz
      rfl
  | succ m ih =>
    intro hbs d tr b hbi hr hend hle hlow hroom
    have hlow1 := hlow (Nat.succ_pos _)
    rw [Nat.add_sub_cancel] at hlow1
    rw [Nat.succ_mul] at hle hroom
    have hdpos : d.history_depth > 0 := by omega
    have hsub : sub32 b.end_addr b.r_ptr = b.end_addr - b.r_ptr := sub32_eq _ _ hr hend
    have hgt : sub32 b.end_addr b.r_ptr > sink.free := by rw [hsub, hfree]; omega
    have hstep := fun rest => draining_loop_step_partial sink_addr sink rest hbs d bi tr b hbi
      hdpos hgt
    generalize hsc : (if sink.free ≥ d.history_depth then d.history_depth else sink.free) = sc
      at hstep
    have hscle : sc ≤ c ∧ sc ≤ d.history_depth ∧ (sc = c ∨ sc = d.history_depth) := by
      rw [← hsc, hfree]; split_ifs <;> omega
    have hmod : sc % 2 ^ 32 = sc := Nat.mod_eq_of_lt (by omega)
    rw [hmod] at hstep
    have hbi1 : (hbs.set bi { b with r_ptr := b.r_ptr + sc })[bi]?
        = some { b with r_ptr := b.r_ptr + sc } :=
      List.getElem?_set_self (getElem?_lt hbi)
    have hm0 : d.history_depth ≤ c → m = 0 := by
      intro hdc
      rcases Nat.eq_zero_or_pos m with h0 | hpos
      · exact h0
      · exfalso
        have : c ≤ m * c := Nat.le_mul_of_pos_left c hpos
        omega
    have hsceq : sc = d.history_depth ∨ (sc = c ∧ c < d.history_depth) := by
      rw [← hsc, hfree]; split_ifs <;> omega
    obtain ⟨ihnone, hbs1, d1, tr1, b1, hrun, hd1, hlen, hall, hb1, hr1⟩ :=
      ih (hbs.set bi { b with r_ptr := b.r_ptr + sc })
        { d with history_depth := d.history_depth - sc }
        (tr ++ [call.memcpy sink.w_ptr b.r_ptr sc,
                call.comp_update_buffer_produce sink_addr sc])
        { b with r_ptr := b.r_ptr + sc } hbi1
        (by show b.r_ptr + sc ≤ b.end_addr; omega) hend
        (by show d.history_depth - sc ≤ m * c; omega)
        (by
          intro hpos
          show (m - 1) * c < d.history_depth - sc
          have hmc : (m - 1) * c + c = m * c := by
            rw [← Nat.succ_mul]; congr 1; omega
          rcases hsceq with h1 | h1
          · have := hm0 (by omega); omega
          · omega)
        (by show m * c < b.end_addr - (b.r_ptr + sc); omega)
    constructor
    · intro j hj
      cases j with
      | zero => simp [draining_loop, hdpos]
      | succ j =>
        rw [List.replicate_succ, hstep]
        exact ihnone j (by omega)
    · refine ⟨hbs1, d1, tr1, b1, ?_, ?_, ?_, ?_, hb1, ?_⟩
      · rw [List.replicate_succ, hstep]; exact hrun
      · rw [hd1]
      · rw [hlen, produced_chunk]; simp; omega
      · intro x hx
        rcases hall x hx with h1 | h1
        · rw [produced_chunk] at h1
          simp only [List.mem_append, List.mem_singleton] at h1
          rcases h1 with h2 | h2
          · exact Or.inl h2
          · exact Or.inr (by omega)
        · exact Or.inr h1
      · rw [hr1]
        show b.r_ptr + sc + (d.history_depth - sc) = b.r_ptr + d.history_depth
        omega

theorem ceil_div_bounds (d c : Nat) (hc : 0 < c) :
    d ≤ (d + c - 1) / c * c ∧ (0 < (d + c - 1) / c → ((d + c - 1) / c - 1) * c < d) := by
  have h1 := Nat.div_add_mod (d + c - 1) c
  have h2 := Nat.mod_lt (d + c - 1) hc
  rw [Nat.mul_comm] at h1
  constructor
  · omega
  · intro hpos
    have h3 : ((d + c - 1) / c - 1) * c + c = (d + c - 1) / c * c := by
      rw [← Nat.succ_mul]; congr 1; omega
    have h4 : d ≠ 0 := by
      intro h0
      subst h0
      have : (0 + c - 1) / c = 0 := Nat.div_eq_of_lt (by omega)
      omega
    omega

/-- C10 (as stated) fails: `ex_draining_30` is the component after a drain
of 30 bytes was accepted; with a sink that has 10 bytes free whenever the
loop looks at it, one invocation of `draining_task` does not return after
the first copy (nor after the second), and the invocation that returns has
made all three copies itself and leaves `history_depth = 0`: the drain takes
one invocation, not three. -/
theorem C10_counterexample :
    kpb_init_draining 2 5 2 (ex_written 40) (ex_sink 10) (ex_client 30)
      = some (ex_draining_30, [call.schedule_task]) ∧
    draining_task ex_draining_30 [ex_sink 10] = none ∧
    draining_task ex_draining_30 [ex_sink 10, ex_sink 10] = none ∧
    draining_task ex_draining_30 [ex_sink 10, ex_sink 10, ex_sink 10]
      = some (ex_drained_30,
          [call.memcpy 9000 1010 10, call.comp_update_buffer_produce 7 10,
           call.memcpy 9000 1020 10, call.comp_update_buffer_produce 7 10,
           call.memcpy 9000 1030 10, call.comp_update_buffer_produce 7 10]) ∧
    ex_drained_30.draining_task_data.history_depth = 0 := by
  decide

/-- C10 (amended): when the bytes left to the end of the current segment
exceed the sink's free space, one iteration of the loop of `draining_task`
copies only what the sink can accept, advances that segment's `r_ptr` by
that amount without passing the segment end and decrements `history_depth`;
the task does not return while `history_depth > 0` but iterates again within
the same invocation. Hence a drain of depth `d` that stays inside the current
segment, into a sink with `c > 0` bytes free at every iteration, takes
exactly `ceil(d / c)` iterations of one invocation, and the component state
is changed only after the last one. -/
theorem C10_drain_in_chunks (kpb : kpb_comp_data) (bi c : Nat) (b : hb) (sink : comp_buffer)
    (hbuf : kpb.draining_task_data.history_buffer = some bi) (hbi : kpb.hbs[bi]? = some b)
    (hstate : kpb.draining_task_data.state = true)
    (hr : b.r_ptr ≤ b.end_addr) (hend : b.end_addr < 2 ^ 32) (hc : 0 < c)
    (hfree : sink.free = c)
    (hroom : (kpb.draining_task_data.history_depth + c - 1) / c * c
      < b.end_addr - b.r_ptr) :
    (∀ j, j < (kpb.draining_task_data.history_depth + c - 1) / c →
      draining_task kpb (List.replicate j sink) = none) ∧
    ∃ kpb1 tr b1,
      draining_task kpb
          (List.replicate ((kpb.draining_task_data.history_depth + c - 1) / c) sink)
        = some (kpb1, tr) ∧
      (produced tr).length = (kpb.draining_task_data.history_depth + c - 1) / c ∧
      (∀ x ∈ produced tr, x ≤ c) ∧
      (produced tr).sum = kpb.draining_task_data.history_depth ∧
      kpb1.draining_task_data.history_depth = 0 ∧
      kpb1.state = kpb_state.KPB_DRAINING_ON_DEMAND ∧
      kpb1.hbs[bi]? = some b1 ∧
      b1.r_ptr = b.r_ptr + kpb.draining_task_data.history_depth ∧
      b1.r_ptr < b.end_addr := by
  obtain ⟨hle, hlow⟩ := ceil_div_bounds kpb.draining_task_data.history_depth c hc
  obtain ⟨hnone, hbs1, d1, tr1, b1, hrun, hd1, hlen, hall, hb1, hr1⟩ :=
    draining_loop_chunks kpb.draining_task_data.sink c sink hfree bi
      ((kpb.draining_task_data.history_depth + c - 1) / c) kpb.hbs kpb.draining_task_data []
      b hbi hr hend hle hlow hroom
  constructor
  · intro j hj
    unfold draining_task
    rw [hbuf, hnone j hj]
  · have hrun2 : draining_task kpb
        (List.replicate ((kpb.draining_task_data.history_depth + c - 1) / c) sink)
        = some ({ kpb with hbs := hbs1, draining_task_data := d1,
                           state := kpb_state.KPB_DRAINING_ON_DEMAND }, tr1) := by
      unfold draining_task
      rw [hbuf, hrun]
      simp only [hd1, hstate, if_true]
    have hsum := (draining_loop_total _ _ _ _ _ _ _ _ _ hrun).1
    refine ⟨_, tr1, b1, hrun2, ?_, ?_, ?_, ?_, rfl, hb1, hr1, by omega⟩
    · simpa [produced] using hlen
    · intro x hx
      rcases hall x hx with h1 | h1
      · simp [produced] at h1
      · exact h1
    · simpa [produced] using hsum
    · show d1.history_depth = 0
      rw [hd1]

/-- Scenario D of the specification as an instance of C10 (amended): depth 30,
10 bytes free at every iteration, three iterations. -/
theorem C10_drain_in_chunks_witness :
    ex_draining_30.draining_task_data.history_buffer = some 0 ∧
    ex_draining_30.hbs[0]? = some
      { state := kpb_buffer_state.KPB_BUFFER_FREE, start_addr := 1000, end_addr := 1100,
        w_ptr := 1040, r_ptr := 1010, next := some 1, prev := some 1 } ∧
    (ex_sink 10).free = 10 ∧ (30 + 10 - 1) / 10 = 3 ∧
    (∀ j, j < (ex_draining_30.draining_task_data.history_depth + 10 - 1) / 10 →
      draining_task ex_draining_30 (List.replicate j (ex_sink 10)) = none) ∧
    ∃ kpb1 tr b1,
      draining_task ex_draining_30
          (List.replicate ((ex_draining_30.draining_task_data.history_depth + 10 - 1) / 10)
            (ex_sink 10))
        = some (kpb1, tr) ∧
      (produced tr).length = (ex_draining_30.draining_task_data.history_depth + 10 - 1) / 10 ∧
      (∀ x ∈ produced tr, x ≤ 10) ∧
      (produced tr).sum = ex_draining_30.draining_task_data.history_depth ∧
      kpb1.draining_task_data.history_depth = 0 ∧
      kpb1.state = kpb_state.KPB_DRAINING_ON_DEMAND ∧
      kpb1.hbs[0]? = some b1 ∧
      b1.r_ptr = 1010 + ex_draining_30.draining_task_data.history_depth ∧
      b1.r_ptr < 1100 :=
  ⟨rfl, rfl, rfl, by decide,
    C10_drain_in_chunks ex_draining_30 0 10 _ (ex_sink 10) rfl rfl rfl (by decide) (by decide)
      (by decide) rfl (by decide)⟩

theorem ex_written_120_reached : ReachedBy (ex_written 120) 120 :=
  ReachedBy.write ex_fresh 0 200 ex_source 120 (ex_written 120)
    [call.memcpy 1000 5000 100, call.memcpy 2000 5000 20] (ReachedBy.fresh _ (by decide))
    ex_written_120_run

/-- C11: once `is_internal_buffer_full` is set,
`kpb_have_enough_history_data` returns 1 for every requested depth `d` up to
the total ring capacity, whatever the segments hold, from any segment
`buff` and with any fuel (the flag is tested before the ring is looked at). -/
theorem C11_full_flag_gives_enough (fuel : Nat) (kpb : kpb_comp_data) (buff d : Nat)
    (hfull : kpb.is_internal_buffer_full = true) (_hd : d ≤ capacity kpb.hbs) :
    kpb_have_enough_history_data fuel kpb buff d = some 1 := by
  unfold kpb_have_enough_history_data
  rw [if_pos hfull]

/-- An instance of C11: the fresh two segment ring with the flag set and the
depth 150, the whole capacity, although nothing was written. -/
theorem C11_full_flag_gives_enough_witness :
    ({ ex_fresh with is_internal_buffer_full := true } : kpb_comp_data).is_internal_buffer_full
      = true ∧
    150 ≤ capacity ({ ex_fresh with is_internal_buffer_full := true } : kpb_comp_data).hbs ∧
    kpb_have_enough_history_data 0 { ex_fresh with is_internal_buffer_full := true } 0 150
      = some 1 :=
  ⟨rfl, by decide,
   C11_full_flag_gives_enough 0 { ex_fresh with is_internal_buffer_full := true } 0 150 rfl
     (by decide)⟩

/-- C12: `kpb_register_client` with a non-null client `c`, `c.id` and
`no_of_clients` below `KPB_MAX_NO_OF_CLIENTS` and slot `c.id` UNREGISTERED
returns 0; afterwards slot `c.id` holds the id, the history depth and the sink
of `c` in state BUFFERING (with a null `r_ptr`), `no_of_clients` is one more,
every other slot is as before and so is the rest of the component. -/
theorem C12_register_client_success (EINVAL maxc : Nat) (kpb : kpb_comp_data) (c : kpb_client)
    (hlen : kpb.clients.length = maxc)
    (hid : c.id < maxc) (hn : kpb.no_of_clients < maxc)
    (hst : ∀ slot, kpb.clients[c.id]? = some slot →
      slot.state = kpb_client_state.KPB_CLIENT_UNREGISTERED) :
    ∃ kpb1, kpb_register_client EINVAL maxc kpb (some c) = some (0, kpb1) ∧
      kpb1.clients[c.id]? =
        some { id := c.id, history_depth := c.history_depth, sink := c.sink, r_ptr := 0,
               state := kpb_client_state.KPB_CLIENT_BUFFERING } ∧
      kpb1.no_of_clients = kpb.no_of_clients + 1 ∧
      kpb1.clients.length = kpb.clients.length ∧
      (∀ j, j ≠ c.id → kpb1.clients[j]? = kpb.clients[j]?) ∧
      kpb1 = { kpb with clients := kpb1.clients, no_of_clients := kpb1.no_of_clients } := by
  have hlt : c.id < kpb.clients.length := by omega
  obtain ⟨slot, hslot⟩ : ∃ slot, kpb.clients[c.id]? = some slot :=
    ⟨_, List.getElem?_eq_getElem hlt⟩
  have hs := hst slot hslot
  unfold kpb_register_client
  simp only [ge_iff_le]
  rw [if_neg (show ¬ (maxc ≤ kpb.no_of_clients ∨ maxc ≤ c.id) by omega)]
  simp only [hslot, hs, ne_eq, not_true_eq_false, if_false]
  refine ⟨_, rfl, ?_, rfl, ?_, ?_, rfl⟩
  · simp only [List.getElem?_set, if_true, hlt]
  · simp only [List.length_set]
  · intro j hj
    simp only [List.getElem?_set]
    rw [if_neg (fun h => hj h.symm)]

/-- An instance of C12: client 1 registers in an empty table of two slots. -/
theorem C12_register_client_success_witness :
    ex_registry.clients.length = 2 ∧ (ex_client_id 1 40).id < 2 ∧
    ex_registry.no_of_clients < 2 ∧
    ∃ kpb1, kpb_register_client 22 2 ex_registry (some (ex_client_id 1 40)) = some (0, kpb1) ∧
      kpb1.clients[(ex_client_id 1 40).id]? =
        some { id := (ex_client_id 1 40).id,
               history_depth := (ex_client_id 1 40).history_depth,
               sink := (ex_client_id 1 40).sink, r_ptr := 0,
               state := kpb_client_state.KPB_CLIENT_BUFFERING } ∧
      kpb1.no_of_clients = ex_registry.no_of_clients + 1 ∧
      kpb1.clients.length = ex_registry.clients.length ∧
      (∀ j, j ≠ (ex_client_id 1 40).id → kpb1.clients[j]? = ex_registry.clients[j]?) ∧
      kpb1 = { ex_registry with clients := kpb1.clients, no_of_clients := kpb1.no_of_clients } :=
  ⟨by decide, by decide, by decide,
   C12_register_client_success 22 2 ex_registry (ex_client_id 1 40) (by decide) (by decide)
     (by decide) (by decide)⟩

/-- C13: `kpb_register_client` always returns, and the value is negative
(`-EINVAL`) exactly when the client is null, its id is at least
`KPB_MAX_NO_OF_CLIENTS`, `no_of_clients` is at least `KPB_MAX_NO_OF_CLIENTS`,
or the slot of that id is not UNREGISTERED; in each of these cases the
component (all slots and `no_of_clients` included) is unchanged. -/
theorem C13_register_client_rejects (EINVAL maxc : Nat) (kpb : kpb_comp_data)
    (cli : Option kpb_client) (hE : 0 < EINVAL) (hlen : kpb.clients.length = maxc) :
    ∃ ret kpb1, kpb_register_client EINVAL maxc kpb cli = some (ret, kpb1) ∧
      (ret < 0 ↔ (cli = none ∨ ∃ c, cli = some c ∧
        (c.id ≥ maxc ∨ kpb.no_of_clients ≥ maxc ∨
          ∃ slot, kpb.clients[c.id]? = some slot ∧
            slot.state ≠ kpb_client_state.KPB_CLIENT_UNREGISTERED))) ∧
      (ret < 0 → kpb1 = kpb) := by
  have hneg : -(EINVAL : Int) < 0 := by omega
  unfold kpb_register_client
  cases cli with
  | none => exact ⟨_, _, rfl, ⟨fun _ => Or.inl rfl, fun _ => hneg⟩, fun _ => rfl⟩
  | some c =>
    simp only [ge_iff_le]
    by_cases h1 : maxc ≤ kpb.no_of_clients ∨ maxc ≤ c.id
    · rw [if_pos h1]
      refine ⟨_, _, rfl, ⟨fun _ => Or.inr ⟨c, rfl, ?_⟩, fun _ => hneg⟩, fun _ => rfl⟩
      rcases h1 with h1 | h1
      · exact Or.inr (Or.inl h1)
      · exact Or.inl h1
    · rw [if_neg h1]
      have hlt : c.id < kpb.clients.length := by omega
      obtain ⟨slot, hslot⟩ : ∃ slot, kpb.clients[c.id]? = some slot :=
        ⟨_, List.getElem?_eq_getElem hlt⟩
      simp only [hslot]
      by_cases h2 : slot.state ≠ kpb_client_state.KPB_CLIENT_UNREGISTERED
      · rw [if_pos h2]
        exact ⟨_, _, rfl, ⟨fun _ => Or.inr ⟨c, rfl, Or.inr (Or.inr ⟨slot, hslot, h2⟩)⟩,
          fun _ => hneg⟩, fun _ => rfl⟩
      · rw [if_neg h2]
        refine ⟨_, _, rfl, ⟨fun h => absurd h (by decide), ?_⟩, fun h => absurd h (by decide)⟩
        rintro (h | ⟨c1, hc, h⟩)
        · cases h
        · cases hc
          rcases h with h | h | ⟨s1, hs1, h⟩
          · exact absurd (Or.inr h) h1
          · exact absurd (Or.inl h) h1
          · rw [hslot] at hs1
            cases hs1
            exact absurd h h2

/-- An instance of C13: a client with id 2 at a table of two slots. -/
theorem C13_register_client_rejects_witness :
    0 < 22 ∧ ex_registry.clients.length = 2 ∧
    ∃ ret kpb1, kpb_register_client 22 2 ex_registry (some (ex_client_id 2 40))
        = some (ret, kpb1) ∧
      (ret < 0 ↔ (some (ex_client_id 2 40) = none ∨ ∃ c, some (ex_client_id 2 40) = some c ∧
        (c.id ≥ 2 ∨ ex_registry.no_of_clients ≥ 2 ∨
          ∃ slot, ex_registry.clients[c.id]? = some slot ∧
            slot.state ≠ kpb_client_state.KPB_CLIENT_UNREGISTERED))) ∧
      (ret < 0 → kpb1 = ex_registry) :=
  ⟨by decide, by decide,
   C13_register_client_rejects 22 2 ex_registry (some (ex_client_id 2 40)) (by decide)
     (by decide)⟩

/-- C14 fails in the code: with `KPB_MAX_NO_OF_CLIENTS = 2` a client with id
2, outside the table of two slots, is rejected by `kpb_register_client`
(`-EINVAL`, test `>=`) but accepted by `kpb_init_draining` (test `>`): with
the sink active and 120 bytes buffered the drain of 40 bytes is set up and the
task scheduled. -/
theorem C14_id_at_limit_accepted :
    (ex_client_id 2 40).id ≥ 2 ∧
    (kpb_register_client 22 2 ex_registry (some (ex_client_id 2 40))).map Prod.fst
      = some (-22) ∧
    (kpb_init_draining 2 5 2 (ex_written 120) (ex_sink 30) (ex_client_id 2 40)).map
        (fun r => (r.1.draining_task_data, r.2))
      = some ({ sink := 7, history_buffer := some 0, history_depth := 40, state := true },
              [call.schedule_task]) := by
  decide

/-- C15: in a reachable state `kpb_init_draining` returns; it schedules the
task or changes the drain context only if the sink's consumer is ACTIVE and
`kpb_have_enough_history_data` gave a non-zero result for the client's
depth, and then the context holds the request; when the sink is not ACTIVE or
the history is insufficient (or the id is above the limit) the component is
unchanged and nothing is scheduled. -/
theorem C15_init_draining_guarded (kpb : kpb_comp_data) (n maxc act fuel : Nat)
    (cli_sink : comp_buffer) (cli : kpb_client)
    (hreach : ReachedBy kpb n) (hfuel : kpb.hbs.length ≤ fuel) :
    ∃ kpb1 tr, kpb_init_draining maxc act fuel kpb cli_sink cli = some (kpb1, tr) ∧
      ((tr ≠ [] ∨ kpb1 ≠ kpb) →
        cli_sink.sink_state = act ∧
        (∃ e, kpb_have_enough_history_data fuel kpb 0 cli.history_depth = some e ∧ e ≠ 0) ∧
        tr = [call.schedule_task] ∧
        kpb1.draining_task_data.sink = kpb.cli_sink ∧
        kpb1.draining_task_data.history_depth = cli.history_depth ∧
        kpb1.draining_task_data.state = true ∧
        ∃ j, kpb1.draining_task_data.history_buffer = some j) ∧
      ((cli_sink.sink_state ≠ act ∨
          kpb_have_enough_history_data fuel kpb 0 cli.history_depth = some 0) →
        tr = [] ∧ kpb1 = kpb) ∧
      ((cli.id ≤ maxc ∧ cli_sink.sink_state = act ∧
          ∃ e, kpb_have_enough_history_data fuel kpb 0 cli.history_depth = some e ∧ e ≠ 0) →
        tr = [call.schedule_task]) := by
  obtain ⟨kpb1, tr, hrun⟩ := kpb_init_draining_total kpb n maxc act fuel cli_sink cli hreach hfuel
  refine ⟨kpb1, tr, hrun, ?_, ?_, ?_⟩
  · intro hch
    rcases kpb_init_draining_cases kpb maxc act fuel cli_sink cli kpb1 tr hrun with
      ⟨h1, h2, -⟩ | ⟨h1, -, h3, h4, h5, h6, h7, h8⟩
    · rcases hch with hch | hch
      · exact absurd h1 hch
      · exact absurd h2 hch
    · exact ⟨h3, h4, h1, h5, h6, h7, h8⟩
  · intro hrej
    rcases kpb_init_draining_cases kpb maxc act fuel cli_sink cli kpb1 tr hrun with
      ⟨h1, h2, -⟩ | ⟨-, -, h3, ⟨e, he, hne⟩, -⟩
    · exact ⟨h1, h2⟩
    · rcases hrej with hrej | hrej
      · exact absurd h3 hrej
      · rw [he] at hrej
        simp only [Option.some.injEq] at hrej
        exact absurd hrej hne
  · rintro ⟨hid, hs, e, he, hne⟩
    rcases kpb_init_draining_cases kpb maxc act fuel cli_sink cli kpb1 tr hrun with
      ⟨-, -, h | h | h⟩ | ⟨h1, -⟩
    · omega
    · exact absurd hs h
    · rw [he] at h
      simp only [Option.some.injEq] at h
      exact absurd h hne
    · exact h1

/-- An instance of C15: a request for 200 bytes when 120 are buffered. -/
theorem C15_init_draining_guarded_witness :
    ReachedBy (ex_written 120) 120 ∧ (ex_written 120).hbs.length ≤ 2 ∧
    ∃ kpb1 tr, kpb_init_draining 2 5 2 (ex_written 120) (ex_sink 10) (ex_client 200)
        = some (kpb1, tr) ∧
      ((tr ≠ [] ∨ kpb1 ≠ ex_written 120) →
        (ex_sink 10).sink_state = 5 ∧
        (∃ e, kpb_have_enough_history_data 2 (ex_written 120) 0 (ex_client 200).history_depth
          = some e ∧ e ≠ 0) ∧
        tr = [call.schedule_task] ∧
        kpb1.draining_task_data.sink = (ex_written 120).cli_sink ∧
        kpb1.draining_task_data.history_depth = (ex_client 200).history_depth ∧
        kpb1.draining_task_data.state = true ∧
        ∃ j, kpb1.draining_task_data.history_buffer = some j) ∧
      (((ex_sink 10).sink_state ≠ 5 ∨
          kpb_have_enough_history_data 2 (ex_written 120) 0 (ex_client 200).history_depth
            = some 0) →
        tr = [] ∧ kpb1 = ex_written 120) ∧
      (((ex_client 200).id ≤ 2 ∧ (ex_sink 10).sink_state = 5 ∧
          ∃ e, kpb_have_enough_history_data 2 (ex_written 120) 0 (ex_client 200).history_depth
            = some e ∧ e ≠ 0) →
        tr = [call.schedule_task]) :=
  ⟨ex_written_120_reached, by decide,
   C15_init_draining_guarded (ex_written 120) 120 2 5 2 (ex_sink 10) (ex_client 200)
     ex_written_120_reached (by decide)⟩

/-! ### kpb_copy -/

theorem updates_append (a b : List call) : updates (a ++ b) = updates a ++ updates b := by
  induction a with
  | nil => rfl
  | cons c a ih =>
    cases c <;> simp [updates, ih]

/-- The copy loop of `kpb_buffer_data` makes `memcpy` calls only. -/
theorem kpb_buffer_loop_updates (src : Nat) :
    ∀ (fuel : Nat) (hbs : List hb) (buff s : Nat) (tr : List call) (hbs1 : List hb)
      (tr1 : List call),
      kpb_buffer_loop src fuel hbs buff s tr = some (hbs1, tr1) →
      updates tr1 = updates tr := by
  intro fuel
  induction fuel with
  | zero =>
    intro hbs buff s tr hbs1 tr1 heq
    unfold kpb_buffer_loop at heq
    split at heq
    · simp only [Option.some.injEq, Prod.mk.injEq] at heq
      rw [← heq.2]
    · simp at heq
  | succ fuel ih =>
    intro hbs buff s tr hbs1 tr1 heq
    rw [kpb_buffer_loop] at heq
    by_cases hs0 : s = 0
    · simp only [hs0, if_true, Option.some.injEq, Prod.mk.injEq] at heq
      rw [← heq.2]
    · simp only [hs0, if_false] at heq
      cases hbb : hbs[buff]? with
      | none => simp [hbb] at heq
      | some b =>
        simp only [hbb] at heq
        have happ : ∀ k, updates (tr ++ [call.memcpy b.w_ptr src k]) = updates tr := by
          intro k
          rw [updates_append]
          simp [updates]
        split at heq
        · split at heq
          · simp at heq
          · rw [ih _ _ _ _ _ _ heq, happ]
        · split at heq
          · split at heq
            · simp at heq
            · rw [ih _ _ _ _ _ _ heq, happ]
          · rw [ih _ _ _ _ _ _ heq, happ]

theorem kpb_buffer_data_updates (fuel : Nat) (kpb : kpb_comp_data) (source : comp_buffer)
    (size : Nat) (kpb1 : kpb_comp_data) (tr : List call)
    (h : kpb_buffer_data fuel kpb source size = some (kpb1, tr)) : updates tr = [] := by
  unfold kpb_buffer_data at h
  cases hff : find_free_buffer kpb.hbs 0 fuel 0 with
  | none => simp [hff] at h
  | some buff =>
    simp only [hff] at h
    cases hrun : kpb_buffer_loop source.r_ptr fuel kpb.hbs buff size [] with
    | none => simp [hrun] at h
    | some r =>
      obtain ⟨hbs1, tr1⟩ := r
      simp only [hrun, Option.some.injEq, Prod.mk.injEq] at h
      rw [← h.2]
      exact kpb_buffer_loop_updates _ _ _ _ _ _ _ _ hrun

theorem updates_pause (kpb : kpb_comp_data) (p : Nat) :
    updates (if kpb.state ≠ kpb_state.KPB_BUFFERING then [call.set_sink_state kpb.rt_sink p]
             else []) = [] := by
  split <;> rfl

theorem copies_pause (kpb : kpb_comp_data) (p : Nat) :
    copies (if kpb.state ≠ kpb_state.KPB_BUFFERING then [call.set_sink_state kpb.rt_sink p]
            else []) = [] := by
  split <;> rfl

theorem copies_append (a b : List call) : copies (a ++ b) = copies a ++ copies b := by
  induction a with
  | nil => rfl
  | cons c a ih =>
    cases c <;> simp [copies, ih]

/-- In a state reached from a well-formed fresh ring `kpb_copy` succeeds:
with source and selected sink present (and
the real-time sink, which is dereferenced when the component is not
buffering), both data pointers non-null, `sink.free > 0` and
`source.avail > 0`, `kpb_copy` returns 0, and its produce and consume calls
are exactly one `comp_update_buffer_produce` on the sink and one
`comp_update_buffer_consume` on the source, both with
`n = min(sink.free, source.avail)`. -/
theorem kpb_copy_success_reached (EINVAL EIO maxb paused fuel : Nat) (kpb : kpb_comp_data)
    (n buffered source_addr : Nat) (source rt_sink cli_sink : comp_buffer)
    (hreach : ReachedBy kpb n)
    (hlen : kpb.hbs.length ≤ fuel)
    (hfuel : min (copy_sink kpb rt_sink cli_sink).free source.avail ≤ fuel)
    (hsrc : source_addr ≠ 0) (hsink : copy_sink_addr kpb ≠ 0)
    (hrt : kpb.state ≠ kpb_state.KPB_BUFFERING → kpb.rt_sink ≠ 0)
    (hr : source.r_ptr ≠ 0) (hw : (copy_sink kpb rt_sink cli_sink).w_ptr ≠ 0)
    (hfree : 0 < (copy_sink kpb rt_sink cli_sink).free) (havail : 0 < source.avail) :
    ∃ kpb1 buffered1 tr,
      kpb_copy EINVAL EIO maxb paused fuel kpb buffered source_addr source rt_sink cli_sink
        = some (0, kpb1, buffered1, tr) ∧
      updates tr =
        [call.comp_update_buffer_produce (copy_sink_addr kpb)
           (min (copy_sink kpb rt_sink cli_sink).free source.avail),
         call.comp_update_buffer_consume source_addr
           (min (copy_sink kpb rt_sink cli_sink).free source.avail)] := by
  unfold copy_sink at hfuel hw hfree ⊢
  unfold copy_sink_addr at hsink ⊢
  unfold kpb_copy
  simp only
  rw [if_neg (show ¬ (kpb.state ≠ kpb_state.KPB_BUFFERING ∧ kpb.rt_sink = 0) from
    fun h => hrt h.1 h.2)]
  rw [if_pos (And.intro hsrc hsink)]
  rw [if_neg (show ¬ (source.r_ptr = 0 ∨
      (if kpb.state = kpb_state.KPB_BUFFERING then rt_sink else cli_sink).w_ptr = 0) from
    fun h => h.elim hr hw)]
  rw [if_neg (show ¬ (if kpb.state = kpb_state.KPB_BUFFERING then rt_sink else cli_sink).free = 0
    by omega)]
  rw [if_neg (show ¬ source.avail = 0 by omega)]
  by_cases hmax : source.avail ≤ maxb
  · rw [if_pos hmax]
    obtain ⟨kpb1, tr2, hrun⟩ := (kpb_buffer_data_spec fuel kpb source _ n
      (ReachedBy_ring_inv hreach)).1 hlen hfuel
    have hu := kpb_buffer_data_updates _ _ _ _ _ _ hrun
    simp only [hrun]
    by_cases hb : buffered < maxb
    · rw [if_pos hb]
      refine ⟨_, _, _, rfl, ?_⟩
      simp only [updates_append, updates_pause, hu, updates, List.nil_append, List.append_nil]
    · rw [if_neg hb]
      refine ⟨_, _, _, rfl, ?_⟩
      simp only [updates_append, updates_pause, hu, updates, List.nil_append, List.append_nil]
  · rw [if_neg hmax]
    refine ⟨_, _, _, rfl, ?_⟩
    simp only [updates_append, updates_pause, updates, List.nil_append, List.append_nil]

/-- An instance: the fresh ring, 200 bytes available in the source and 30
bytes free in the real-time sink. -/
theorem kpb_copy_success_reached_example :
    ReachedBy ex_fresh 0 ∧
    ∃ kpb1 buffered1 tr,
      kpb_copy 22 5 300 4 200 ex_fresh 0 77 ex_source (ex_sink 30) (ex_sink 40)
        = some (0, kpb1, buffered1, tr) ∧
      updates tr =
        [call.comp_update_buffer_produce (copy_sink_addr ex_fresh)
           (min (copy_sink ex_fresh (ex_sink 30) (ex_sink 40)).free ex_source.avail),
         call.comp_update_buffer_consume 77
           (min (copy_sink ex_fresh (ex_sink 30) (ex_sink 40)).free ex_source.avail)] :=
  ⟨ReachedBy.fresh _ (by decide),
   kpb_copy_success_reached 22 5 300 4 200 ex_fresh 0 0 77 ex_source (ex_sink 30) (ex_sink 40)
     (ReachedBy.fresh _ (by decide)) (by decide) (by decide) (by decide) (by decide)
     (by decide) (by decide) (by decide) (by decide) (by decide)⟩

/-- C17: `kpb_copy` gives a negative result when the source or the selected
sink is absent (`-EIO`), when the sink has no free space (`-EIO` after
`comp_overrun` on the sink, also when the source is empty as well) and when
the source has nothing available (`-EIO` after `comp_underrun` on the
source); a null data pointer gives `-EINVAL` before either. In all these
cases the component (ring and `is_internal_buffer_full` included) and the
tally `buffered` are returned unchanged and the calls made contain no
`memcpy`, no produce and no consume. -/
theorem C17_copy_errors_skip_cycle (EINVAL EIO maxb paused fuel : Nat) (kpb : kpb_comp_data)
    (buffered source_addr : Nat) (source rt_sink cli_sink : comp_buffer)
    (hE : 0 < EINVAL) (hI : 0 < EIO)
    (hrt : kpb.state ≠ kpb_state.KPB_BUFFERING → kpb.rt_sink ≠ 0)
    (hcase : source_addr = 0 ∨ copy_sink_addr kpb = 0 ∨
      (copy_sink kpb rt_sink cli_sink).free = 0 ∨ source.avail = 0) :
    ∃ ret tr,
      kpb_copy EINVAL EIO maxb paused fuel kpb buffered source_addr source rt_sink cli_sink
        = some (ret, kpb, buffered, tr) ∧
      ret < 0 ∧ updates tr = [] ∧ copies tr = [] ∧
      ((source_addr = 0 ∨ copy_sink_addr kpb = 0) → ret = -( EIO : Int)) ∧
      ((source_addr ≠ 0 ∧ copy_sink_addr kpb ≠ 0 ∧ source.r_ptr ≠ 0 ∧
          (copy_sink kpb rt_sink cli_sink).w_ptr ≠ 0) →
        ret = -( EIO : Int) ∧
        ((copy_sink kpb rt_sink cli_sink).free = 0 →
          call.comp_overrun (copy_sink_addr kpb) ∈ tr) ∧
        ((copy_sink kpb rt_sink cli_sink).free ≠ 0 →
          call.comp_underrun source_addr ∈ tr)) := by
  have hnE : -(EINVAL : Int) < 0 := by omega
  have hnI : -( EIO : Int) < 0 := by omega
  unfold copy_sink at hcase ⊢
  unfold copy_sink_addr at hcase ⊢
  unfold kpb_copy
  simp only
  rw [if_neg (show ¬ (kpb.state ≠ kpb_state.KPB_BUFFERING ∧ kpb.rt_sink = 0) from
    fun h => hrt h.1 h.2)]
  by_cases hp : source_addr ≠ 0 ∧
      (if kpb.state = kpb_state.KPB_BUFFERING then kpb.rt_sink else kpb.cli_sink) ≠ 0
  · rw [if_pos hp]
    by_cases hv : source.r_ptr = 0 ∨
        (if kpb.state = kpb_state.KPB_BUFFERING then rt_sink else cli_sink).w_ptr = 0
    · rw [if_pos hv]
      refine ⟨_, _, rfl, hnE, updates_pause _ _, copies_pause _ _, ?_, ?_⟩
      · intro h
        rcases h with h | h
        · exact absurd h hp.1
        · exact absurd h hp.2
      · intro h
        rcases hv with hv | hv
        · exact absurd hv h.2.2.1
        · exact absurd hv h.2.2.2
    · rw [if_neg hv]
      by_cases hf : (if kpb.state = kpb_state.KPB_BUFFERING then rt_sink else cli_sink).free = 0
      · rw [if_pos hf]
        refine ⟨_, _, rfl, hnI, ?_, ?_, ?_, ?_⟩
        · simp only [updates_append, updates_pause, updates, List.append_nil]
        · simp only [copies_append, copies_pause, copies, List.append_nil]
        · intro h
          rcases h with h | h
          · exact absurd h hp.1
          · exact absurd h hp.2
        · intro _
          refine ⟨rfl, fun _ => ?_, fun h => absurd hf h⟩
          simp only [List.mem_append, List.mem_singleton, or_true]
      · rw [if_neg hf]
        have ha : source.avail = 0 := by
          rcases hcase with h | h | h | h
          · exact absurd h hp.1
          · exact absurd h hp.2
          · exact absurd h hf
          · exact h
        rw [if_pos ha]
        refine ⟨_, _, rfl, hnI, ?_, ?_, ?_, ?_⟩
        · simp only [updates_append, updates_pause, updates, List.append_nil]
        · simp only [copies_append, copies_pause, copies, List.append_nil]
        · intro h
          rcases h with h | h
          · exact absurd h hp.1
          · exact absurd h hp.2
        · intro _
          refine ⟨rfl, fun h => absurd h hf, fun _ => ?_⟩
          simp only [List.mem_append, List.mem_singleton, or_true]
  · rw [if_neg hp]
    refine ⟨_, _, rfl, hnI, updates_pause _ _, copies_pause _ _, fun _ => rfl, ?_⟩
    intro h
    exact absurd ⟨h.1, h.2.1⟩ hp

/-- An instance of C17: sink full and source empty at once gives the
overrun. -/
theorem C17_copy_errors_skip_cycle_witness :
    ∃ ret tr,
      kpb_copy 22 5 300 4 200 ex_fresh 0 77 { ex_source with avail := 0 } (ex_sink 0)
          (ex_sink 40)
        = some (ret, ex_fresh, 0, tr) ∧
      ret < 0 ∧ updates tr = [] ∧ copies tr = [] ∧
      (((77 : Nat) = 0 ∨ copy_sink_addr ex_fresh = 0) → ret = -((5 : Nat) : Int)) ∧
      (((77 : Nat) ≠ 0 ∧ copy_sink_addr ex_fresh ≠ 0 ∧
          ({ ex_source with avail := 0 } : comp_buffer).r_ptr ≠ 0 ∧
          (copy_sink ex_fresh (ex_sink 0) (ex_sink 40)).w_ptr ≠ 0) →
        ret = -((5 : Nat) : Int) ∧
        ((copy_sink ex_fresh (ex_sink 0) (ex_sink 40)).free = 0 →
          call.comp_overrun (copy_sink_addr ex_fresh) ∈ tr) ∧
        ((copy_sink ex_fresh (ex_sink 0) (ex_sink 40)).free ≠ 0 →
          call.comp_underrun 77 ∈ tr)) :=
  C17_copy_errors_skip_cycle 22 5 300 4 200 ex_fresh 0 77 { ex_source with avail := 0 }
    (ex_sink 0) (ex_sink 40) (by decide) (by decide) (by decide) (by decide)

/-! ### The accounting of kpb_have_enough_history_data -/

/-- On a circular ring without OFF segments whose write cursors are within
bounds, the accumulation loop started at segment `i` computes the walk with
the guarded share over the `k` segments from `i` to the end of the ring. -/
theorem have_enough_loop_accounting {hbs : List hb} (hl : links_circular hbs)
    (hb : ∀ b ∈ hbs, b.start_addr ≤ b.w_ptr ∧ b.w_ptr ≤ b.end_addr ∧ b.end_addr < 2 ^ 32 ∧
      b.state ≠ kpb_buffer_state.KPB_BUFFER_OFF) (d : Nat) :
    ∀ (k i fuel sum : Nat), i + k = hbs.length → 0 < k → k ≤ fuel →
      have_enough_loop hbs 0 d fuel i sum
        = some (accounting_walk guarded_share hbs d k i sum) := by
  intro k
  induction k with
  | zero => intro i fuel sum _ hk; omega
  | succ k ih =>
    intro i fuel sum hik _ hfuel
    obtain ⟨fuel1, rfl⟩ : ∃ m, fuel = m + 1 := ⟨fuel - 1, by omega⟩
    by_cases hs : sum < d
    · obtain ⟨b, hbi⟩ := getElem?_of_lt (show i < hbs.length by omega)
      obtain ⟨c, hc, hstep⟩ := have_enough_loop_step hl d fuel1 i sum hbi hs
      rw [hstep]
      obtain ⟨h1, h2, h3, h4⟩ := hb b (List.getElem?_mem hbi)
      have hshare : (if b.state = kpb_buffer_state.KPB_BUFFER_FREE then
                    if b.w_ptr = b.start_addr then
                      if c.state = kpb_buffer_state.KPB_BUFFER_FULL then
                        sub32 b.end_addr b.start_addr
                      else sub32 b.w_ptr b.start_addr
                    else sub32 b.w_ptr b.start_addr
                  else sub32 b.end_addr b.start_addr) = guarded_share b c := by
        rw [sub32_eq _ _ (by omega) h3, sub32_eq _ _ h1 (by omega)]
        unfold guarded_share seg_size
        cases hst : b.state with
        | KPB_BUFFER_OFF => exact absurd hst h4
        | KPB_BUFFER_FULL => simp
        | KPB_BUFFER_FREE =>
          simp only [if_true]
          by_cases hw : b.w_ptr = b.start_addr
          · by_cases hcs : c.state = kpb_buffer_state.KPB_BUFFER_FULL
            · simp [hw, hcs]
            · simp [hw, hcs]
          · simp [hw]
      have hwalk : accounting_walk guarded_share hbs d (k + 1) i sum
          = accounting_walk guarded_share hbs d k (i + 1) (sum + guarded_share b c) := by
        rw [accounting_walk]
        rw [if_neg (show ¬ sum ≥ d by omega)]
        simp only [hbi, hc]
      simp only [hshare]
      rw [hwalk]
      by_cases hlast : i + 1 = hbs.length
      · have hk0 : k = 0 := by omega
        subst hk0
        rw [hlast, Nat.mod_self]
        simp only [ne_eq, not_true_eq_false, if_false]
        rfl
      · have hlt : i + 1 < hbs.length := by omega
        rw [Nat.mod_eq_of_lt hlt]
        rw [if_pos (show i + 1 ≠ 0 by omega)]
        exact ih (i + 1) fuel1 _ (by omega) (by omega) (by omega)
    · rw [have_enough_loop_done _ _ _ _ _ hs]
      rw [accounting_walk]
      rw [if_pos (show sum ≥ d by omega)]

/-- C20 (as stated) fails: on the two segment ring after 120 bytes (segment 0
FULL, segment 1 FREE with 20 bytes written, flag false) the documented rule
counts segment 1 with its full 50 bytes, because the segment after it is
FULL, and finds the depth 130 buffered; `kpb_have_enough_history_data`
counts 100 + 20 and returns 0. -/
theorem C20_counterexample :
    ReachedBy (ex_written 120) 120 ∧
    (ex_written 120).is_internal_buffer_full = false ∧
    (ex_written 120).hbs.map (fun b => (b.state, b.w_ptr - b.start_addr, seg_size b))
      = [(kpb_buffer_state.KPB_BUFFER_FULL, 0, 100),
         (kpb_buffer_state.KPB_BUFFER_FREE, 20, 50)] ∧
    accounting_enough documented_share (ex_written 120).hbs 130 = true ∧
    kpb_have_enough_history_data 2 (ex_written 120) 0 130 = some 0 :=
  ⟨ex_written_120_reached, by decide, by decide, by decide, by decide⟩

/-- C20 (amended): with `is_internal_buffer_full` false, on a circular ring
of FREE and FULL segments with write cursors within bounds,
`kpb_have_enough_history_data(head, d)` returns 1 or 0 as the documented walk
says when a FREE segment counts with its full capacity only if its write
cursor is at its start and the next segment is FULL (else with
`w_ptr - start`). -/
theorem C20_have_enough_accounting (kpb : kpb_comp_data) (d fuel : Nat)
    (hflag : kpb.is_internal_buffer_full = false) (hl : links_circular kpb.hbs)
    (hb : ∀ b ∈ kpb.hbs, b.start_addr ≤ b.w_ptr ∧ b.w_ptr ≤ b.end_addr ∧
      b.end_addr < 2 ^ 32 ∧ b.state ≠ kpb_buffer_state.KPB_BUFFER_OFF)
    (hfuel : kpb.hbs.length ≤ fuel) :
    kpb_have_enough_history_data fuel kpb 0 d
      = some (if accounting_enough guarded_share kpb.hbs d = true then 1 else 0) := by
  unfold kpb_have_enough_history_data accounting_enough
  rw [hflag]
  simp only [Bool.false_eq_true, if_false]
  rw [have_enough_loop_accounting hl hb d kpb.hbs.length 0 fuel 0 (by omega) hl.1 hfuel]
  simp only [decide_eq_true_eq]

/-- An instance of C20 (amended): the ring after 120 bytes and the depth
130. -/
theorem C20_have_enough_accounting_witness :
    (ex_written 120).is_internal_buffer_full = false ∧
    links_circular (ex_written 120).hbs ∧
    accounting_enough guarded_share (ex_written 120).hbs 130 = false ∧
    kpb_have_enough_history_data 2 (ex_written 120) 0 130
      = some (if accounting_enough guarded_share (ex_written 120).hbs 130 = true then 1
              else 0) :=
  ⟨by decide, by decide, by decide,
   C20_have_enough_accounting (ex_written 120) 130 2 (by decide) (by decide) (by decide)
     (by decide)⟩

/-! ### kpb_new -/

/-- The allocation loop returns its state once nothing more is wanted or the
pools are used up. -/
theorem kpb_new_loop_exit (step pools : Nat) (rballoc : List request → Nat → Nat → Nat)
    (fuel : Nat) (s : alloc_state) (hc : ¬ (0 < s.hb_size ∧ s.i < pools)) :
    kpb_new_loop step pools rballoc (fuel + 1) s = some s := by
  rw [kpb_new_loop, if_neg hc]

/-- The retry size after a failed request of `ca` bytes: `ca - step`, or 0
when that would wrap. -/
theorem retry_size (ca step : Nat) (hca : ca < 2 ^ 32) (h0 : 0 < step) (h1 : step < 2 ^ 32) :
    (if ca < sub32 ca step then 0 else sub32 ca step) = ca - step := by
  unfold sub32
  by_cases h : step ≤ ca
  · have e : (ca % 2 ^ 32 + 2 ^ 32 - step % 2 ^ 32) % 2 ^ 32 = ca - step := by omega
    rw [e, if_neg (by omega)]
  · have e : (ca % 2 ^ 32 + 2 ^ 32 - step % 2 ^ 32) % 2 ^ 32 = ca + 2 ^ 32 - step := by omega
    rw [e, if_pos (by omega)]
    omega

/-- The head of the arena after descriptor `i` was overwritten. -/
theorem head_after_set (hbs : List hb) (i : Nat) (x h : hb) (hh : hbs[0]? = some h)
    (hi : i < hbs.length) :
    ∃ h1, (hbs.set i x)[0]? = some h1 ∧ (i = 0 → h1 = x) ∧ (i ≠ 0 → h1 = h) := by
  by_cases h0 : i = 0
  · subst h0
    refine ⟨x, ?_, fun _ => rfl, fun h => absurd rfl h⟩
    simp only [List.getElem?_set, if_true, hi]
  · refine ⟨h, ?_, fun h => absurd h h0, fun _ => rfl⟩
    simp only [List.getElem?_set]
    rw [if_neg h0]
    exact hh

/-- With a positive allocation step the allocation loop of `kpb_new` returns
within `(pools - i) * (maxb + 1) + ca_size + 1` iterations and keeps
`alloc_inv`. -/
theorem kpb_new_loop_total (step pools maxb : Nat) (rballoc : List request → Nat → Nat → Nat)
    (hmax : maxb < 2 ^ 32) (h0 : 0 < step) (h1 : step < 2 ^ 32) :
    ∀ (fuel : Nat) (s : alloc_state), alloc_inv maxb s →
      (pools - s.i) * (maxb + 1) + s.ca_size + 1 ≤ fuel →
      ∃ s1, kpb_new_loop step pools rballoc fuel s = some s1 ∧ alloc_inv maxb s1 := by
  intro fuel
  induction fuel with
  | zero => intro s _ hf; omega
  | succ fuel ih =>
    intro s hinv hf
    by_cases hc : 0 < s.hb_size ∧ s.i < pools
    · obtain ⟨hca0, hhb, hpos, hidx, h, hh, hhead⟩ := hinv
      have hca := hca0 hc.1
      have hcap : 0 < s.ca_size := hpos hc.1
      have hmul : (pools - s.i) * (maxb + 1)
          = (pools - (s.i + 1)) * (maxb + 1) + (maxb + 1) := by
        rw [show pools - s.i = (pools - (s.i + 1)) + 1 by omega, Nat.add_mul, Nat.one_mul]
      have hf0 := hf
      rw [kpb_new_loop, if_pos hc]
      simp only
      by_cases hp : rballoc s.requests s.i s.ca_size ≠ 0
      · rw [if_pos hp]
        obtain ⟨b, hbb⟩ := getElem?_of_lt hidx
        simp only [hbb]
        have hsub : sub32 s.hb_size s.ca_size = s.hb_size - s.ca_size :=
          sub32_eq _ _ hca (by omega)
        rw [hsub]
        have hgranted : ∃ q ∈ s.requests ++
            [({ pool := s.i, size := s.ca_size, ptr := rballoc s.requests s.i s.ca_size } :
              request)], q.ptr ≠ 0 :=
          ⟨_, List.mem_append_right _ (List.mem_singleton.mpr rfl), hp⟩
        have hbuf : s.history_buffer = 0 ∨ h.start_addr ≠ 0 := by
          rcases hhead with ⟨_, hz, _⟩ | ⟨hz, _, _⟩
          · exact Or.inl hz
          · exact Or.inr hz
        by_cases hmore : 0 < s.hb_size - s.ca_size
        · rw [if_pos hmore]
          obtain ⟨h2, hh2, hz2, hn2⟩ := head_after_set s.hbs s.history_buffer
            { start_addr := rballoc s.requests s.i s.ca_size,
              end_addr := rballoc s.requests s.i s.ca_size + s.ca_size,
              w_ptr := rballoc s.requests s.i s.ca_size,
              r_ptr := rballoc s.requests s.i s.ca_size,
              state := kpb_buffer_state.KPB_BUFFER_FREE,
              next := some s.hbs.length, prev := b.prev } h hh hidx
          have hlen2 : 0 < (s.hbs.set s.history_buffer
            { start_addr := rballoc s.requests s.i s.ca_size,
              end_addr := rballoc s.requests s.i s.ca_size + s.ca_size,
              w_ptr := rballoc s.requests s.i s.ca_size,
              r_ptr := rballoc s.requests s.i s.ca_size,
              state := kpb_buffer_state.KPB_BUFFER_FREE,
              next := some s.hbs.length, prev := b.prev }).length := by
            rw [List.length_set]; omega
          rw [List.getElem?_append_left hlen2, hh2]
          simp only
          have hstart : h2.start_addr ≠ 0 := by
            by_cases hz : s.history_buffer = 0
            · rw [hz2 hz]; exact hp
            · rw [hn2 hz]
              rcases hbuf with hb0 | hb0
              · exact absurd hb0 hz
              · exact hb0
          apply ih
          · refine ⟨fun _ => Nat.le_refl _, ?_, fun hx => hx, ?_, ?_⟩
            · show s.hb_size - s.ca_size ≤ maxb
              omega
            · show s.hbs.length < _
              rw [List.length_set, List.length_append, List.length_set]
              simp only [List.length_singleton]
              omega
            · refine ⟨{ h2 with prev := some s.hbs.length }, ?_, Or.inr ⟨hstart, hgranted, ?_⟩⟩
              · simp only [List.getElem?_set, if_true, List.length_append, List.length_set,
                  List.length_singleton]
                rw [if_pos (by omega)]
              · left
                show s.hbs.length ≠ 0
                omega
          · show (pools - (s.i + 1)) * (maxb + 1) + (s.hb_size - s.ca_size) + 1 ≤ fuel
            rw [hmul] at hf0
            omega
        · rw [if_neg hmore]
          obtain ⟨fuel1, rfl⟩ : ∃ m, fuel = m + 1 := ⟨fuel - 1, by omega⟩
          rw [kpb_new_loop_exit]
          · refine ⟨_, rfl, ?_⟩
            obtain ⟨h2, hh2, hz2, hn2⟩ := head_after_set s.hbs s.history_buffer
              { start_addr := rballoc s.requests s.i s.ca_size,
                end_addr := rballoc s.requests s.i s.ca_size + s.ca_size,
                w_ptr := rballoc s.requests s.i s.ca_size,
                r_ptr := rballoc s.requests s.i s.ca_size,
                state := kpb_buffer_state.KPB_BUFFER_FREE,
                next := some 0, prev := b.prev } h hh hidx
            have hstart : h2.start_addr ≠ 0 := by
              by_cases hz : s.history_buffer = 0
              · rw [hz2 hz]; exact hp
              · rw [hn2 hz]
                rcases hbuf with hb0 | hb0
                · exact absurd hb0 hz
                · exact hb0
            refine ⟨?_, ?_, ?_, ?_, h2, hh2, Or.inr ⟨hstart, hgranted, Or.inr ?_⟩⟩
            · intro hx
              exact absurd hx hmore
            · show s.hb_size - s.ca_size ≤ maxb
              omega
            · intro hx
              exact absurd hx hmore
            · show s.history_buffer < _
              rw [List.length_set]; exact hidx
            · show s.hb_size - s.ca_size = 0
              omega
          · intro hx
            exact hmore hx.1
      · rw [if_neg hp]
        have hp0 : rballoc s.requests s.i s.ca_size = 0 := by
          by_contra hx; exact hp hx
        have hreqs : (∀ q ∈ s.requests, q.ptr = 0) →
            ∀ q ∈ s.requests ++
              [({ pool := s.i, size := s.ca_size, ptr := rballoc s.requests s.i s.ca_size } :
                request)], q.ptr = 0 := by
          intro hall q hq
          rcases List.mem_append.mp hq with hq | hq
          · exact hall q hq
          · rw [List.mem_singleton.mp hq]; exact hp0
        have hhead1 : (h.start_addr = 0 ∧ s.history_buffer = 0 ∧ ∀ q ∈ s.requests ++
              [({ pool := s.i, size := s.ca_size, ptr := rballoc s.requests s.i s.ca_size } :
                request)], q.ptr = 0) ∨
            (h.start_addr ≠ 0 ∧ (∃ q ∈ s.requests ++
              [({ pool := s.i, size := s.ca_size, ptr := rballoc s.requests s.i s.ca_size } :
                request)], q.ptr ≠ 0) ∧ (s.history_buffer ≠ 0 ∨ s.hb_size = 0)) := by
          rcases hhead with ⟨a1, a2, a3⟩ | ⟨a1, ⟨q, hq, hq0⟩, a3⟩
          · exact Or.inl ⟨a1, a2, hreqs a3⟩
          · exact Or.inr ⟨a1, ⟨q, List.mem_append_left _ hq, hq0⟩, a3⟩
        rw [retry_size s.ca_size step (by omega) h0 h1]
        by_cases hz : s.ca_size - step = 0
        · rw [if_pos hz]
          apply ih
          · exact ⟨fun _ => Nat.le_refl _, hhb, fun hx => hx, hidx, h, hh, hhead1⟩
          · show (pools - (s.i + 1)) * (maxb + 1) + s.hb_size + 1 ≤ fuel
            rw [hmul] at hf0
            omega
        · rw [if_neg hz]
          apply ih
          · refine ⟨fun _ => ?_, hhb, fun _ => ?_, hidx, h, hh, hhead1⟩
            · show s.ca_size - step ≤ s.hb_size
              omega
            · show 0 < s.ca_size - step
              omega
          · show (pools - s.i) * (maxb + 1) + (s.ca_size - step) + 1 ≤ fuel
            omega
    · exact ⟨s, kpb_new_loop_exit _ _ _ _ _ hc, hinv⟩

/-- C18 fails in the code: with `KPB_MAX_BUFFER_SIZE = 150`, step 50 and three
pools, an allocator that grants only the second request (100 bytes from pool
0) makes `kpb_new` return a component: the head has its 100 bytes and points
to a second descriptor that was linked in before any memory was asked for it;
the requests for the remaining 50 bytes fail, so that descriptor stays OFF
with `next = NULL`. The chain is not circular. -/
theorem C18_incomplete_allocation_not_circular :
    (kpb_new 2 150 16000 16 50 3 ex_rballoc_second 10 ex_config
        (ex_zeroed kpb_buffer_state.KPB_BUFFER_FREE)).map
        (fun r => (r.1.map kpb_comp_data.hbs, r.2))
      = some (some ex_short_ring,
          [{ pool := 0, size := 150, ptr := 0 }, { pool := 0, size := 100, ptr := 1000 },
           { pool := 1, size := 50, ptr := 0 }, { pool := 2, size := 50, ptr := 0 }]) ∧
    ex_short_ring.map (fun b => (b.state, b.start_addr, b.end_addr, b.next, b.prev))
      = [(kpb_buffer_state.KPB_BUFFER_FREE, 1000, 1100, some 1, some 1),
         (kpb_buffer_state.KPB_BUFFER_OFF, 0, 0, none, some 0)] ∧
    ¬ links_circular ex_short_ring := by
  decide

/-- C19: with a configuration that passes the checks, a zeroed head segment,
a positive allocation step and enough fuel, `kpb_new` returns; it returns
NULL if and only if every request it made to `rballoc` failed, and a
component it returns has a head segment with memory. -/
theorem C19_new_fails_iff_nothing_allocated (maxch maxb freq width step pools : Nat)
    (rballoc : List request → Nat → Nat → Nat) (fuel : Nat) (config : sof_kpb_config)
    (cd : kpb_comp_data) (h0 : hb)
    (hch : config.no_channels ≤ maxch) (hdepth : config.history_depth ≤ maxb)
    (hfreq : config.sampling_freq = freq) (hwidth : config.sampling_width = width)
    (hcd : cd.hbs[0]? = some h0) (hzero : h0.start_addr = 0)
    (hstep0 : 0 < step) (hstep1 : step < 2 ^ 32) (hmax : maxb < 2 ^ 32)
    (hfuel : (pools + 1) * (maxb + 1) ≤ fuel) :
    ∃ r reqs,
      kpb_new maxch maxb freq width step pools rballoc fuel config cd = some (r, reqs) ∧
      (r = none ↔ ∀ q ∈ reqs, q.ptr = 0) ∧
      (∀ kpb, r = some kpb → ∃ h, kpb.hbs[0]? = some h ∧ h.start_addr ≠ 0) := by
  have hlen : 0 < cd.hbs.length := getElem?_lt hcd
  have hinit : alloc_inv maxb
      { hbs := cd.hbs.set 0 { h0 with next := some 0, prev := some 0 },
        history_buffer := 0, hb_size := maxb, ca_size := maxb, i := 0, requests := [] } := by
    refine ⟨fun _ => Nat.le_refl _, Nat.le_refl _, fun hx => hx, ?_,
      { h0 with next := some 0, prev := some 0 }, ?_, Or.inl ⟨hzero, rfl, ?_⟩⟩
    · show 0 < (cd.hbs.set 0 _).length
      rw [List.length_set]; exact hlen
    · simp only [List.getElem?_set, if_true, hlen]
    · intro q hq
      cases hq
  have hf : (pools - 0) * (maxb + 1) + maxb + 1 ≤ fuel := by
    rw [Nat.add_mul, Nat.one_mul] at hfuel
    rw [Nat.sub_zero]
    omega
  obtain ⟨s1, hrun, -, -, -, -, h, hh, hhead⟩ :=
    kpb_new_loop_total step pools maxb rballoc hmax hstep0 hstep1 fuel _ hinit hf
  unfold kpb_new
  rw [if_neg (show ¬ config.no_channels > maxch by omega),
    if_neg (show ¬ config.history_depth > maxb by omega),
    if_neg (show ¬ config.sampling_freq ≠ freq from fun hx => hx hfreq),
    if_neg (show ¬ config.sampling_width ≠ width from fun hx => hx hwidth)]
  simp only [hcd, hrun, hh]
  rcases hhead with ⟨hz, -, hall⟩ | ⟨hz, ⟨q, hq, hq0⟩, -⟩
  · rw [if_pos hz]
    exact ⟨_, _, rfl, ⟨fun _ => hall, fun _ => rfl⟩, fun kpb hk => by cases hk⟩
  · rw [if_neg hz]
    refine ⟨_, _, rfl, ⟨fun hx => (by cases hx), fun hall => absurd (hall q hq) hq0⟩, ?_⟩
    intro kpb hk
    simp only [Option.some.injEq] at hk
    rw [← hk]
    exact ⟨h, hh, hz⟩

/-- An instance of C19: an allocator that grants requests of at most 100
bytes. -/
theorem C19_new_fails_iff_nothing_allocated_witness :
    ∃ r reqs,
      kpb_new 2 150 16000 16 50 3 ex_rballoc_small 604 ex_config
          (ex_zeroed kpb_buffer_state.KPB_BUFFER_FREE) = some (r, reqs) ∧
      (r = none ↔ ∀ q ∈ reqs, q.ptr = 0) ∧
      (∀ kpb, r = some kpb → ∃ h, kpb.hbs[0]? = some h ∧ h.start_addr ≠ 0) :=
  C19_new_fails_iff_nothing_allocated 2 150 16000 16 50 3 ex_rballoc_small 604 ex_config
    (ex_zeroed kpb_buffer_state.KPB_BUFFER_FREE) _ (by decide) (by decide) (by decide)
    (by decide) rfl rfl (by decide) (by decide) (by decide) (by decide)

/-! ### The history write and the tally of kpb_copy -/

theorem kpb_buffer_data_flag (fuel : Nat) (kpb : kpb_comp_data) (source : comp_buffer)
    (size : Nat) (kpb1 : kpb_comp_data) (tr : List call)
    (h : kpb_buffer_data fuel kpb source size = some (kpb1, tr)) :
    kpb1.is_internal_buffer_full = kpb.is_internal_buffer_full := by
  unfold kpb_buffer_data at h
  cases hff : find_free_buffer kpb.hbs 0 fuel 0 with
  | none => simp [hff] at h
  | some buff =>
    simp only [hff] at h
    cases hrun : kpb_buffer_loop source.r_ptr fuel kpb.hbs buff size [] with
    | none => simp [hrun] at h
    | some r =>
      obtain ⟨hbs1, tr1⟩ := r
      simp only [hrun, Option.some.injEq, Prod.mk.injEq] at h
      rw [← h.1]

/-- What a call of `kpb_copy` that returns 0 did: with
`source.avail <= KPB_MAX_BUFFER_SIZE` it ran `kpb_buffer_data` for the copied
bytes and then either added them to the tally (tally below the maximum) or
set the flag (tally at the maximum); otherwise it left component and tally
alone. -/
theorem kpb_copy_zero (EINVAL EIO maxb paused fuel : Nat) (kpb : kpb_comp_data)
    (buffered source_addr : Nat) (source rt_sink cli_sink : comp_buffer)
    (kpb1 : kpb_comp_data) (b1 : Nat) (tr : List call)
    (hE : 0 < EINVAL) (hI : 0 < EIO)
    (h : kpb_copy EINVAL EIO maxb paused fuel kpb buffered source_addr source rt_sink cli_sink
      = some (0, kpb1, b1, tr)) :
    (source.avail ≤ maxb ∧
      ∃ kpbw trw, kpb_buffer_data fuel kpb source
          (min (copy_sink kpb rt_sink cli_sink).free source.avail) = some (kpbw, trw) ∧
        ((buffered < maxb ∧ kpb1 = kpbw ∧
            b1 = buffered + min (copy_sink kpb rt_sink cli_sink).free source.avail) ∨
         (maxb ≤ buffered ∧ kpb1 = { kpbw with is_internal_buffer_full := true } ∧
            b1 = buffered))) ∨
    (maxb < source.avail ∧ kpb1 = kpb ∧ b1 = buffered) := by
  have hnE : -(EINVAL : Int) ≠ 0 := by omega
  have hnI : -( EIO : Int) ≠ 0 := by omega
  unfold copy_sink
  unfold kpb_copy at h
  simp only at h
  by_cases h1 : kpb.state ≠ kpb_state.KPB_BUFFERING ∧ kpb.rt_sink = 0
  · rw [if_pos h1] at h
    cases h
  · rw [if_neg h1] at h
    by_cases h2 : source_addr ≠ 0 ∧
        (if kpb.state = kpb_state.KPB_BUFFERING then kpb.rt_sink else kpb.cli_sink) ≠ 0
    · rw [if_pos h2] at h
      by_cases h3 : source.r_ptr = 0 ∨
          (if kpb.state = kpb_state.KPB_BUFFERING then rt_sink else cli_sink).w_ptr = 0
      · rw [if_pos h3] at h
        simp only [Option.some.injEq, Prod.mk.injEq] at h
        exact absurd h.1 hnE
      · rw [if_neg h3] at h
        by_cases h4 : (if kpb.state = kpb_state.KPB_BUFFERING then rt_sink
            else cli_sink).free = 0
        · rw [if_pos h4] at h
          simp only [Option.some.injEq, Prod.mk.injEq] at h
          exact absurd h.1 hnI
        · rw [if_neg h4] at h
          by_cases h5 : source.avail = 0
          · rw [if_pos h5] at h
            simp only [Option.some.injEq, Prod.mk.injEq] at h
            exact absurd h.1 hnI
          · rw [if_neg h5] at h
            by_cases hmax : source.avail ≤ maxb
            · rw [if_pos hmax] at h
              left
              refine ⟨hmax, ?_⟩
              cases hrun : kpb_buffer_data fuel kpb source
                  (min (if kpb.state = kpb_state.KPB_BUFFERING then rt_sink
                        else cli_sink).free source.avail) with
              | none =>
                rw [hrun] at h
                cases h
              | some r =>
                obtain ⟨kpbw, trw⟩ := r
                rw [hrun] at h
                refine ⟨kpbw, trw, rfl, ?_⟩
                by_cases hb : buffered < maxb
                · simp only [if_pos hb, Option.some.injEq, Prod.mk.injEq, true_and] at h
                  exact Or.inl ⟨hb, h.1.symm, h.2.1.symm⟩
                · simp only [if_neg hb, Option.some.injEq, Prod.mk.injEq, true_and] at h
                  exact Or.inr ⟨by omega, h.1.symm, h.2.1.symm⟩
            · rw [if_neg hmax] at h
              simp only [Option.some.injEq, Prod.mk.injEq, true_and] at h
              exact Or.inr ⟨by omega, h.1.symm, h.2.1.symm⟩
    · rw [if_neg h2] at h
      simp only [Option.some.injEq, Prod.mk.injEq] at h
      exact absurd h.1 hnI

/-- The flag after a call of `kpb_copy` that returned 0. -/
theorem kpb_copy_zero_flag (EINVAL EIO maxb paused fuel : Nat) (kpb : kpb_comp_data)
    (buffered source_addr : Nat) (source rt_sink cli_sink : comp_buffer)
    (kpb1 : kpb_comp_data) (b1 : Nat) (tr : List call)
    (hE : 0 < EINVAL) (hI : 0 < EIO)
    (h : kpb_copy EINVAL EIO maxb paused fuel kpb buffered source_addr source rt_sink cli_sink
      = some (0, kpb1, b1, tr)) :
    (kpb1.is_internal_buffer_full = true ↔
      kpb.is_internal_buffer_full = true ∨ (source.avail ≤ maxb ∧ maxb ≤ buffered)) := by
  rcases kpb_copy_zero EINVAL EIO maxb paused fuel kpb buffered source_addr source rt_sink
      cli_sink kpb1 b1 tr hE hI h with
    ⟨hmax, kpbw, trw, hrun, ⟨hb, hk, -⟩ | ⟨hb, hk, -⟩⟩ | ⟨hmax, hk, -⟩
  · have hfl := kpb_buffer_data_flag _ _ _ _ _ _ hrun
    rw [hk, hfl]
    constructor
    · intro hx; exact Or.inl hx
    · rintro (hx | hx)
      · exact hx
      · omega
  · rw [hk]
    exact ⟨fun _ => Or.inr ⟨hmax, hb⟩, fun _ => rfl⟩
  · rw [hk]
    constructor
    · intro hx; exact Or.inl hx
    · rintro (hx | hx)
      · exact hx
      · omega

/-- One step of a sequence of cycles. -/
theorem kpb_copy_cycles_cons (EINVAL EIO maxb paused fuel : Nat) (c : copy_input)
    (cs : List copy_input) (kpb : kpb_comp_data) (b : Nat) (r : kpb_comp_data × Nat)
    (h : kpb_copy_cycles EINVAL EIO maxb paused fuel (c :: cs) kpb b = some r) :
    ∃ kpb1 b1 tr,
      kpb_copy EINVAL EIO maxb paused fuel kpb b c.source_addr c.source c.rt_sink c.cli_sink
        = some (0, kpb1, b1, tr) ∧
      kpb_copy_cycles EINVAL EIO maxb paused fuel cs kpb1 b1 = some r ∧
      ∀ cs1, kpb_copy_cycles EINVAL EIO maxb paused fuel (c :: cs1) kpb b
        = kpb_copy_cycles EINVAL EIO maxb paused fuel cs1 kpb1 b1 := by
  rw [kpb_copy_cycles] at h
  cases hrun : kpb_copy EINVAL EIO maxb paused fuel kpb b c.source_addr c.source c.rt_sink
      c.cli_sink with
  | none => simp [hrun] at h
  | some x =>
    obtain ⟨ret, kpb1, b1, tr⟩ := x
    simp only [hrun] at h
    by_cases hret : ret = 0
    · subst hret
      rw [if_pos rfl] at h
      refine ⟨kpb1, b1, tr, rfl, h, ?_⟩
      intro cs1
      rw [kpb_copy_cycles]
      simp only [hrun, if_true]
    · rw [if_neg hret] at h
      cases h

/-- Once set, the flag stays set through further cycles. -/
theorem kpb_copy_cycles_flag_stays (EINVAL EIO maxb paused fuel : Nat)
    (hE : 0 < EINVAL) (hI : 0 < EIO) :
    ∀ (cs : List copy_input) (kpb : kpb_comp_data) (b : Nat) (kpb1 : kpb_comp_data) (b1 : Nat),
      kpb.is_internal_buffer_full = true →
      kpb_copy_cycles EINVAL EIO maxb paused fuel cs kpb b = some (kpb1, b1) →
      kpb1.is_internal_buffer_full = true := by
  intro cs
  induction cs with
  | nil =>
    intro kpb b kpb1 b1 hf h
    rw [kpb_copy_cycles] at h
    simp only [Option.some.injEq, Prod.mk.injEq] at h
    rw [← h.1]; exact hf
  | cons c cs ih =>
    intro kpb b kpb1 b1 hf h
    obtain ⟨kpb2, b2, tr, hstep, hrest, -⟩ := kpb_copy_cycles_cons _ _ _ _ _ _ _ _ _ _ h
    have hfl := (kpb_copy_zero_flag _ _ _ _ _ _ _ _ _ _ _ _ _ _ hE hI hstep).2 (Or.inl hf)
    exact ih kpb2 b2 kpb1 b1 hfl hrest

/-- C21 (as stated) fails: with `KPB_MAX_BUFFER_SIZE = 150`, 200 bytes
available in the source and 30 bytes free in the sink, `kpb_copy` returns 0
and copies `n = 30 <= 150` bytes to the sink, but the test
`source->avail <= KPB_MAX_BUFFER_SIZE` fails and nothing is written to the
history ring: the component is unchanged and the only `memcpy` is the one to
the sink. -/
theorem C21_counterexample :
    min (ex_sink 30).free ex_source.avail = 30 ∧ 30 ≤ 150 ∧
    kpb_copy 22 5 150 4 200 ex_fresh 0 77 ex_source (ex_sink 30) (ex_sink 40)
      = some (0, ex_fresh, 0,
          [call.memcpy 9000 5000 30, call.comp_update_buffer_produce 8 30,
           call.comp_update_buffer_consume 77 30]) := by
  decide

/-- C21 (amended): on a successful cycle of `kpb_copy` in a reachable state
the history write depends on `source.avail`, not on the copied span
`n = min(sink.free, source.avail)`: when `source.avail` is at most
`KPB_MAX_BUFFER_SIZE` the cycle runs `kpb_buffer_data(kpb, source, n)`
between the copy to the sink and the produce/consume calls, and the write
position of the ring advances by `n`; when `source.avail` is larger the
component is unchanged and the only `memcpy` is the one to the sink. -/
theorem C21_history_write_follows_avail (EINVAL EIO maxb paused fuel : Nat)
    (kpb : kpb_comp_data) (n0 buffered source_addr : Nat)
    (source rt_sink cli_sink : comp_buffer)
    (hreach : ReachedBy kpb n0)
    (hlen : kpb.hbs.length ≤ fuel)
    (hfuel : min (copy_sink kpb rt_sink cli_sink).free source.avail ≤ fuel)
    (hsrc : source_addr ≠ 0) (hsink : copy_sink_addr kpb ≠ 0)
    (hrt : kpb.state ≠ kpb_state.KPB_BUFFERING → kpb.rt_sink ≠ 0)
    (hr : source.r_ptr ≠ 0) (hw : (copy_sink kpb rt_sink cli_sink).w_ptr ≠ 0)
    (hfree : 0 < (copy_sink kpb rt_sink cli_sink).free) (havail : 0 < source.avail) :
    ∃ kpb1 buffered1 tr,
      kpb_copy EINVAL EIO maxb paused fuel kpb buffered source_addr source rt_sink cli_sink
        = some (0, kpb1, buffered1, tr) ∧
      (source.avail ≤ maxb →
        ∃ kpbw trw,
          kpb_buffer_data fuel kpb source
            (min (copy_sink kpb rt_sink cli_sink).free source.avail) = some (kpbw, trw) ∧
          kpb1.hbs = kpbw.hbs ∧
          ring_inv kpb1.hbs (n0 + min (copy_sink kpb rt_sink cli_sink).free source.avail) ∧
          tr = (if kpb.state ≠ kpb_state.KPB_BUFFERING then
                  [call.set_sink_state kpb.rt_sink paused] else []) ++
               [call.memcpy (copy_sink kpb rt_sink cli_sink).w_ptr source.r_ptr
                  (min (copy_sink kpb rt_sink cli_sink).free source.avail)] ++ trw ++
               [call.comp_update_buffer_produce (copy_sink_addr kpb)
                  (min (copy_sink kpb rt_sink cli_sink).free source.avail),
                call.comp_update_buffer_consume source_addr
                  (min (copy_sink kpb rt_sink cli_sink).free source.avail)]) ∧
      (maxb < source.avail →
        kpb1 = kpb ∧
        tr = (if kpb.state ≠ kpb_state.KPB_BUFFERING then
                [call.set_sink_state kpb.rt_sink paused] else []) ++
             [call.memcpy (copy_sink kpb rt_sink cli_sink).w_ptr source.r_ptr
                (min (copy_sink kpb rt_sink cli_sink).free source.avail)] ++
             [call.comp_update_buffer_produce (copy_sink_addr kpb)
                (min (copy_sink kpb rt_sink cli_sink).free source.avail),
              call.comp_update_buffer_consume source_addr
                (min (copy_sink kpb rt_sink cli_sink).free source.avail)]) := by
  unfold copy_sink at hfuel hw hfree ⊢
  unfold copy_sink_addr at hsink ⊢
  unfold kpb_copy
  simp only
  rw [if_neg (show ¬ (kpb.state ≠ kpb_state.KPB_BUFFERING ∧ kpb.rt_sink = 0) from
    fun h => hrt h.1 h.2)]
  rw [if_pos (And.intro hsrc hsink)]
  rw [if_neg (show ¬ (source.r_ptr = 0 ∨
      (if kpb.state = kpb_state.KPB_BUFFERING then rt_sink else cli_sink).w_ptr = 0) from
    fun h => h.elim hr hw)]
  rw [if_neg (show ¬ (if kpb.state = kpb_state.KPB_BUFFERING then rt_sink else cli_sink).free = 0
    by omega)]
  rw [if_neg (show ¬ source.avail = 0 by omega)]
  by_cases hmax : source.avail ≤ maxb
  · rw [if_pos hmax]
    obtain ⟨l1, l2⟩ := kpb_buffer_data_spec fuel kpb source
      (min (if kpb.state = kpb_state.KPB_BUFFERING then rt_sink else cli_sink).free
        source.avail) n0 (ReachedBy_ring_inv hreach)
    obtain ⟨kpbw, trw, hrun⟩ := l1 hlen hfuel
    have hring := (l2 kpbw trw hrun).1
    simp only [hrun]
    by_cases hb : buffered < maxb
    · rw [if_pos hb]
      exact ⟨_, _, _, rfl, fun _ => ⟨kpbw, trw, rfl, rfl, hring, rfl⟩,
        fun hx => absurd hmax (by omega)⟩
    · rw [if_neg hb]
      exact ⟨_, _, _, rfl, fun _ => ⟨kpbw, trw, rfl, rfl, hring, rfl⟩,
        fun hx => absurd hmax (by omega)⟩
  · rw [if_neg hmax]
    exact ⟨_, _, _, rfl, fun hx => absurd hx hmax, fun _ => ⟨rfl, rfl⟩⟩

/-- An instance of C21 (amended): 200 bytes available, 30 bytes free in the
sink, `KPB_MAX_BUFFER_SIZE = 300`. -/
theorem C21_history_write_follows_avail_witness :
    ReachedBy ex_fresh 0 ∧ ex_source.avail ≤ 300 ∧
    ∃ kpb1 buffered1 tr,
      kpb_copy 22 5 300 4 200 ex_fresh 0 77 ex_source (ex_sink 30) (ex_sink 40)
        = some (0, kpb1, buffered1, tr) ∧
      (ex_source.avail ≤ 300 →
        ∃ kpbw trw,
          kpb_buffer_data 200 ex_fresh ex_source
            (min (copy_sink ex_fresh (ex_sink 30) (ex_sink 40)).free ex_source.avail)
              = some (kpbw, trw) ∧
          kpb1.hbs = kpbw.hbs ∧
          ring_inv kpb1.hbs
            (0 + min (copy_sink ex_fresh (ex_sink 30) (ex_sink 40)).free ex_source.avail) ∧
          tr = (if ex_fresh.state ≠ kpb_state.KPB_BUFFERING then
                  [call.set_sink_state ex_fresh.rt_sink 4] else []) ++
               [call.memcpy (copy_sink ex_fresh (ex_sink 30) (ex_sink 40)).w_ptr ex_source.r_ptr
                  (min (copy_sink ex_fresh (ex_sink 30) (ex_sink 40)).free ex_source.avail)] ++
               trw ++
               [call.comp_update_buffer_produce (copy_sink_addr ex_fresh)
                  (min (copy_sink ex_fresh (ex_sink 30) (ex_sink 40)).free ex_source.avail),
                call.comp_update_buffer_consume 77
                  (min (copy_sink ex_fresh (ex_sink 30) (ex_sink 40)).free ex_source.avail)]) ∧
      (300 < ex_source.avail →
        kpb1 = ex_fresh ∧
        tr = (if ex_fresh.state ≠ kpb_state.KPB_BUFFERING then
                [call.set_sink_state ex_fresh.rt_sink 4] else []) ++
             [call.memcpy (copy_sink ex_fresh (ex_sink 30) (ex_sink 40)).w_ptr ex_source.r_ptr
                (min (copy_sink ex_fresh (ex_sink 30) (ex_sink 40)).free ex_source.avail)] ++
             [call.comp_update_buffer_produce (copy_sink_addr ex_fresh)
                (min (copy_sink ex_fresh (ex_sink 30) (ex_sink 40)).free ex_source.avail),
              call.comp_update_buffer_consume 77
                (min (copy_sink ex_fresh (ex_sink 30) (ex_sink 40)).free ex_source.avail)]) :=
  ⟨ReachedBy.fresh _ (by decide), by decide,
   C21_history_write_follows_avail 22 5 300 4 200 ex_fresh 0 0 77 ex_source (ex_sink 30)
     (ex_sink 40) (ReachedBy.fresh _ (by decide)) (by decide) (by decide) (by decide)
     (by decide) (by decide) (by decide) (by decide) (by decide) (by decide)⟩

/-- C22 (as stated) fails: with `KPB_MAX_BUFFER_SIZE = 150` one cycle that
writes 150 bytes brings the tally from 0 to 150, yet at the end of that cycle
`is_internal_buffer_full` is still 0; the next cycle that writes to the ring
finds the tally at the maximum and sets the flag. -/
theorem C22_counterexample :
    (kpb_copy 22 5 150 4 200 ex_fresh 0 77 (ex_cycle 150 150).source (ex_cycle 150 150).rt_sink
        (ex_cycle 150 150).cli_sink).map
        (fun r => (r.1, r.2.1.is_internal_buffer_full, r.2.2.1))
      = some (0, false, 150) ∧
    150 ≥ 150 ∧
    (kpb_copy_cycles 22 5 150 4 200 [ex_cycle 150 150] ex_fresh 0).map
        (fun r => (r.1.is_internal_buffer_full, r.2)) = some (false, 150) ∧
    (kpb_copy_cycles 22 5 150 4 200 [ex_cycle 150 150, ex_cycle 10 10] ex_fresh 0).map
        (fun r => (r.1.is_internal_buffer_full, r.2)) = some (true, 150) := by
  decide

/-- C22 (amended): over any sequence of cycles of `kpb_copy` that each
return 0, started with `is_internal_buffer_full` clear, the flag is set at
the end exactly when some cycle of the sequence with
`source.avail <= KPB_MAX_BUFFER_SIZE` (one that writes to the ring) began
with the tally `buffered` already at or above `KPB_MAX_BUFFER_SIZE`. The
cycle in which the tally reaches the maximum does not set the flag; the next
writing cycle does. -/
theorem C22_flag_set_by_next_cycle (EINVAL EIO maxb paused fuel : Nat)
    (hE : 0 < EINVAL) (hI : 0 < EIO) :
    ∀ (cs : List copy_input) (kpb : kpb_comp_data) (b : Nat) (kpb1 : kpb_comp_data) (b1 : Nat),
      kpb.is_internal_buffer_full = false →
      kpb_copy_cycles EINVAL EIO maxb paused fuel cs kpb b = some (kpb1, b1) →
      (kpb1.is_internal_buffer_full = true ↔
        ∃ pre c post kpbm bm, cs = pre ++ c :: post ∧
          kpb_copy_cycles EINVAL EIO maxb paused fuel pre kpb b = some (kpbm, bm) ∧
          c.source.avail ≤ maxb ∧ maxb ≤ bm) := by
  intro cs
  induction cs with
  | nil =>
    intro kpb b kpb1 b1 hf h
    rw [kpb_copy_cycles] at h
    simp only [Option.some.injEq, Prod.mk.injEq] at h
    rw [← h.1, hf]
    constructor
    · intro hx; cases hx
    · rintro ⟨pre, c, post, -, -, hx, -⟩
      cases pre <;> cases hx
  | cons c cs ih =>
    intro kpb b kpb1 b1 hf h
    obtain ⟨kpb2, b2, tr, hstep, hrest, hcons⟩ := kpb_copy_cycles_cons _ _ _ _ _ _ _ _ _ _ h
    have hfl := kpb_copy_zero_flag _ _ _ _ _ _ _ _ _ _ _ _ _ _ hE hI hstep
    by_cases hc : c.source.avail ≤ maxb ∧ maxb ≤ b
    · have h2 : kpb2.is_internal_buffer_full = true := hfl.2 (Or.inr hc)
      have h1 := kpb_copy_cycles_flag_stays EINVAL EIO maxb paused fuel hE hI cs kpb2 b2 kpb1 b1
        h2 hrest
      refine ⟨fun _ => ⟨[], c, cs, kpb, b, rfl, ?_, hc.1, hc.2⟩, fun _ => h1⟩
      rw [kpb_copy_cycles]
    · have h2 : kpb2.is_internal_buffer_full = false := by
        cases hx : kpb2.is_internal_buffer_full with
        | false => rfl
        | true =>
          rcases hfl.1 hx with hy | hy
          · rw [hf] at hy; cases hy
          · exact absurd hy hc
      rw [ih kpb2 b2 kpb1 b1 h2 hrest]
      constructor
      · rintro ⟨pre, c2, post, kpbm, bm, hsplit, hpre, hcond⟩
        refine ⟨c :: pre, c2, post, kpbm, bm, ?_, ?_, hcond⟩
        · rw [hsplit]; rfl
        · rw [hcons pre]; exact hpre
      · rintro ⟨pre, c2, post, kpbm, bm, hsplit, hpre, hcond⟩
        cases pre with
        | nil =>
          simp only [List.nil_append, List.cons.injEq] at hsplit
          rw [kpb_copy_cycles] at hpre
          simp only [Option.some.injEq, Prod.mk.injEq] at hpre
          rw [← hsplit.1, ← hpre.2] at hcond
          exact absurd hcond hc
        | cons p pre =>
          simp only [List.cons_append, List.cons.injEq] at hsplit
          rw [← hsplit.1, hcons pre] at hpre
          exact ⟨pre, c2, post, kpbm, bm, hsplit.2, hpre, hcond⟩

theorem ex_cycled_run :
    kpb_copy_cycles 22 5 150 4 200 [ex_cycle 150 150, ex_cycle 10 10] ex_fresh 0
      = some (ex_cycled, 150) := by
  decide

/-- An instance of C22 (amended): a cycle of 150 bytes followed by one of 10
bytes, with `KPB_MAX_BUFFER_SIZE = 150`. -/
theorem C22_flag_set_by_next_cycle_witness :
    ex_fresh.is_internal_buffer_full = false ∧
    kpb_copy_cycles 22 5 150 4 200 [ex_cycle 150 150, ex_cycle 10 10] ex_fresh 0
      = some (ex_cycled, 150) ∧
    (ex_cycled.is_internal_buffer_full = true ↔
      ∃ pre c post kpbm bm, [ex_cycle 150 150, ex_cycle 10 10] = pre ++ c :: post ∧
        kpb_copy_cycles 22 5 150 4 200 pre ex_fresh 0 = some (kpbm, bm) ∧
        c.source.avail ≤ 150 ∧ 150 ≤ bm) :=
  ⟨by decide, ex_cycled_run,
   C22_flag_set_by_next_cycle 22 5 150 4 200 (by decide) (by decide)
     [ex_cycle 150 150, ex_cycle 10 10] ex_fresh 0 ex_cycled 150 (by decide) ex_cycled_run⟩

/-! ### Termination on arbitrary circular rings -/

/-- On a circular ring the "find free buffer" loop started at segment `j`
returns within the segments from `j` to the end of the ring. -/
theorem find_free_buffer_circular {hbs : List hb} (hl : links_circular hbs) :
    ∀ (k j fuel : Nat), j + k = hbs.length → 0 < k → k ≤ fuel →
      ∃ f, find_free_buffer hbs 0 fuel j = some f ∧ j ≤ f ∧ f < hbs.length := by
  intro k
  induction k with
  | zero => intro j fuel _ hk; omega
  | succ k ih =>
    intro j fuel hjk _ hfuel
    obtain ⟨fuel1, rfl⟩ : ∃ m, fuel = m + 1 := ⟨fuel - 1, by omega⟩
    obtain ⟨b, hbj⟩ := getElem?_of_lt (show j < hbs.length by omega)
    have hn := links_next hl hbj
    rw [find_free_buffer]
    simp only [hbj, hn]
    by_cases hlast : j + 1 = hbs.length
    · rw [hlast, Nat.mod_self]
      simp only [if_true]
      exact ⟨j, rfl, Nat.le_refl _, by omega⟩
    · have hlt : j + 1 < hbs.length := by omega
      rw [Nat.mod_eq_of_lt hlt]
      rw [if_neg (show ¬ j + 1 = 0 by omega)]
      by_cases hfree : b.state = kpb_buffer_state.KPB_BUFFER_FREE
      · rw [if_pos hfree]
        exact ⟨j, rfl, Nat.le_refl _, by omega⟩
      · rw [if_neg hfree]
        obtain ⟨f, hf, h1, h2⟩ := ih (j + 1) fuel1 (by omega) (by omega) (by omega)
        exact ⟨f, hf, by omega, h2⟩

/-- The index of the segment before segment `i` of a ring of `n` segments. -/
theorem prev_index (i n : Nat) (hi : i < n) :
    (i + n - 1) % n = if i = 0 then n - 1 else i - 1 := by
  by_cases h0 : i = 0
  · subst h0
    rw [if_pos rfl, Nat.zero_add]
    exact Nat.mod_eq_of_lt (by omega)
  · rw [if_neg h0]
    have e : i + n - 1 = (i - 1) + n := by omega
    rw [e, Nat.add_mod_right]
    exact Nat.mod_eq_of_lt (by omega)

/-- On a circular ring the read pointer loop returns before it comes back to
the segment `first` it started from: `k` counts the segments from `buff`
backwards to the one after `first`. -/
theorem read_ptr_loop_circular {hbs : List hb} (hl : links_circular hbs) (d first : Nat)
    (hf : first < hbs.length) :
    ∀ (k buff fuel buffered : Nat), buff < hbs.length →
      (if first < buff then buff - first else buff + hbs.length - first) = k → k ≤ fuel →
      ∃ hbs1 r, read_ptr_loop d first fuel hbs buff buffered = some (hbs1, r) := by
  intro k
  induction k with
  | zero =>
    intro buff fuel buffered hb hk _
    split at hk <;> omega
  | succ k ih =>
    intro buff fuel buffered hb hk hfuel
    obtain ⟨fuel1, rfl⟩ : ∃ m, fuel = m + 1 := ⟨fuel - 1, by omega⟩
    obtain ⟨b, hbb⟩ := getElem?_of_lt hb
    have hp := links_prev hl hbb
    rw [prev_index buff hbs.length hb] at hp
    obtain ⟨loc, -, hstep⟩ := read_ptr_loop_step d first fuel1 hbs buff buffered b hbb
    rw [hstep]
    by_cases h1 : d > buffered + loc
    · rw [if_pos h1]
      obtain ⟨st, sa, ea, w, r, nx, pv⟩ := b
      simp only at hp
      subst hp
      simp only
      obtain ⟨p, hpe, hplt, hpk⟩ : ∃ p, (if buff = 0 then hbs.length - 1 else buff - 1) = p ∧
          p < hbs.length ∧
          (p ≠ first → (if first < p then p - first else p + hbs.length - first) = k) := by
        by_cases hb0 : buff = 0
        · refine ⟨hbs.length - 1, by rw [if_pos hb0], by omega, fun hne => ?_⟩
          rw [if_neg (show ¬ first < buff by omega)] at hk
          rw [if_pos (show first < hbs.length - 1 by omega)]
          omega
        · refine ⟨buff - 1, by rw [if_neg hb0], by omega, fun hne => ?_⟩
          by_cases hfb : first < buff
          · rw [if_pos hfb] at hk
            rw [if_pos (show first < buff - 1 by omega)]
            omega
          · rw [if_neg hfb] at hk
            rw [if_neg (show ¬ first < buff - 1 by omega)]
            omega
      rw [hpe]
      by_cases hpv : p ≠ first
      · rw [if_pos hpv]
        exact ih p fuel1 _ hplt (hpk hpv) (by omega)
      · rw [if_neg hpv]
        exact ⟨_, _, rfl⟩
    · rw [if_neg h1]
      by_cases h2 : d = buffered + loc
      · rw [if_pos h2]
        exact ⟨_, _, rfl⟩
      · rw [if_neg h2]
        exact ⟨_, _, rfl⟩

/-- C23: on every circular ring and for every requested depth the two loops
of `kpb_init_draining` that locate the drain start return within as many
iterations as the ring has segments: the forward search for the write
segment, and the backward walk from it, which visits each segment at most
once, also when the bytes it counts never reach the depth. -/
theorem C23_backward_walk_terminates (hbs : List hb) (d fuel : Nat)
    (hl : links_circular hbs) (hfuel : hbs.length ≤ fuel) :
    ∃ f, find_free_buffer hbs 0 fuel 0 = some f ∧ f < hbs.length ∧
      (∃ hbs1 buff, read_ptr_loop d f hbs.length hbs f 0 = some (hbs1, buff)) ∧
      ∃ hbs1 buff, read_ptr_loop d f fuel hbs f 0 = some (hbs1, buff) := by
  obtain ⟨f, hf, -, hflt⟩ := find_free_buffer_circular hl hbs.length 0 fuel (by omega) hl.1 hfuel
  refine ⟨f, hf, hflt, ?_, ?_⟩
  · exact read_ptr_loop_circular hl d f hflt hbs.length f hbs.length 0 hflt
      (by rw [if_neg (Nat.lt_irrefl f)]; omega) (Nat.le_refl _)
  · exact read_ptr_loop_circular hl d f hflt hbs.length f fuel 0 hflt
      (by rw [if_neg (Nat.lt_irrefl f)]; omega) hfuel

/-- An instance of C23: the ring after 120 bytes and a depth of 1000 bytes,
more than the ring holds. -/
theorem C23_backward_walk_terminates_witness :
    links_circular (ex_written 120).hbs ∧
    ∃ f, find_free_buffer (ex_written 120).hbs 0 2 0 = some f ∧ f < (ex_written 120).hbs.length ∧
      (∃ hbs1 buff, read_ptr_loop 1000 f (ex_written 120).hbs.length (ex_written 120).hbs f 0
        = some (hbs1, buff)) ∧
      ∃ hbs1 buff, read_ptr_loop 1000 f 2 (ex_written 120).hbs f 0 = some (hbs1, buff) :=
  ⟨by decide, C23_backward_walk_terminates (ex_written 120).hbs 1000 2 (by decide) (by decide)⟩

/-! ### kpb_buffer_data on an arbitrary writable ring -/

/-- Being writable depends on the bounds, the links and the write cursors
only. -/
theorem writable_ring_congr {h1 h2 : List hb}
    (h : h1.map (fun b => (hb_geometry b, b.w_ptr)) = h2.map (fun b => (hb_geometry b, b.w_ptr)))
    (hw : writable_ring h2) : writable_ring h1 := by
  have hg : h1.map hb_geometry = h2.map hb_geometry := by
    have e : ∀ l : List hb,
        l.map hb_geometry = (l.map (fun b => (hb_geometry b, b.w_ptr))).map Prod.fst := by
      intro l; rw [List.map_map]; rfl
    rw [e h1, e h2, h]
  refine ⟨links_circular_geometry hg.symm hw.1, ?_⟩
  intro b1 hb1
  obtain ⟨i, hi⟩ := List.getElem?_of_mem hb1
  obtain ⟨b2, hb2, he⟩ := map_eq_getElem? _ h.symm hi
  have := hw.2 b2 (List.getElem?_mem hb2)
  unfold hb_geometry at he
  simp only [Prod.mk.injEq] at he
  omega

/-- Moving the write cursor of one segment to another place inside it keeps
the ring writable. -/
theorem writable_ring_set {hbs : List hb} (hw : writable_ring hbs) {i : Nat} {b : hb}
    (hbi : hbs[i]? = some b) (w : Nat) (h1 : b.start_addr ≤ w) (h2 : w < b.end_addr) :
    writable_ring (hbs.set i { b with w_ptr := w }) := by
  have hg := map_set_same hb_geometry hbs i b { b with w_ptr := w } hbi rfl
  refine ⟨links_circular_geometry hg.symm hw.1, ?_⟩
  intro x hx
  rcases List.mem_or_eq_of_mem_set hx with hx | hx
  · exact hw.2 x hx
  · have := hw.2 b (List.getElem?_mem hbi)
    rw [hx]
    exact ⟨h1, h2, this.2.2⟩

/-- The segment hand-over keeps a ring writable and moves to the next
segment. -/
theorem switch_buffer_writable {hbs : List hb} (hw : writable_ring hbs) {buff : Nat}
    (hb : buff < hbs.length) :
    ∃ hbs1, switch_buffer hbs buff = some (hbs1, (buff + 1) % hbs.length) ∧
      hbs1.length = hbs.length ∧ writable_ring hbs1 := by
  obtain ⟨hbs1, hsw, hlen, hp⟩ := switch_buffer_spec hw.1 hb
  refine ⟨hbs1, hsw, hlen, writable_ring_congr ?_ hw⟩
  apply map_eq_of_pointwise _ _ hp
  intro i x
  split
  · rfl
  · split <;> rfl

/-- On a writable ring the copy loop of `kpb_buffer_data` returns within
`size_to_copy` iterations, whatever the byte count, and leaves the ring
writable: every iteration that does not end the loop copies at least one
byte. -/
theorem kpb_buffer_loop_writable (src : Nat) :
    ∀ (fuel s : Nat) (hbs : List hb) (buff : Nat) (tr : List call),
      writable_ring hbs → buff < hbs.length → s ≤ fuel →
      ∃ hbs1 tr1, kpb_buffer_loop src fuel hbs buff s tr = some (hbs1, tr1) ∧
        writable_ring hbs1 := by
  intro fuel
  induction fuel with
  | zero =>
    intro s hbs buff tr hw _ hs
    have hs0 : s = 0 := by omega
    subst hs0
    exact ⟨hbs, tr, kpb_buffer_loop_zero _ _ _ _ _, hw⟩
  | succ fuel ih =>
    intro s hbs buff tr hw hb hs
    by_cases hs0 : s = 0
    · subst hs0
      exact ⟨hbs, tr, kpb_buffer_loop_zero _ _ _ _ _, hw⟩
    · obtain ⟨b, hbb⟩ := getElem?_of_lt hb
      obtain ⟨hb1, hb2, hb3⟩ := hw.2 b (List.getElem?_mem hbb)
      have hsp : sub32 b.end_addr b.w_ptr = b.end_addr - b.w_ptr :=
        sub32_eq _ _ (by omega) hb3
      rw [kpb_buffer_loop]
      simp only [hs0, if_false, hbb, hsp]
      have hwA := writable_ring_set hw hbb b.start_addr (Nat.le_refl _) (by omega)
      have hlenA : buff < (hbs.set buff { b with w_ptr := b.start_addr }).length := by
        rw [List.length_set]; exact hb
      obtain ⟨hbsS, hsw, hlenS, hwS⟩ := switch_buffer_writable hwA hlenA
      have hnext : (buff + 1) % (hbs.set buff { b with w_ptr := b.start_addr }).length
          < hbsS.length := by
        rw [hlenS]; exact Nat.mod_lt _ (by omega)
      by_cases hgt : s > b.end_addr - b.w_ptr
      · rw [if_pos hgt]
        simp only [hsw]
        exact ih _ hbsS _ _ hwS hnext (by omega)
      · rw [if_neg hgt]
        by_cases hend : b.w_ptr + s = b.end_addr
        · rw [if_pos hend]
          simp only [hsw]
          exact ⟨_, _, kpb_buffer_loop_zero _ _ _ _ _, hwS⟩
        · rw [if_neg hend]
          exact ⟨_, _, kpb_buffer_loop_zero _ _ _ _ _,
            writable_ring_set hw hbb (b.w_ptr + s) (by omega) (by omega)⟩

/-- C24: on every circular ring whose segments have their write cursor
inside them (`start <= w_ptr < end`, within the 32-bit address space)
`kpb_buffer_data` returns for every byte count, also one above the
capacity: the search for the write segment takes at most one iteration per
segment and the copy loop at most one per byte, since each iteration that
does not end it copies at least one byte. The ring it leaves is of the same
kind. -/
theorem C24_buffer_data_terminates (fuel : Nat) (kpb : kpb_comp_data) (source : comp_buffer)
    (size : Nat) (hw : writable_ring kpb.hbs) (hlen : kpb.hbs.length ≤ fuel)
    (hsize : size ≤ fuel) :
    ∃ kpb1 tr, kpb_buffer_data fuel kpb source size = some (kpb1, tr) ∧
      writable_ring kpb1.hbs := by
  obtain ⟨f, hf, -, hflt⟩ :=
    find_free_buffer_circular hw.1 kpb.hbs.length 0 fuel (by omega) hw.1.1 hlen
  obtain ⟨hbs1, tr1, hrun, hw1⟩ :=
    kpb_buffer_loop_writable source.r_ptr fuel size kpb.hbs f [] hw hflt hsize
  unfold kpb_buffer_data
  simp only [hf, hrun]
  exact ⟨_, _, rfl, hw1⟩

/-- An instance of C24: 1000 bytes written to the ring of 150 bytes. -/
theorem C24_buffer_data_terminates_witness :
    writable_ring ex_fresh.hbs ∧ capacity ex_fresh.hbs < 1000 ∧
    ∃ kpb1 tr, kpb_buffer_data 1000 ex_fresh ex_source 1000 = some (kpb1, tr) ∧
      writable_ring kpb1.hbs :=
  ⟨by decide, by decide,
   C24_buffer_data_terminates 1000 ex_fresh ex_source 1000 (by decide) (by decide) (by decide)⟩

/-! ### The client count -/

/-- C25 fails in the code: `kpb_prepare` resets every client slot to
UNREGISTERED but leaves `no_of_clients` as it is. On a new component
(`no_of_clients = 0`, two slots): prepare, register client 0 (count 1, one
slot taken), prepare again (after a reset, which changes nothing here) gives
both slots UNREGISTERED and `no_of_clients = 1`. Registering client 0 again gives `no_of_clients = 2`
with one slot taken, and client 1 is then refused (`-EINVAL`) although its
slot is free. -/
theorem C25_prepare_keeps_stale_count :
    (ex_created kpb_client_state.KPB_CLIENT_UNREGISTERED).no_of_clients = 0 ∧
    kpb_prepare 22 2 3 4 1 2 0 ex_bsink_list (ex_created kpb_client_state.KPB_CLIENT_UNREGISTERED)
      = some (0, ex_prepared, [call.notifier_register, call.schedule_task_init]) ∧
    (ex_prepared.no_of_clients, registered ex_prepared.clients) = (0, 0) ∧
    kpb_register_client 22 2 ex_prepared (some (ex_client_id 0 40)) = some (0, ex_registered) ∧
    (ex_registered.no_of_clients, registered ex_registered.clients) = (1, 1) ∧
    kpb_reset 0 ex_registered = (0, ex_registered) ∧
    kpb_prepare 22 2 3 4 1 2 0 ex_bsink_list ex_registered
      = some (0, ex_prepared_again, [call.notifier_register, call.schedule_task_init]) ∧
    (ex_prepared_again.no_of_clients, registered ex_prepared_again.clients) = (1, 0) ∧
    ((kpb_register_client 22 2 ex_prepared_again (some (ex_client_id 0 40))).bind
        (fun r => (kpb_register_client 22 2 r.2 (some (ex_client_id 1 40))).map
          (fun r1 => (r.1, r1.1, r1.2.no_of_clients, registered r1.2.clients))))
      = some (0, -22, 2, 1) := by
  decide

/-! ### Monotonicity of kpb_have_enough_history_data -/

theorem have_enough_loop_reached (hbs : List hb) (first_buff his_req fuel i B : Nat)
    (hB : ¬ B < his_req) :
    have_enough_loop hbs first_buff his_req fuel i B = some B := by
  cases fuel <;> simp [have_enough_loop, hB]

/-- One iteration of the accumulation loop: what the segment adds does not
depend on the depth asked for. -/
theorem have_enough_loop_succ (hbs : List hb) (i : Nat) (b : hb) (hbi : hbs[i]? = some b) :
    ∃ added : Option Nat, ∀ (first_buff d fuel B : Nat), B < d →
      have_enough_loop hbs first_buff d (fuel + 1) i B =
        match added with
        | none => none
        | some a =>
          match b.next with
          | none => some (B + a)
          | some nx =>
            if nx ≠ first_buff then have_enough_loop hbs first_buff d fuel nx (B + a)
            else some (B + a) := by
  refine ⟨(if b.state = kpb_buffer_state.KPB_BUFFER_FREE then
            if b.w_ptr = b.start_addr then
              match b.next with
              | none => none
              | some nx =>
                match hbs[nx]? with
                | none => none
                | some c =>
                  if c.state = kpb_buffer_state.KPB_BUFFER_FULL then
                    some (sub32 b.end_addr b.start_addr)
                  else some (sub32 b.w_ptr b.start_addr)
            else some (sub32 b.w_ptr b.start_addr)
          else some (sub32 b.end_addr b.start_addr)), ?_⟩
  intro first_buff d fuel B hB
  rw [have_enough_loop, if_pos hB]
  simp only [hbi]

/-- A run of the accumulation loop that reaches the depth `d` also reaches
every smaller depth, on the same fuel. -/
theorem have_enough_loop_mono (hbs : List hb) (first_buff d d1 : Nat) (hd : d1 ≤ d) :
    ∀ (fuel i B T : Nat), have_enough_loop hbs first_buff d fuel i B = some T → d ≤ T →
      ∃ T1, have_enough_loop hbs first_buff d1 fuel i B = some T1 ∧ d1 ≤ T1 := by
  intro fuel
  induction fuel with
  | zero =>
    intro i B T h hT
    rw [have_enough_loop] at h
    by_cases hB : B < d
    · rw [if_pos hB] at h
      cases h
    · exact ⟨B, have_enough_loop_reached _ _ _ _ _ _ (by omega), by omega⟩
  | succ fuel ih =>
    intro i B T h hT
    by_cases hB1 : B < d1
    · have hB : B < d := by omega
      cases hbi : hbs[i]? with
      | none =>
        rw [have_enough_loop, if_pos hB] at h
        simp [hbi] at h
      | some b =>
        obtain ⟨added, hstep⟩ := have_enough_loop_succ hbs i b hbi
        rw [hstep first_buff d fuel B hB] at h
        rw [hstep first_buff d1 fuel B hB1]
        cases added with
        | none => cases h
        | some a =>
          simp only at h ⊢
          cases hnx : b.next with
          | none =>
            exact ⟨B + a, rfl, by
              rw [hnx] at h
              simp only [Option.some.injEq] at h
              omega⟩
          | some nx =>
            rw [hnx] at h
            simp only at h ⊢
            by_cases hne : nx ≠ first_buff
            · rw [if_pos hne] at h ⊢
              exact ih nx (B + a) T h hT
            · rw [if_neg hne] at h ⊢
              simp only [Option.some.injEq] at h
              exact ⟨B + a, rfl, by omega⟩
    · exact ⟨B, have_enough_loop_reached _ _ _ _ _ _ hB1, by omega⟩

/-- C26: `kpb_have_enough_history_data` is monotone in the requested depth:
for every component state, starting segment and fuel, if it returns 1 for
the depth `d` then it returns 1 for every depth `d1 <= d`; and it returns 1
for the depth 0. -/
theorem C26_have_enough_monotone (fuel : Nat) (kpb : kpb_comp_data) (buff d d1 : Nat)
    (hle : d1 ≤ d) (h : kpb_have_enough_history_data fuel kpb buff d = some 1) :
    kpb_have_enough_history_data fuel kpb buff d1 = some 1 ∧
    kpb_have_enough_history_data fuel kpb buff 0 = some 1 := by
  have hzero : kpb_have_enough_history_data fuel kpb buff 0 = some 1 := by
    unfold kpb_have_enough_history_data
    split
    · rfl
    · rw [have_enough_loop_reached _ _ _ _ _ _ (by omega)]
      rfl
  refine ⟨?_, hzero⟩
  unfold kpb_have_enough_history_data at h ⊢
  by_cases hf : kpb.is_internal_buffer_full = true
  · rw [if_pos hf]
  · rw [if_neg hf] at h ⊢
    cases hrun : have_enough_loop kpb.hbs buff d fuel buff 0 with
    | none => simp [hrun] at h
    | some T =>
      simp only [hrun, Option.some.injEq] at h
      have hT : d ≤ T := by
        by_contra hc
        rw [if_neg hc] at h
        cases h
      obtain ⟨T1, hrun1, hT1⟩ := have_enough_loop_mono kpb.hbs buff d d1 hle fuel buff 0 T hrun hT
      simp only [hrun1]
      rw [if_pos hT1]

/-- An instance of C26: 120 bytes buffered, depths 110 and 60. -/
theorem C26_have_enough_monotone_witness :
    60 ≤ 110 ∧ kpb_have_enough_history_data 2 (ex_written 120) 0 110 = some 1 ∧
    kpb_have_enough_history_data 2 (ex_written 120) 0 60 = some 1 ∧
    kpb_have_enough_history_data 2 (ex_written 120) 0 0 = some 1 :=
  ⟨by decide, by decide,
   C26_have_enough_monotone 2 (ex_written 120) 0 110 60 (by decide) (by decide)⟩

/-! ### Sizes in the allocation loop of kpb_new -/

theorem set_last {α : Type} (l : List α) (x y : α) : (l ++ [x]).set l.length y = l ++ [y] := by
  induction l with
  | nil => rfl
  | cons a l ih => simp [ih]

theorem granted_append (rs : List request) (q : request) :
    granted (rs ++ [q]) = granted rs ++ (if q.ptr ≠ 0 then [q] else []) := by
  unfold granted
  rw [List.filter_append]
  by_cases h : q.ptr ≠ 0
  · simp [h]
  · simp [h]

theorem granted_ptr {rs : List request} {q : request} (h : q ∈ granted rs) : q.ptr ≠ 0 := by
  unfold granted at h
  have := (List.mem_filter.mp h).2
  simpa using this

theorem extent_set (hbs : List hb) (i : Nat) (x : hb) :
    (hbs.set i x).map extent = (hbs.map extent).set i (extent x) := by
  rw [List.map_set]

/-- The extents of the arena after the current (last) descriptor was filled
by a request granted at `ptr` with `size` bytes. -/
theorem extent_fill {hbs : List hb} {gs : List (Nat × Nat)} {i : Nat} (x : hb)
    (hlen : hbs.length = i + 1) (hmap : hbs.map extent = gs ++ [(0, 0)]) :
    (hbs.set i x).map extent = gs ++ [extent x] := by
  have hg : gs.length = i := by
    have := congrArg List.length hmap
    simp only [List.length_map, List.length_append, List.length_singleton] at this
    omega
  rw [extent_set, hmap, ← hg, set_last]

/-- The allocation loop of `kpb_new` keeps `alloc_sizes`. -/
theorem kpb_new_loop_sizes (step pools maxb : Nat) (rballoc : List request → Nat → Nat → Nat)
    (hmax : maxb < 2 ^ 32) (h0 : 0 < step) (h1 : step < 2 ^ 32) :
    ∀ (fuel : Nat) (s s1 : alloc_state), alloc_sizes maxb pools s →
      kpb_new_loop step pools rballoc fuel s = some s1 → alloc_sizes maxb pools s1 := by
  intro fuel
  induction fuel with
  | zero =>
    intro s s1 _ h
    rw [kpb_new_loop] at h
    cases h
  | succ fuel ih =>
    intro s s1 hinv h
    by_cases hc : 0 < s.hb_size ∧ s.i < pools
    · obtain ⟨hlen, hi, hca0, hreq, hsum, hcount, tail, -, htail0, hmap⟩ := hinv
      obtain ⟨hca, hcap⟩ := hca0 hc.1
      have htail := htail0 hc.1
      subst htail
      have hcnt : (granted s.requests).length ≤ s.i := by
        rcases hcount with hx | hx
        · exact hx
        · omega
      have hhb : s.hb_size ≤ maxb := by omega
      have hreq1 : ∀ q ∈ s.requests ++
          [({ pool := s.i, size := s.ca_size, ptr := rballoc s.requests s.i s.ca_size } :
            request)], 0 < q.size ∧ q.size ≤ maxb := by
        intro q hq
        rcases List.mem_append.mp hq with hq | hq
        · exact hreq q hq
        · rw [List.mem_singleton.mp hq]
          exact ⟨hcap, by show s.ca_size ≤ maxb; omega⟩
      rw [kpb_new_loop, if_pos hc] at h
      simp only at h
      by_cases hp : rballoc s.requests s.i s.ca_size ≠ 0
      · rw [if_pos hp] at h
        obtain ⟨b, hbb⟩ := getElem?_of_lt (show s.history_buffer < s.hbs.length by omega)
        obtain ⟨hd, hhd⟩ := getElem?_of_lt (show 0 < s.hbs.length by omega)
        simp only [hbb] at h
        have hsub : sub32 s.hb_size s.ca_size = s.hb_size - s.ca_size :=
          sub32_eq _ _ hca (by omega)
        rw [hsub] at h
        have hg : granted (s.requests ++
            [({ pool := s.i, size := s.ca_size, ptr := rballoc s.requests s.i s.ca_size } :
              request)]) = granted s.requests ++
            [({ pool := s.i, size := s.ca_size, ptr := rballoc s.requests s.i s.ca_size } :
              request)] := by
          rw [granted_append, if_pos hp]
        by_cases hmore : 0 < s.hb_size - s.ca_size
        · rw [if_pos hmore] at h
          obtain ⟨h2, hh2, -, -⟩ := head_after_set s.hbs s.history_buffer
            { start_addr := rballoc s.requests s.i s.ca_size,
              end_addr := rballoc s.requests s.i s.ca_size + s.ca_size,
              w_ptr := rballoc s.requests s.i s.ca_size,
              r_ptr := rballoc s.requests s.i s.ca_size,
              state := kpb_buffer_state.KPB_BUFFER_FREE,
              next := some s.hbs.length, prev := b.prev } hd hhd (by omega)
          have hlen2 : 0 < (s.hbs.set s.history_buffer
            { start_addr := rballoc s.requests s.i s.ca_size,
              end_addr := rballoc s.requests s.i s.ca_size + s.ca_size,
              w_ptr := rballoc s.requests s.i s.ca_size,
              r_ptr := rballoc s.requests s.i s.ca_size,
              state := kpb_buffer_state.KPB_BUFFER_FREE,
              next := some s.hbs.length, prev := b.prev }).length := by
            rw [List.length_set]; omega
          have hh3 : (s.hbs.set s.history_buffer
              { start_addr := rballoc s.requests s.i s.ca_size,
                end_addr := rballoc s.requests s.i s.ca_size + s.ca_size,
                w_ptr := rballoc s.requests s.i s.ca_size,
                r_ptr := rballoc s.requests s.i s.ca_size,
                state := kpb_buffer_state.KPB_BUFFER_FREE,
                next := some s.hbs.length, prev := b.prev } ++
              [({ state := kpb_buffer_state.KPB_BUFFER_OFF, start_addr := 0, end_addr := 0,
                  w_ptr := 0, r_ptr := 0, next := none,
                  prev := some s.history_buffer } : hb)])[0]? = some h2 := by
            rw [List.getElem?_append_left hlen2]; exact hh2
          rw [hh3] at h
          simp only at h
          refine ih _ s1 ?_ h
          refine ⟨?_, ?_, fun hx => ⟨Nat.le_refl _, hx⟩, hreq1, ?_, Or.inl ?_, [(0, 0)],
            Or.inr rfl, fun _ => rfl, ?_⟩
          · show (List.set _ 0 _).length = s.hbs.length + 1
            rw [List.length_set, List.length_append, List.length_set]
            rfl
          · show s.i + 1 ≤ pools
            omega
          · show ((granted _).map request.size).sum + (s.hb_size - s.ca_size) = maxb
            rw [hg, List.map_append, List.sum_append]
            simp only [List.map_cons, List.map_nil, List.sum_cons, List.sum_nil]
            omega
          · show (granted _).length ≤ s.i + 1
            rw [hg, List.length_append]
            simp only [List.length_singleton]
            omega
          · show (List.set _ 0 _).map extent = (granted _).map request_extent ++ [(0, 0)]
            rw [map_set_same extent _ 0 h2 { h2 with prev := some s.hbs.length } hh3 rfl, hg,
              List.map_append,
              extent_fill _ hlen hmap, List.map_append]
            rfl
        · rw [if_neg hmore] at h
          refine ih _ s1 ?_ h
          refine ⟨?_, hi, fun hx => absurd hx hmore, hreq1, ?_, Or.inr ⟨?_, ?_⟩, [],
            Or.inl rfl, fun hx => absurd hx hmore, ?_⟩
          · show (List.set _ _ _).length = s.history_buffer + 1
            rw [List.length_set]; exact hlen
          · show ((granted _).map request.size).sum + (s.hb_size - s.ca_size) = maxb
            rw [hg, List.map_append, List.sum_append]
            simp only [List.map_cons, List.map_nil, List.sum_cons, List.sum_nil]
            omega
          · show s.hb_size - s.ca_size = 0
            omega
          · show (granted _).length ≤ pools
            rw [hg, List.length_append]
            simp only [List.length_singleton]
            omega
          · show (List.set _ _ _).map extent = (granted _).map request_extent ++ []
            rw [extent_fill _ hlen hmap, hg, List.map_append, List.append_nil]
            rfl
      · rw [if_neg hp] at h
        have hp0 : rballoc s.requests s.i s.ca_size = 0 := by
          by_contra hx; exact hp hx
        have hg : granted (s.requests ++
            [({ pool := s.i, size := s.ca_size, ptr := rballoc s.requests s.i s.ca_size } :
              request)]) = granted s.requests := by
          rw [granted_append, if_neg (fun hx => hx hp0), List.append_nil]
        rw [retry_size s.ca_size step (by omega) h0 h1] at h
        by_cases hz : s.ca_size - step = 0
        · rw [if_pos hz] at h
          refine ih _ s1 ?_ h
          refine ⟨hlen, ?_, fun hx => ⟨Nat.le_refl _, hx⟩, hreq1, ?_, Or.inl ?_, [(0, 0)],
            Or.inr rfl, fun _ => rfl, ?_⟩
          · show s.i + 1 ≤ pools
            omega
          · show ((granted _).map request.size).sum + s.hb_size = maxb
            rw [hg]; exact hsum
          · show (granted _).length ≤ s.i + 1
            rw [hg]; omega
          · show s.hbs.map extent = (granted _).map request_extent ++ [(0, 0)]
            rw [hg]; exact hmap
        · rw [if_neg hz] at h
          refine ih _ s1 ?_ h
          refine ⟨hlen, hi, fun _ => ⟨?_, ?_⟩, hreq1, ?_, Or.inl ?_, [(0, 0)],
            Or.inr rfl, fun _ => rfl, ?_⟩
          · show s.ca_size - step ≤ s.hb_size
            omega
          · show 0 < s.ca_size - step
            omega
          · show ((granted _).map request.size).sum + s.hb_size = maxb
            rw [hg]; exact hsum
          · show (granted _).length ≤ s.i
            rw [hg]; exact hcnt
          · show s.hbs.map extent = (granted _).map request_extent ++ [(0, 0)]
            rw [hg]; exact hmap
    · rw [kpb_new_loop_exit _ _ _ _ _ hc] at h
      simp only [Option.some.injEq] at h
      rw [← h]; exact hinv

/-- The memory-backed segments of an arena that holds the segments of the
granted requests, possibly followed by one empty descriptor. -/
theorem backed_extents {hbs : List hb} {gs : List request} {tail : List (Nat × Nat)}
    (hmap : hbs.map extent = gs.map request_extent ++ tail)
    (htail : tail = [] ∨ tail = [(0, 0)]) (hgs : ∀ q ∈ gs, q.ptr ≠ 0) :
    (hbs.filter backed).map extent = gs.map request_extent := by
  have e : (hbs.filter backed).map extent
      = (hbs.map extent).filter (fun p => decide (p.1 ≠ 0)) := by
    rw [List.filter_map]
    rfl
  rw [e, hmap, List.filter_append]
  have e1 : (gs.map request_extent).filter (fun p => decide (p.1 ≠ 0))
      = gs.map request_extent := by
    rw [List.filter_eq_self]
    intro a ha
    obtain ⟨q, hq, rfl⟩ := List.mem_map.mp ha
    simpa [request_extent] using hgs q hq
  have e2 : tail.filter (fun p => decide (p.1 ≠ 0)) = [] := by
    rcases htail with h | h <;> subst h <;> rfl
  rw [e1, e2, List.append_nil]

theorem seg_size_of_extent (l : List hb) :
    l.map seg_size = (l.map extent).map (fun p => p.2 - p.1) := by
  rw [List.map_map]
  rfl

theorem size_of_request_extent (gs : List request) :
    (gs.map request_extent).map (fun p => p.2 - p.1) = gs.map request.size := by
  rw [List.map_map]
  apply List.map_congr_left
  intro q _
  show q.ptr + q.size - q.ptr = q.size
  omega

/-- C27: for every allocator and every `KPB_ALLOCATION_STEP > 0` the
allocation loop of `kpb_new`, entered with the zeroed head, returns within
`(pools + 1) * (KPB_MAX_BUFFER_SIZE + 1)` iterations; the memory-backed
segments it leaves are the segments of the granted requests, at most
`KPB_NO_OF_MEM_POOLS` of them, their sizes add up to at most
`KPB_MAX_BUFFER_SIZE`, and every size asked for is positive and at most
`KPB_MAX_BUFFER_SIZE`. The step-down of the size asked for is `ca - step`
cut off at 0, never a wrapped value. -/
theorem C27_allocation_loop_bounded (step pools maxb fuel : Nat)
    (rballoc : List request → Nat → Nat → Nat) (h0 : hb)
    (hstart : h0.start_addr = 0) (hend : h0.end_addr = 0)
    (hstep0 : 0 < step) (hstep1 : step < 2 ^ 32) (hmax : maxb < 2 ^ 32)
    (hfuel : (pools + 1) * (maxb + 1) ≤ fuel) :
    (∃ s1, kpb_new_loop step pools rballoc fuel (alloc_start maxb h0) = some s1 ∧
      (s1.hbs.filter backed).map extent = (granted s1.requests).map request_extent ∧
      (s1.hbs.filter backed).length ≤ pools ∧
      ((s1.hbs.filter backed).map seg_size).sum ≤ maxb ∧
      (∀ q ∈ s1.requests, 0 < q.size ∧ q.size ≤ maxb)) ∧
    (∀ ca, ca < 2 ^ 32 → (if ca < sub32 ca step then 0 else sub32 ca step) = ca - step) := by
  refine ⟨?_, fun ca hca => retry_size ca step hca hstep0 hstep1⟩
  have hinit : alloc_inv maxb (alloc_start maxb h0) := by
    refine ⟨fun _ => Nat.le_refl _, Nat.le_refl _, fun hx => hx, ?_,
      { h0 with next := some 0, prev := some 0 }, rfl, Or.inl ⟨hstart, rfl, ?_⟩⟩
    · show 0 < 1
      omega
    · intro q hq
      cases hq
  have hsizes : alloc_sizes maxb pools (alloc_start maxb h0) := by
    refine ⟨rfl, Nat.zero_le _, fun hx => ⟨Nat.le_refl _, hx⟩, ?_, ?_, Or.inl (Nat.le_refl _),
      [(0, 0)], Or.inr rfl, fun _ => rfl, ?_⟩
    · intro q hq
      cases hq
    · show 0 + maxb = maxb
      omega
    · show [(h0.start_addr, h0.end_addr)] = [(0, 0)]
      rw [hstart, hend]
  have hf : (pools - (alloc_start maxb h0).i) * (maxb + 1) + (alloc_start maxb h0).ca_size + 1
      ≤ fuel := by
    show (pools - 0) * (maxb + 1) + maxb + 1 ≤ fuel
    rw [Nat.add_mul, Nat.one_mul] at hfuel
    rw [Nat.sub_zero]
    omega
  obtain ⟨s1, hrun, -⟩ :=
    kpb_new_loop_total step pools maxb rballoc hmax hstep0 hstep1 fuel _ hinit hf
  obtain ⟨-, hi, -, hreq, hsum, hcount, tail, htail, -, hmap⟩ :=
    kpb_new_loop_sizes step pools maxb rballoc hmax hstep0 hstep1 fuel _ s1 hsizes hrun
  have hext := backed_extents hmap htail (fun q hq => granted_ptr hq)
  refine ⟨s1, hrun, hext, ?_, ?_, hreq⟩
  · have := congrArg List.length hext
    simp only [List.length_map] at this
    rw [this]
    rcases hcount with hx | hx
    · omega
    · exact hx.2
  · rw [seg_size_of_extent, hext, size_of_request_extent]
    omega

/-- An instance of C27: the allocator that grants requests of at most 100
bytes, with 150 bytes wanted in steps of 50 from three pools. -/
theorem C27_allocation_loop_bounded_witness :
    (∃ s1, kpb_new_loop 50 3 ex_rballoc_small 604 (alloc_start 150 ex_zero_hb) = some s1 ∧
      (s1.hbs.filter backed).map extent = (granted s1.requests).map request_extent ∧
      (s1.hbs.filter backed).length ≤ 3 ∧
      ((s1.hbs.filter backed).map seg_size).sum ≤ 150 ∧
      (∀ q ∈ s1.requests, 0 < q.size ∧ q.size ≤ 150)) ∧
    (∀ ca, ca < 2 ^ 32 → (if ca < sub32 ca 50 then 0 else sub32 ca 50) = ca - 50) :=
  C27_allocation_loop_bounded 50 3 150 604 ex_rballoc_small ex_zero_hb rfl rfl (by decide)
    (by decide) (by decide) (by decide)

/-! ### The drain start on a wrapped ring -/

/-- C2 fails in the code: on the ring of 100 and 50 bytes, after two
`kpb_copy` cycles of 150 and 20 bytes (170 bytes written, the ring wrapped,
`is_internal_buffer_full` set), a drain of depth 100, which the ring holds,
is accepted. The backward walk of `kpb_init_draining` counts only
`w_ptr - start_addr = 20` bytes for the write segment and 50 for the FULL
one, comes back to the segment it started from with 70 < 100 and stores no
`r_ptr`: the drain is scheduled from segment 0 at its old `r_ptr = 1000`,
which lies 20 bytes behind the write position, not 100. -/
theorem C2_wrapped_ring_start_not_located :
    kpb_copy_cycles 22 5 150 4 200 [ex_cycle 150 150, ex_cycle 20 20] ex_fresh 0
      = some (ex_wrapped, 150) ∧
    ex_wrapped.is_internal_buffer_full = true ∧
    ex_wrapped.hbs =
      [{ state := kpb_buffer_state.KPB_BUFFER_FREE, start_addr := 1000, end_addr := 1100,
         w_ptr := 1020, r_ptr := 1000, next := some 1, prev := some 1 },
       { state := kpb_buffer_state.KPB_BUFFER_FULL, start_addr := 2000, end_addr := 2050,
         w_ptr := 2000, r_ptr := 2000, next := some 0, prev := some 0 }] ∧
    (ex_client 100).history_depth ≤ capacity ex_wrapped.hbs ∧
    counted ex_wrapped.hbs = 70 ∧
    kpb_have_enough_history_data 2 ex_wrapped 0 (ex_client 100).history_depth = some 1 ∧
    (kpb_init_draining 2 5 2 ex_wrapped (ex_sink 10) (ex_client 100)).map
        (fun r => (r.2, r.1.draining_task_data, r.1.hbs.map hb.r_ptr, drain_distance r.1))
      = some ([call.schedule_task],
              { sink := 7, history_buffer := some 0, history_depth := 100, state := true },
              [1000, 2000], some 20) := by
  decide

/-! ### kpb_copy on an incompletely allocated ring -/

/-- On a descriptor without memory and without successor the copy loop of
`kpb_buffer_data` makes no progress: with bytes left to copy it does not
return, whatever the fuel. -/
theorem kpb_buffer_loop_stuck (src : Nat) :
    ∀ (fuel : Nat) (hbs : List hb) (i s : Nat) (tr : List call), 0 < s →
      (∃ b, hbs[i]? = some b ∧ b.w_ptr = b.end_addr ∧ b.start_addr = b.end_addr ∧
        b.next = none) →
      kpb_buffer_loop src fuel hbs i s tr = none := by
  intro fuel
  induction fuel with
  | zero =>
    intro hbs i s tr hs _
    rw [kpb_buffer_loop, if_neg (by omega)]
  | succ fuel ih =>
    intro hbs i s tr hs hstuck
    obtain ⟨b, hbi, hw, hse, hnx⟩ := hstuck
    obtain ⟨st, sa, ea, w, r, nx, pv⟩ := b
    simp only at hw hse hnx
    subst hw hse hnx
    have hi : i < hbs.length := getElem?_lt hbi
    have hsp : sub32 sa sa = 0 := by unfold sub32; omega
    rw [kpb_buffer_loop, if_neg (show ¬ s = 0 by omega)]
    simp only [hbi, hsp]
    rw [if_pos (show s > 0 by omega)]
    have hsw : switch_buffer (hbs.set i ⟨st, sa, sa, sa, r, none, pv⟩) i
        = some ((hbs.set i ⟨st, sa, sa, sa, r, none, pv⟩).set i
            ⟨kpb_buffer_state.KPB_BUFFER_FREE, sa, sa, sa, r, none, pv⟩, i) := by
      unfold switch_buffer
      simp only [List.getElem?_set, if_true, hi]
    simp only [hsw]
    apply ih
    · omega
    · refine ⟨⟨kpb_buffer_state.KPB_BUFFER_FREE, sa, sa, sa, r, none, pv⟩, ?_, rfl, rfl, rfl⟩
      simp only [List.getElem?_set, if_true, List.length_set, hi]

/-- The first iteration of the copy loop on `ex_short_ring` with 120 bytes:
100 bytes go to the head, the loop moves on to the descriptor without memory
with 20 bytes left. -/
theorem kpb_buffer_loop_short_head (n : Nat) (tr : List call) :
    kpb_buffer_loop 5000 (n + 1) ex_short_ring 0 120 tr
      = kpb_buffer_loop 5000 n ex_stuck_ring 1 20 (tr ++ [call.memcpy 1000 5000 100]) := by
  rw [kpb_buffer_loop]
  rfl

/-- On the component `ex_short` a write of 120 bytes does not return,
whatever the fuel. -/
theorem kpb_buffer_data_short (fuel : Nat) :
    kpb_buffer_data fuel ex_short (ex_cycle 120 120).source 120 = none := by
  cases fuel with
  | zero => rfl
  | succ n =>
    have hff : find_free_buffer ex_short.hbs 0 (n + 1) 0 = some 0 := by
      rw [find_free_buffer]
      rfl
    unfold kpb_buffer_data
    rw [hff]
    have hrun : kpb_buffer_loop (ex_cycle 120 120).source.r_ptr (n + 1) ex_short.hbs 0 120 []
        = none := by
      show kpb_buffer_loop 5000 (n + 1) ex_short_ring 0 120 [] = none
      rw [kpb_buffer_loop_short_head]
      exact kpb_buffer_loop_stuck 5000 n ex_stuck_ring 1 20 _ (by omega)
        ⟨_, rfl, rfl, rfl, rfl⟩
    simp only [hrun]

/-- When the history write does not return, `kpb_copy` does not return. -/
theorem kpb_copy_hangs (EINVAL EIO maxb paused fuel : Nat) (kpb : kpb_comp_data)
    (buffered source_addr : Nat) (source rt_sink cli_sink : comp_buffer)
    (hsrc : source_addr ≠ 0) (hsink : copy_sink_addr kpb ≠ 0)
    (hrt : kpb.state ≠ kpb_state.KPB_BUFFERING → kpb.rt_sink ≠ 0)
    (hr : source.r_ptr ≠ 0) (hw : (copy_sink kpb rt_sink cli_sink).w_ptr ≠ 0)
    (hfree : 0 < (copy_sink kpb rt_sink cli_sink).free) (havail : 0 < source.avail)
    (hmax : source.avail ≤ maxb)
    (hrun : kpb_buffer_data fuel kpb source
      (min (copy_sink kpb rt_sink cli_sink).free source.avail) = none) :
    kpb_copy EINVAL EIO maxb paused fuel kpb buffered source_addr source rt_sink cli_sink
      = none := by
  unfold copy_sink at hw hfree hrun
  unfold copy_sink_addr at hsink
  unfold kpb_copy
  simp only
  rw [if_neg (show ¬ (kpb.state ≠ kpb_state.KPB_BUFFERING ∧ kpb.rt_sink = 0) from
    fun h => hrt h.1 h.2)]
  rw [if_pos (And.intro hsrc hsink)]
  rw [if_neg (show ¬ (source.r_ptr = 0 ∨
      (if kpb.state = kpb_state.KPB_BUFFERING then rt_sink else cli_sink).w_ptr = 0) from
    fun h => h.elim hr hw)]
  rw [if_neg (show ¬ (if kpb.state = kpb_state.KPB_BUFFERING then rt_sink else cli_sink).free = 0
    by omega)]
  rw [if_neg (show ¬ source.avail = 0 by omega)]
  rw [if_pos hmax]
  simp only [hrun]

/-- C16 fails in the code: `kpb_new`, granted only 100 of its 150 bytes,
returns the component `ex_short`, whose ring is the head followed by a
descriptor without memory and with `next = NULL`. In that component, with
source and sink present, valid pointers, `sink.free = 120 > 0` and
`source.avail = 120 > 0`, `kpb_copy` copies to the sink and enters
`kpb_buffer_data` with 120 bytes: 100 go to the head, then the loop stands on
the empty descriptor with `space_avail = 0` and 20 bytes left for ever. The
call does not return, for any fuel, so it neither returns 0 nor makes the
produce and consume calls. -/
theorem C16_copy_hangs_on_incomplete_ring :
    (kpb_new 2 150 16000 16 50 3 ex_rballoc_second 10 ex_config
        (ex_zeroed kpb_buffer_state.KPB_BUFFER_FREE)).map Prod.fst = some (some ex_short) ∧
    ((77 : Nat) ≠ 0 ∧ copy_sink_addr ex_short ≠ 0 ∧ (ex_cycle 120 120).source.r_ptr ≠ 0 ∧
      (copy_sink ex_short (ex_cycle 120 120).rt_sink (ex_cycle 120 120).cli_sink).w_ptr ≠ 0 ∧
      0 < (copy_sink ex_short (ex_cycle 120 120).rt_sink (ex_cycle 120 120).cli_sink).free ∧
      0 < (ex_cycle 120 120).source.avail) ∧
    ∀ fuel, kpb_copy 22 5 150 4 fuel ex_short 0 77 (ex_cycle 120 120).source
      (ex_cycle 120 120).rt_sink (ex_cycle 120 120).cli_sink = none :=
  ⟨by decide, by decide, fun fuel =>
    kpb_copy_hangs 22 5 150 4 fuel ex_short 0 77 _ _ _ (by decide) (by decide) (by decide)
      (by decide) (by decide) (by decide) (by decide) (by decide)
      (kpb_buffer_data_short fuel)⟩

end Kpb
